import Mathlib

/-!
Op-split transformation (`experimental/xformer/Transforms/OpSplit.cpp`).

A shallow embedding of the two rewrite patterns of the `xcore-op-split` pass,
`OpSplitPattern` and `RaiseStridedSlicePattern`, over a small model of the
host IR (values, operations, unit attributes, a rewriter that creates, clones
and replaces operations), followed by theorems about them.

Machine integers are mathematical integers with the conversions of the source
made explicit (`toInt32`, `toUInt32`, `toInt64`, `toSizeT`).
-/

namespace OpSplit

/-! ## Machine integers -/

/-- Conversion to `int32_t`: the two's-complement value of the low 32 bits. -/
def toInt32 (x : Int) : Int := (x + 2147483648) % 4294967296 - 2147483648

/-- Conversion to `uint32_t`. -/
def toUInt32 (x : Int) : Int := x % 4294967296

/-- Conversion to `int64_t`: the two's-complement value of the low 64 bits. -/
def toInt64 (x : Int) : Int :=
  (x + 9223372036854775808) % 18446744073709551616 - 9223372036854775808

/-- Conversion to `size_t` (64-bit unsigned). -/
def toSizeT (x : Int) : Int := x % 18446744073709551616

/-! ## Host IR -/

/-- Element types of tensors; `quant` is `quant::QuantizedType` with its
signedness and the bit width of its integral storage type. -/
inductive ElementType where
  | quant (isSigned : Bool) (storageTypeIntegralWidth : Nat)
  | integer (width : Nat)
  | float (width : Nat)
  deriving DecidableEq, Repr

/-- The test `isa<quant::QuantizedType>() && isSigned() &&
getStorageTypeIntegralWidth() == 8` of the source. -/
def ElementType.isQI8 : ElementType → Bool
  | .quant isSigned storageTypeIntegralWidth => isSigned && storageTypeIntegralWidth == 8
  | _ => false

/-- A ranked tensor type: its shape (64-bit extents) and element type. -/
structure RankedTensorType where
  shape : List Int
  elementType : ElementType
  deriving DecidableEq, Repr

/-- The extent of dimension `i`; `none` when the type has no such dimension
(the source asserts there). -/
def RankedTensorType.getDimSize (t : RankedTensorType) (i : Nat) : Option Int := t.shape[i]?

/-- An SSA value: an identity and its type. -/
structure Value where
  id : Nat
  type : RankedTensorType
  deriving DecidableEq, Repr

/-- Operation kinds with the inherent attributes the pass reads or writes.
Operand order follows the TFL dialect: `conv2d` has `input, filter, bias`;
`stridedSlice` has `input, begin, end, strides`; `concatenation` has its
values; `constant` (an `arith.constant` holding an i32 tensor) has none. -/
inductive OpKind where
  | conv2d (padding : String) (stride_h stride_w : Nat)
  | stridedSlice (begin_mask end_mask ellipsis_mask new_axis_mask shrink_axis_mask : Int)
  | concatenation (axis : Int) (fused_activation_function : String)
  | constant (values : List Int)
  | other (name : String)
  deriving DecidableEq, Repr

/-- An operation with one result and a set of unit attributes (labels). -/
structure Operation where
  kind : OpKind
  operands : List Value
  result : Value
  attrs : List String
  deriving DecidableEq, Repr

def opSplitLabel : String := "opSplitLabel"

def raisedStridedSliceLabel : String := "raisedStridedSliceLabel"

def Operation.hasAttr (op : Operation) (name : String) : Bool := op.attrs.contains name

/-- The operation with every operand of identity `id` replaced by `newValue`. -/
def Operation.replaceUsesOfWith (o : Operation) (id : Nat) (newValue : Value) : Operation :=
  { o with operands := o.operands.map (fun v => if v.id = id then newValue else v) }

/-- The outcome of a pattern application. -/
inductive LogicalResult where
  | success
  | failure
  deriving DecidableEq, Repr

/-- The function body under rewriting: its operations in creation order and
the next unused value identity. -/
structure Graph where
  ops : List Operation
  nextId : Nat
  deriving DecidableEq, Repr

/-- The type of the 4-element i32 tensors made by `getI32TensorAttr`. -/
def i32x4 : RankedTensorType := ⟨[4], .integer 32⟩

namespace Graph

/-- The operation defining a value, if any (`Value::getDefiningOp`). -/
def getDefiningOp (g : Graph) (v : Value) : Option Operation :=
  g.ops.find? (fun o => o.result.id == v.id)

/-- The call `rewriter.create<Op>(...)`: a new operation with a fresh result. -/
def create (g : Graph) (kind : OpKind) (operands : List Value) (type : RankedTensorType) :
    Graph × Operation :=
  let op : Operation := { kind := kind, operands := operands, result := ⟨g.nextId, type⟩, attrs := [] }
  ({ ops := g.ops ++ [op], nextId := g.nextId + 1 }, op)

/-- The call `rewriter.clone(op)`: a copy with the same kind, operands and
attributes and a fresh result of the same type. -/
def clone (g : Graph) (op : Operation) : Graph × Operation :=
  let op2 : Operation := { op with result := ⟨g.nextId, op.result.type⟩ }
  ({ ops := g.ops ++ [op2], nextId := g.nextId + 1 }, op2)

/-- The call `op->setAttr(name, unit)` on an operation of the graph. -/
def setAttr (g : Graph) (op : Operation) (name : String) : Graph :=
  { g with ops := g.ops.map (fun o =>
      if o.result.id = op.result.id then
        (if o.hasAttr name then o else { o with attrs := o.attrs ++ [name] })
      else o) }

/-- The call `op->getResult(0).setType(type)` on an operation without uses. -/
def setResultType (g : Graph) (op : Operation) (type : RankedTensorType) : Graph :=
  { g with ops := g.ops.map (fun o =>
      if o.result.id = op.result.id then { o with result := ⟨o.result.id, type⟩ } else o) }

/-- The call `op.setOperand(i, v)` on an operation of the graph. -/
def setOperand (g : Graph) (op : Operation) (i : Nat) (v : Value) : Graph :=
  { g with ops := g.ops.map (fun o =>
      if o.result.id = op.result.id then { o with operands := o.operands.set i v } else o) }

/-- The call `rewriter.replaceOp(op, newValue)`: every use of the result of
`op` becomes `newValue` and `op` is erased. -/
def replaceOp (g : Graph) (op : Operation) (newValue : Value) : Graph :=
  { ops := (g.ops.filter (fun o => o.result.id != op.result.id)).map
      (fun o => o.replaceUsesOfWith op.result.id newValue),
    nextId := g.nextId }

end Graph

/-! ## `OpSplitPattern` -/

/-- The value `int32_t outputSize = outputHeight * outputWidth * outputDepth`. -/
def outputSizeOf (outputHeight outputWidth outputDepth : Int) : Int :=
  toInt32 (toInt32 (outputHeight * outputWidth) * outputDepth)

/-- The value `int numSplits = ceil(outputSize / splitTensorSize)`: the
quotient is an `int32_t` division (truncating), so `ceil` receives an integer
and returns it. -/
def numSplitsOf (outputSize splitTensorSize : Int) : Int :=
  toInt32 (Int.tdiv outputSize splitTensorSize)

/-- The value `int32_t sliceWidth = outputWidth / numSplits`. -/
def sliceWidthOf (outputWidth numSplits : Int) : Int := toInt32 (Int.tdiv outputWidth numSplits)

/-- The value `int32_t sliceWidthRemainder = outputWidth % numSplits`. -/
def sliceWidthRemainderOf (outputWidth numSplits : Int) : Int := Int.tmod outputWidth numSplits

/-- The value `currentSliceWidth` of iteration `i`: `sliceWidth`, incremented
when `i < sliceWidthRemainder` (a `size_t` comparison). -/
def currentSliceWidthOf (sliceWidth sliceWidthRemainder : Int) (i : Nat) : Int :=
  if (i : Int) < toSizeT sliceWidthRemainder then toInt32 (sliceWidth + 1) else sliceWidth

/-- The variables the loop of `OpSplitPattern` carries from one iteration to
the next. -/
structure SplitLoopState where
  g : Graph
  prevEndIndex : Int
  stridedSliceOps : List Value
  deriving DecidableEq, Repr

/-- One iteration of the loop that creates the strided slices. -/
def splitLoopBody (convReplacement stridesConstantOp : Operation) (convOutput : Value)
    (outputHeight outputDepth sliceWidth sliceWidthRemainder : Int)
    (st : SplitLoopState) (i : Nat) : SplitLoopState :=
  let currentSliceWidth := currentSliceWidthOf sliceWidth sliceWidthRemainder i
  let stridedSliceOutputType : RankedTensorType :=
    ⟨[1, outputHeight, currentSliceWidth, outputDepth], convOutput.type.elementType⟩
  let (g1, beginConstantOp) := st.g.create (.constant [0, 0, st.prevEndIndex, 0]) [] i32x4
  let endIndex := toInt32 (st.prevEndIndex + currentSliceWidth)
  let (g2, endConstantOp) := g1.create (.constant [1, outputHeight, endIndex, outputDepth]) [] i32x4
  let (g3, stridedSliceOp) := g2.create (.stridedSlice 0 0 0 0 0)
    [convReplacement.result, beginConstantOp.result, endConstantOp.result,
      stridesConstantOp.result] stridedSliceOutputType
  let g4 := g3.setAttr stridedSliceOp opSplitLabel
  { g := g4, prevEndIndex := endIndex,
    stridedSliceOps := st.stridedSliceOps ++ [stridedSliceOp.result] }

/-- The loop `for (size_t i = 0; i < numSplits; i++)`. -/
def splitLoop (convReplacement stridesConstantOp : Operation) (convOutput : Value)
    (outputHeight outputDepth sliceWidth sliceWidthRemainder numSplits : Int)
    (st : SplitLoopState) : SplitLoopState :=
  (List.range (toSizeT numSplits).toNat).foldl
    (splitLoopBody convReplacement stridesConstantOp convOutput outputHeight outputDepth
      sliceWidth sliceWidthRemainder) st

/-- The rewrite part of `OpSplitPattern::matchAndRewrite`, reached once every
guard has passed: clone, label, slices, concatenation, replacement. -/
def OpSplitPattern.rewrite (splitTensorSize : Int) (g : Graph) (convOriginal : Operation)
    (outputHeight outputWidth outputDepth outputSize : Int) : Graph :=
  let convOutput := convOriginal.result
  let (g1, convReplacement) := g.clone convOriginal
  let g2 := g1.setAttr convReplacement opSplitLabel
  let (g3, stridesConstantOp) := g2.create (.constant [1, 1, 1, 1]) [] i32x4
  let numSplits := numSplitsOf outputSize splitTensorSize
  let sliceWidth := sliceWidthOf outputWidth numSplits
  let sliceWidthRemainder := sliceWidthRemainderOf outputWidth numSplits
  let st := splitLoop convReplacement stridesConstantOp convOutput outputHeight outputDepth
    sliceWidth sliceWidthRemainder numSplits
    { g := g3, prevEndIndex := 0, stridedSliceOps := [] }
  let (g4, concatOp) := st.g.create (.concatenation 2 "NONE") st.stridedSliceOps convOutput.type
  g4.replaceOp convOriginal concatOp.result

/-- The method `OpSplitPattern::matchAndRewrite`, with the local constant
`splitTensorSize` as a parameter. The result is `none` where the source
dereferences a missing operand or dimension, and otherwise the verdict with
the graph the rewriter leaves. -/
def OpSplitPattern.matchAndRewrite (splitTensorSize : Int) (g : Graph)
    (convOriginal : Operation) : Option (LogicalResult × Graph) :=
  match convOriginal.kind with
  | .conv2d padding _ _ =>
    if convOriginal.hasAttr opSplitLabel then some (.failure, g)
    else if padding != "VALID" then some (.failure, g)
    else do
      let filter ← convOriginal.operands[1]?
      let filterHeight ← filter.type.getDimSize 1
      let filterWidth ← filter.type.getDimSize 2
      if filterHeight != filterWidth then some (.failure, g)
      else do
        let input ← convOriginal.operands[0]?
        if !input.type.elementType.isQI8 then some (.failure, g)
        else if !convOriginal.result.type.elementType.isQI8 then some (.failure, g)
        else do
          let outputHeight := toInt32 (← convOriginal.result.type.getDimSize 1)
          let outputWidth := toInt32 (← convOriginal.result.type.getDimSize 2)
          let outputDepth := toInt32 (← convOriginal.result.type.getDimSize 3)
          let outputSize := outputSizeOf outputHeight outputWidth outputDepth
          if outputSize < toInt32 (2 * splitTensorSize) then some (.failure, g)
          else some (.success,
            OpSplitPattern.rewrite splitTensorSize g convOriginal outputHeight outputWidth
              outputDepth outputSize)
  | _ => some (.failure, g)

/-- The constant `int32_t splitTensorSize = 98304` of the source. -/
def splitTensorSize : Int := 98304

/-! ## `RaiseStridedSlicePattern` -/

/-- The value `newEndIndex = endIndex * strideWidth - strideWidth + filterWidth`:
`endIndex` is an `int32_t`, `strideWidth` a `uint32_t` (the product and the
difference are `uint32_t`), `filterWidth` an `int64_t` (the sum is `int64_t`). -/
def newEndIndexOf (endIndex strideWidth filterWidth : Int) : Int :=
  toInt64 (toUInt32 (toUInt32 (endIndex * strideWidth) - strideWidth) + filterWidth)

/-- The value `int32_t newOutputWidth = outputWidth * strideWidth - strideWidth +
filterWidth`, computed in `int64_t` and converted. -/
def newOutputWidthOf (outputWidth strideWidth filterWidth : Int) : Int :=
  toInt32 (toInt64 (toInt64 (toInt64 (outputWidth * strideWidth) - strideWidth) + filterWidth))

/-- The width entry `static_cast<int32_t>(newEndIndex - newOutputWidth)` of the
begin tensor. -/
def newBeginIndexOf (newEndIndex newOutputWidth : Int) : Int :=
  toInt32 (toInt64 (newEndIndex - newOutputWidth))

/-- The matcher `matchPattern(v, m_Constant(&attr))`: the elements of the
constant defining `v`, if a constant defines it. -/
def matchConstant (g : Graph) (v : Value) : Option (List Int) :=
  match g.getDefiningOp v with
  | some op =>
    match op.kind with
    | .constant values => some values
    | _ => none
  | none => none

/-- The rewrite part of `RaiseStridedSlicePattern::matchAndRewrite`: the end
and begin constants, the new strided slice above the convolution, its label,
the clone of the convolution with its new result type and input, and the
replacement of the matched slice. -/
def RaiseStridedSlicePattern.rewrite (g : Graph) (stridedSlice convOriginal : Operation)
    (convInput sliceStrides : Value)
    (begin_mask end_mask ellipsis_mask new_axis_mask shrink_axis_mask : Int)
    (endIndex strideWidth filterWidth inputBatch inputHeight inputDepth outputWidth
      outputBatch outputHeight outputDepth : Int) : Graph :=
  let newEndIndex := newEndIndexOf endIndex strideWidth filterWidth
  let (g1, endConstantOp) := g.create
    (.constant [1, toInt32 inputHeight, toInt32 newEndIndex, toInt32 inputDepth]) [] i32x4
  let newOutputWidth := newOutputWidthOf outputWidth strideWidth filterWidth
  let (g2, beginConstantOp) := g1.create
    (.constant [0, 0, newBeginIndexOf newEndIndex newOutputWidth, 0]) [] i32x4
  let newStridedSliceType : RankedTensorType :=
    ⟨[inputBatch, inputHeight, newOutputWidth, inputDepth], convInput.type.elementType⟩
  let (g3, stridedSliceReplacement) := g2.create
    (.stridedSlice begin_mask end_mask ellipsis_mask new_axis_mask shrink_axis_mask)
    [convInput, beginConstantOp.result, endConstantOp.result, sliceStrides]
    newStridedSliceType
  let g4 := g3.setAttr stridedSliceReplacement raisedStridedSliceLabel
  let (g5, convReplacement) := g4.clone convOriginal
  let newConvType : RankedTensorType :=
    ⟨[outputBatch, outputHeight, outputWidth, outputDepth],
      convOriginal.result.type.elementType⟩
  let g6 := g5.setResultType convReplacement newConvType
  let g7 := g6.setOperand convReplacement 0 stridedSliceReplacement.result
  let convReplacementOutput : Value := ⟨convReplacement.result.id, newConvType⟩
  g7.replaceOp stridedSlice convReplacementOutput

/-- The method `RaiseStridedSlicePattern::matchAndRewrite`. The result is
`none` where the source asserts (`llvm::cast` of a producer that is absent or
not a convolution, an index out of range), and otherwise the verdict with the
graph the rewriter leaves. The source reads the shapes between its calls to
the rewriter; here they are read first, which changes nothing, since a failed
read aborts the pass whatever was created before it. -/
def RaiseStridedSlicePattern.matchAndRewrite (g : Graph) (stridedSlice : Operation) :
    Option (LogicalResult × Graph) :=
  match stridedSlice.kind with
  | .stridedSlice begin_mask end_mask ellipsis_mask new_axis_mask shrink_axis_mask =>
    if !stridedSlice.hasAttr opSplitLabel then some (.failure, g)
    else if stridedSlice.hasAttr raisedStridedSliceLabel then some (.failure, g)
    else do
      let sliceInput ← stridedSlice.operands[0]?
      let convOriginal ← g.getDefiningOp sliceInput
      match convOriginal.kind with
      | .conv2d _ _ stride_w => do
        let convInput ← convOriginal.operands[0]?
        let convOriginalInputShape := convInput.type.shape
        let convOriginalOutputShape := convOriginal.result.type.shape
        let filter ← convOriginal.operands[1]?
        let filterWidth ← filter.type.getDimSize 2
        let strideWidth : Int := stride_w
        let sliceEnd ← stridedSlice.operands[2]?
        match matchConstant g sliceEnd with
        | none => some (.failure, g)
        | some attr => do
          let endIndex ← attr[2]?
          let inputHeight ← convOriginalInputShape[1]?
          let inputDepth ← convOriginalInputShape[3]?
          let stridedSliceOutputShape := stridedSlice.result.type.shape
          let outputWidth ← stridedSliceOutputShape[2]?
          let inputBatch ← convOriginalInputShape[0]?
          let sliceStrides ← stridedSlice.operands[3]?
          let outputBatch ← convOriginalOutputShape[0]?
          let outputHeight ← convOriginalOutputShape[1]?
          let outputDepth ← convOriginalOutputShape[3]?
          some (.success,
            RaiseStridedSlicePattern.rewrite g stridedSlice convOriginal convInput sliceStrides
              begin_mask end_mask ellipsis_mask new_axis_mask shrink_axis_mask
              endIndex strideWidth filterWidth inputBatch inputHeight inputDepth outputWidth
              outputBatch outputHeight outputDepth)
      | _ => none
  | _ => some (.failure, g)

/-! ## Reading the rewritten graph -/

def Operation.isStridedSlice (op : Operation) : Bool :=
  match op.kind with
  | .stridedSlice _ _ _ _ _ => true
  | _ => false

def Operation.isConv2D (op : Operation) : Bool :=
  match op.kind with
  | .conv2d _ _ _ => true
  | _ => false

/-- The strided slices of `g2` that were created after `g`, in creation order. -/
def createdStridedSlices (g g2 : Graph) : List Operation :=
  g2.ops.filter (fun o => o.isStridedSlice && decide (g.nextId ≤ o.result.id))

/-- The constant begin and end tensors of a strided slice. -/
def sliceBounds (g : Graph) (slice : Operation) : Option (List Int × List Int) := do
  let b ← slice.operands[1]?
  let e ← slice.operands[2]?
  let bv ← matchConstant g b
  let ev ← matchConstant g e
  some (bv, ev)

/-- The `(start, end)` range a strided slice selects along the width axis. -/
def widthRange (g : Graph) (slice : Operation) : Option (Int × Int) := do
  let (bv, ev) ← sliceBounds g slice
  let b ← bv[2]?
  let e ← ev[2]?
  some (b, e)

/-- The declared width (dimension 2) of the result of an operation. -/
def declaredWidth (op : Operation) : Option Int := op.result.type.getDimSize 2

/-- A graph as the rewriter builds it: every result identity is below the next
unused identity and no two operations share one. -/
def Graph.WF (g : Graph) : Prop :=
  (∀ o ∈ g.ops, o.result.id < g.nextId) ∧
    g.ops.Pairwise (fun a b => a.result.id ≠ b.result.id)

/-- The operation `c` is a TFL convolution with the given padding and width
stride, reading `input` and `filter`, whose filter has the given height and
width and whose result has shape `[N, H, W, D]`. -/
structure IsConv (c : Operation) (padding : String) (stride_w : Nat) (input filter : Value)
    (filterHeight filterWidth N H W D : Int) : Prop where
  kind : ∃ stride_h, c.kind = .conv2d padding stride_h stride_w
  operands : ∃ bias, c.operands = [input, filter, bias]
  filterShape : ∃ o i, filter.type.shape = [o, filterHeight, filterWidth, i]
  outputShape : c.result.type.shape = [N, H, W, D]

/-- An `int32_t` value. -/
def IsInt32 (x : Int) : Prop := -2147483648 ≤ x ∧ x < 2147483648

/-- A non-negative `int32_t` value, as the extent of a static dimension is. -/
def IsExtent (x : Int) : Prop := 0 ≤ x ∧ x < 2147483648

instance (g : Graph) : Decidable g.WF := inferInstanceAs (Decidable (_ ∧ _))

instance (x : Int) : Decidable (IsInt32 x) := inferInstanceAs (Decidable (_ ∧ _))

instance (x : Int) : Decidable (IsExtent x) := inferInstanceAs (Decidable (_ ∧ _))

/-! ## Values of tensors

Rank-4 tensors are nested lists indexed `[batch][height][width][depth]`. The
two TFLite operators the pass inserts are given their reference meaning for the
parameters the pass uses: unit strides and zero masks for the strided slice,
axis 2 for the concatenation. -/

abbrev Tensor4 (α : Type) := List (List (List (List α)))

/-- The start or stop position of a strided slice on an axis of extent `dim`
for a positive stride and no mask: a negative index counts from the end, and
the result is clamped to `[0, dim]`. -/
def clampIndex (dim : Nat) (i : Int) : Nat :=
  (min (if i < 0 then i + dim else i) dim).toNat

/-- The elements `[b, e)` of one axis, stride 1. -/
def sliceAxis {β : Type} (b e : Int) (l : List β) : List β :=
  (l.drop (clampIndex l.length b)).take (clampIndex l.length e - clampIndex l.length b)

/-- The value of a strided slice with unit strides and zero masks. -/
def stridedSliceEval {α : Type} (bv ev : List Int) (t : Tensor4 α) : Tensor4 α :=
  (sliceAxis (bv.getD 0 0) (ev.getD 0 0) t).map fun t1 =>
    (sliceAxis (bv.getD 1 0) (ev.getD 1 0) t1).map fun t2 =>
      (sliceAxis (bv.getD 2 0) (ev.getD 2 0) t2).map fun t3 =>
        sliceAxis (bv.getD 3 0) (ev.getD 3 0) t3

/-- The value of a concatenation along axis 2 (width). -/
def concatAxis2 {α : Type} : List (Tensor4 α) → Tensor4 α
  | [] => []
  | [t] => t
  | t :: u :: rest => List.zipWith (List.zipWith (· ++ ·)) t (concatAxis2 (u :: rest))

/-- A tensor has the given rank-4 shape. -/
def HasShape {α : Type} (t : Tensor4 α) (n h w d : Nat) : Prop :=
  t.length = n ∧ ∀ t1 ∈ t, t1.length = h ∧ ∀ t2 ∈ t1, t2.length = w ∧ ∀ t3 ∈ t2, t3.length = d

/-- The value a created strided slice takes when the tensor it reads is `t`. -/
def evalSlice {α : Type} (g : Graph) (t : Tensor4 α) (slice : Operation) : Option (Tensor4 α) :=
  (sliceBounds g slice).map fun be => stridedSliceEval be.1 be.2 t

/-- The output width of a convolution without padding:
`floor((inWidth - filterWidth) / stride) + 1`, and `0` when the filter does not
fit. -/
def validOutWidth (inWidth filterWidth stride : Nat) : Nat :=
  if inWidth < filterWidth then 0 else (inWidth - filterWidth) / stride + 1

/-- A convolution without padding along one axis: output element `j` is a
function `kernel` of the window of `filterWidth` inputs starting at
`j * stride`. The function stands for the filter taps, bias, requantisation
and activation of the operator. -/
def conv1dValid {α β : Type} (kernel : List α → β) (filterWidth stride : Nat) (x : List α) :
    List β :=
  (List.range (validOutWidth x.length filterWidth stride)).map fun j =>
    kernel ((x.drop (j * stride)).take filterWidth)

/-! ## Closed forms used in the proofs -/

/-- The value of `prevEndIndex` after `k` iterations of the loop. -/
def offsetOf (sliceWidth sliceWidthRemainder : Int) : Nat → Int
  | 0 => 0
  | k + 1 => toInt32 (offsetOf sliceWidth sliceWidthRemainder k +
      currentSliceWidthOf sliceWidth sliceWidthRemainder k)

/-- The begin constant that iteration `i` of the loop creates, given the
identity `base` of the first operation the loop creates. -/
def beginOpAt (sliceWidth sliceWidthRemainder : Int) (base i : Nat) : Operation :=
  { kind := .constant [0, 0, offsetOf sliceWidth sliceWidthRemainder i, 0], operands := [],
    result := ⟨base + 3 * i, i32x4⟩, attrs := [] }

/-- The end constant that iteration `i` of the loop creates. -/
def endOpAt (outputHeight outputDepth sliceWidth sliceWidthRemainder : Int) (base i : Nat) :
    Operation :=
  { kind := .constant [1, outputHeight, offsetOf sliceWidth sliceWidthRemainder (i + 1),
      outputDepth], operands := [],
    result := ⟨base + 3 * i + 1, i32x4⟩, attrs := [] }

/-- The strided slice that iteration `i` of the loop creates, labelled. -/
def sliceOpAt (convReplacement stridesConstantOp : Operation) (convOutput : Value)
    (outputHeight outputDepth sliceWidth sliceWidthRemainder : Int) (base i : Nat) : Operation :=
  { kind := .stridedSlice 0 0 0 0 0,
    operands := [convReplacement.result, ⟨base + 3 * i, i32x4⟩, ⟨base + 3 * i + 1, i32x4⟩,
      stridesConstantOp.result],
    result := ⟨base + 3 * i + 2,
      ⟨[1, outputHeight, currentSliceWidthOf sliceWidth sliceWidthRemainder i, outputDepth],
        convOutput.type.elementType⟩⟩,
    attrs := [opSplitLabel] }

/-- The three operations iteration `i` of the loop leaves in the graph. -/
def sliceOpsAt (convReplacement stridesConstantOp : Operation) (convOutput : Value)
    (outputHeight outputDepth sliceWidth sliceWidthRemainder : Int) (base i : Nat) :
    List Operation :=
  [ beginOpAt sliceWidth sliceWidthRemainder base i,
    endOpAt outputHeight outputDepth sliceWidth sliceWidthRemainder base i,
    sliceOpAt convReplacement stridesConstantOp convOutput outputHeight outputDepth sliceWidth
      sliceWidthRemainder base i ]

/-- The result of the strided slice that iteration `i` creates. -/
def sliceValueAt (convOutput : Value) (outputHeight outputDepth sliceWidth sliceWidthRemainder : Int)
    (base i : Nat) : Value :=
  ⟨base + 3 * i + 2,
    ⟨[1, outputHeight, currentSliceWidthOf sliceWidth sliceWidthRemainder i, outputDepth],
      convOutput.type.elementType⟩⟩

/-- The number of iterations of the loop of `OpSplitPattern`. -/
def splitCount (outputSize splitTensorSize : Int) : Nat :=
  (toSizeT (numSplitsOf outputSize splitTensorSize)).toNat

/-- The clone of the convolution that `OpSplitPattern` leaves, labelled. -/
def splitConvReplacement (g : Graph) (convOriginal : Operation) : Operation :=
  if convOriginal.hasAttr opSplitLabel then
    { convOriginal with result := ⟨g.nextId, convOriginal.result.type⟩ }
  else
    { convOriginal with result := ⟨g.nextId, convOriginal.result.type⟩,
                        attrs := convOriginal.attrs ++ [opSplitLabel] }

/-- The strided slices `OpSplitPattern` creates, in creation order. -/
def splitSlices (splitTensorSize : Int) (g : Graph) (convOriginal : Operation)
    (outputHeight outputWidth outputDepth outputSize : Int) : List Operation :=
  (List.range (splitCount outputSize splitTensorSize)).map
    (sliceOpAt (g.clone convOriginal).2 (⟨.constant [1, 1, 1, 1], [], ⟨g.nextId + 1, i32x4⟩, []⟩)
      convOriginal.result outputHeight outputDepth
      (sliceWidthOf outputWidth (numSplitsOf outputSize splitTensorSize))
      (sliceWidthRemainderOf outputWidth (numSplitsOf outputSize splitTensorSize))
      (g.nextId + 2))

/-- The operations `OpSplitPattern` appends to the graph before it replaces the
original convolution. -/
def splitCreatedOps (splitTensorSize : Int) (g : Graph) (convOriginal : Operation)
    (outputHeight outputWidth outputDepth outputSize : Int) : List Operation :=
  [splitConvReplacement g convOriginal,
    (⟨.constant [1, 1, 1, 1], [], ⟨g.nextId + 1, i32x4⟩, []⟩ : Operation)] ++
  (List.range (splitCount outputSize splitTensorSize)).flatMap
    (sliceOpsAt (g.clone convOriginal).2 (⟨.constant [1, 1, 1, 1], [], ⟨g.nextId + 1, i32x4⟩, []⟩)
      convOriginal.result outputHeight outputDepth
      (sliceWidthOf outputWidth (numSplitsOf outputSize splitTensorSize))
      (sliceWidthRemainderOf outputWidth (numSplitsOf outputSize splitTensorSize))
      (g.nextId + 2)) ++
  [(⟨.concatenation 2 "NONE",
      (List.range (splitCount outputSize splitTensorSize)).map
        (sliceValueAt convOriginal.result outputHeight outputDepth
          (sliceWidthOf outputWidth (numSplitsOf outputSize splitTensorSize))
          (sliceWidthRemainderOf outputWidth (numSplitsOf outputSize splitTensorSize))
          (g.nextId + 2)),
      ⟨g.nextId + 2 + 3 * splitCount outputSize splitTensorSize, convOriginal.result.type⟩,
      []⟩ : Operation)]

/-- The start of partition `i` when `W` is cut into `n` partitions: the sum of
the widths of the partitions before it. -/
def partitionStart (W n : Int) (i : Nat) : Int := (i : Int) * (W / n) + min (i : Int) (W % n)

/-- The width of partition `i` when `W` is cut into `n` partitions. -/
def partitionWidth (W n : Int) (i : Nat) : Int :=
  if (i : Int) < W % n then W / n + 1 else W / n

/-- The end constant `RaiseStridedSlicePattern` creates. -/
def raisedEndOp (g : Graph) (endIndex strideWidth filterWidth inputHeight inputDepth : Int) :
    Operation :=
  { kind := .constant [1, toInt32 inputHeight,
      toInt32 (newEndIndexOf endIndex strideWidth filterWidth), toInt32 inputDepth],
    operands := [], result := ⟨g.nextId, i32x4⟩, attrs := [] }

/-- The begin constant `RaiseStridedSlicePattern` creates. -/
def raisedBeginOp (g : Graph) (endIndex outputWidth strideWidth filterWidth : Int) : Operation :=
  { kind := .constant [0, 0,
      newBeginIndexOf (newEndIndexOf endIndex strideWidth filterWidth)
        (newOutputWidthOf outputWidth strideWidth filterWidth), 0],
    operands := [], result := ⟨g.nextId + 1, i32x4⟩, attrs := [] }

/-- The strided slice `RaiseStridedSlicePattern` creates above the convolution,
labelled. -/
def raisedSliceOp (g : Graph) (kind : OpKind) (convInput sliceStrides : Value)
    (outputWidth strideWidth filterWidth inputBatch inputHeight inputDepth : Int) : Operation :=
  { kind := kind,
    operands := [convInput, ⟨g.nextId + 1, i32x4⟩, ⟨g.nextId, i32x4⟩, sliceStrides],
    result := ⟨g.nextId + 2,
      ⟨[inputBatch, inputHeight, newOutputWidthOf outputWidth strideWidth filterWidth,
        inputDepth], convInput.type.elementType⟩⟩,
    attrs := [raisedStridedSliceLabel] }

/-- The clone of the convolution `RaiseStridedSlicePattern` leaves: it reads the
new strided slice and has the partition's width. -/
def raisedConvOp (g : Graph) (convOriginal : Operation) (convInput : Value)
    (outputWidth strideWidth filterWidth inputBatch inputHeight inputDepth outputBatch
      outputHeight outputDepth : Int) : Operation :=
  { kind := convOriginal.kind,
    operands := convOriginal.operands.set 0
      ⟨g.nextId + 2,
        ⟨[inputBatch, inputHeight, newOutputWidthOf outputWidth strideWidth filterWidth,
          inputDepth], convInput.type.elementType⟩⟩,
    result := ⟨g.nextId + 3,
      ⟨[outputBatch, outputHeight, outputWidth, outputDepth],
        convOriginal.result.type.elementType⟩⟩,
    attrs := convOriginal.attrs }

/-! ## The driver and the state of the graph while it runs -/

/-- Whether `OpSplitPattern` matches an operation: its guards all pass and it
rewrites. -/
def OpSplitPattern.fires (T : Int) (g : Graph) (op : Operation) : Bool :=
  match OpSplitPattern.matchAndRewrite T g op with
  | some (.success, _) => true
  | _ => false

/-- Whether `RaiseStridedSlicePattern` matches an operation. -/
def RaiseStridedSlicePattern.fires (g : Graph) (op : Operation) : Bool :=
  match RaiseStridedSlicePattern.matchAndRewrite g op with
  | some (.success, _) => true
  | _ => false

/-- The number of operations of the graph that satisfy the guards of
`OpSplitPattern`. -/
def splitCandidates (T : Int) (g : Graph) : Nat :=
  (g.ops.filter (OpSplitPattern.fires T g)).length

/-- A strided slice that bears the split label and not the raised label. -/
def Operation.isUnraisedSplitSlice (op : Operation) : Bool :=
  op.isStridedSlice && op.hasAttr opSplitLabel && !op.hasAttr raisedStridedSliceLabel

/-- The number of strided slices of the graph that bear the split label and not
the raised label. -/
def hoistCandidates (g : Graph) : Nat := (g.ops.filter Operation.isUnraisedSplitSlice).length

/-- A run of the greedy driver with `OpSplitPattern` as its only pattern: the
pattern is applied, with success, to the listed operations one after the other.
The result is `none` when a listed operation is not in the graph it is applied
to or the pattern does not succeed on it. The driver, `applyPatternsAndFoldGreedily`,
belongs to the host framework; which operation it visits next is left open
here (the list is any order), and its folding and removal of unused operations
are left out. -/
def applySplits (T : Int) (g : Graph) : List Operation → Option Graph
  | [] => some g
  | op :: rest =>
    if op ∈ g.ops then
      match OpSplitPattern.matchAndRewrite T g op with
      | some (.success, g2) => applySplits T g2 rest
      | _ => none
    else none

/-- A run of the greedy driver with `RaiseStridedSlicePattern` as its only
pattern. -/
def applyRaises (g : Graph) : List Operation → Option Graph
  | [] => some g
  | op :: rest =>
    if op ∈ g.ops then
      match RaiseStridedSlicePattern.matchAndRewrite g op with
      | some (.success, g2) => applyRaises g2 rest
      | _ => none
    else none

/-- Every operand of every operation is a value the graph has allocated. -/
def Graph.Closed (g : Graph) : Prop :=
  ∀ o ∈ g.ops, ∀ v ∈ o.operands, v.id < g.nextId

/-- Every operand that refers to the result of an operation of the graph has the
type of that result. -/
def Graph.Typed (g : Graph) : Prop :=
  ∀ o ∈ g.ops, ∀ v ∈ o.operands, ∀ p ∈ g.ops, p.result.id = v.id → v.type = p.result.type

instance (g : Graph) : Decidable g.Closed := inferInstanceAs (Decidable (∀ o ∈ g.ops, _))

instance (g : Graph) : Decidable g.Typed := inferInstanceAs (Decidable (∀ o ∈ g.ops, _))

/-- Every convolution that defines the input of a strided slice bearing the
split label bears the split label too. -/
def Graph.SliceInputsLabelled (g : Graph) : Prop :=
  ∀ s ∈ g.ops, s.isStridedSlice = true → s.hasAttr opSplitLabel = true →
    ∀ x, s.operands[0]? = some x → ∀ p ∈ g.ops, p.result.id = x.id → p.isConv2D = true →
      p.hasAttr opSplitLabel = true

/-- No convolution reads the result of a strided slice bearing the split
label. -/
def Graph.SlicesFeedNoConv (g : Graph) : Prop :=
  ∀ o ∈ g.ops, o.isConv2D = true → ∀ v ∈ o.operands, ∀ s ∈ g.ops, s.isStridedSlice = true →
    s.hasAttr opSplitLabel = true → v.id ≠ s.result.id

def qi8 : ElementType := .quant true 8

/-- A block argument of the given shape, the input of the example convolution. -/
def exampleInput (shape : List Int) : Value := ⟨0, ⟨shape, qi8⟩⟩

/-- A 1x1 filter with four output and four input channels. -/
def exampleFilter : Value := ⟨1, ⟨[4, 1, 1, 4], qi8⟩⟩

/-- A valid-padding, stride-1 convolution with a 1x1 filter whose input and
output both have the given shape. -/
def exampleConv (shape : List Int) : Operation :=
  { kind := .conv2d "VALID" 1 1,
    operands := [exampleInput shape, exampleFilter, ⟨2, ⟨[4], .integer 32⟩⟩],
    result := ⟨3, ⟨shape, qi8⟩⟩, attrs := [] }

/-- A tensor of zeros of shape `[n, 1, w, 1]`. -/
def exampleTensor (n w : Nat) : Tensor4 Int := List.replicate n [List.replicate w [0]]

/-- The graph that holds the example convolution only. -/
def exampleGraph (shape : List Int) : Graph := { ops := [exampleConv shape], nextId := 4 }

/-- A valid-padding convolution with stride 2 and a 3x3 filter, from an input of
shape `[1, 3, 2049, 1]` to an output of shape `[1, 1, 1024, 288]`. -/
def exampleConv2 : Operation :=
  { kind := .conv2d "VALID" 2 2,
    operands := [⟨0, ⟨[1, 3, 2049, 1], qi8⟩⟩, ⟨1, ⟨[288, 3, 3, 1], qi8⟩⟩,
      ⟨2, ⟨[288], .integer 32⟩⟩],
    result := ⟨3, ⟨[1, 1, 1024, 288], qi8⟩⟩, attrs := [] }

/-- The graph that holds `exampleConv2` only. -/
def exampleGraph2 : Graph := { ops := [exampleConv2], nextId := 4 }

/-- The graph the split rule leaves on `exampleGraph2`: three strided slices
with width ranges `(0, 342)`, `(342, 683)`, `(683, 1024)`. -/
def exampleSplitGraph2 : Graph :=
  OpSplitPattern.rewrite splitTensorSize exampleGraph2 exampleConv2 1 1024 288 294912

/-- The second strided slice of `exampleSplitGraph2`. -/
def exampleSlice2 : Operation :=
  { kind := .stridedSlice 0 0 0 0 0,
    operands := [⟨4, ⟨[1, 1, 1024, 288], qi8⟩⟩, ⟨9, i32x4⟩, ⟨10, i32x4⟩, ⟨5, i32x4⟩],
    result := ⟨11, ⟨[1, 1, 341, 288], qi8⟩⟩, attrs := [opSplitLabel] }

/-- A labelled strided slice whose input is the block argument of identity 0. -/
def exampleOrphanSlice : Operation :=
  { kind := .stridedSlice 0 0 0 0 0,
    operands := [⟨0, ⟨[1, 1, 1024, 288], qi8⟩⟩, ⟨1, i32x4⟩, ⟨2, i32x4⟩, ⟨3, i32x4⟩],
    result := ⟨4, ⟨[1, 1, 341, 288], qi8⟩⟩, attrs := [opSplitLabel] }

/-- The begin, end and strides constants of `exampleOrphanSlice`. -/
def exampleOrphanConstants : List Operation :=
  [⟨.constant [0, 0, 342, 0], [], ⟨1, i32x4⟩, []⟩,
    ⟨.constant [1, 1, 683, 288], [], ⟨2, i32x4⟩, []⟩,
    ⟨.constant [1, 1, 1, 1], [], ⟨3, i32x4⟩, []⟩]

/-- A graph in which no operation defines the input of `exampleOrphanSlice`. -/
def exampleOrphanGraph : Graph :=
  { ops := exampleOrphanConstants ++ [exampleOrphanSlice], nextId := 5 }

/-- A graph in which an operation that is not a convolution defines the input
of `exampleOrphanSlice`. -/
def exampleReluGraph : Graph :=
  { ops := [⟨.other "tfl.relu", [⟨5, ⟨[1, 1, 1024, 288], qi8⟩⟩],
        ⟨0, ⟨[1, 1, 1024, 288], qi8⟩⟩, []⟩] ++ exampleOrphanConstants ++ [exampleOrphanSlice],
    nextId := 6 }

/-- A labelled strided slice that reads `exampleConv2` and whose end tensor is
the block argument of identity 5. -/
def exampleDynSlice : Operation :=
  { kind := .stridedSlice 0 0 0 0 0,
    operands := [⟨3, ⟨[1, 1, 1024, 288], qi8⟩⟩, ⟨4, i32x4⟩, ⟨5, i32x4⟩, ⟨6, i32x4⟩],
    result := ⟨7, ⟨[1, 1, 341, 288], qi8⟩⟩, attrs := [opSplitLabel] }

/-- The graph of `exampleConv2` and `exampleDynSlice`. -/
def exampleDynGraph : Graph :=
  { ops := [exampleConv2, ⟨.constant [0, 0, 342, 0], [], ⟨4, i32x4⟩, []⟩,
      ⟨.constant [1, 1, 1, 1], [], ⟨6, i32x4⟩, []⟩, exampleDynSlice], nextId := 8 }

/-- The three strided slices of `exampleSplitGraph2`, in creation order. -/
def exampleSlices2 : List Operation :=
  [{ kind := .stridedSlice 0 0 0 0 0,
     operands := [⟨4, ⟨[1, 1, 1024, 288], qi8⟩⟩, ⟨6, i32x4⟩, ⟨7, i32x4⟩, ⟨5, i32x4⟩],
     result := ⟨8, ⟨[1, 1, 342, 288], qi8⟩⟩, attrs := [opSplitLabel] },
   exampleSlice2,
   { kind := .stridedSlice 0 0 0 0 0,
     operands := [⟨4, ⟨[1, 1, 1024, 288], qi8⟩⟩, ⟨12, i32x4⟩, ⟨13, i32x4⟩, ⟨5, i32x4⟩],
     result := ⟨14, ⟨[1, 1, 341, 288], qi8⟩⟩, attrs := [opSplitLabel] }]

/-- The graph the raise pattern leaves once it has been applied to the three
strided slices of `exampleSplitGraph2`. -/
def exampleRaisedGraph2 : Graph :=
  (applyRaises exampleSplitGraph2 exampleSlices2).getD exampleSplitGraph2

theorem toInt32_of_isInt32 {x : Int} (h : IsInt32 x) : toInt32 x = x := by
  unfold toInt32; unfold IsInt32 at h; omega

theorem toInt32_of_isExtent {x : Int} (h : IsExtent x) : toInt32 x = x := by
  unfold toInt32; unfold IsExtent at h; omega

theorem toSizeT_of_nonneg {x : Int} (h0 : 0 ≤ x) (h : x < 2147483648) : toSizeT x = x := by
  unfold toSizeT; omega

/-! ## The partition arithmetic -/

theorem sliceWidthOf_eq {W n : Int} (hW : IsExtent W) (hn : 0 < n) :
    sliceWidthOf W n = W / n := by
  unfold sliceWidthOf
  rw [Int.tdiv_eq_ediv hW.1 hn.le]
  have h1 : 0 ≤ W / n := Int.ediv_nonneg hW.1 hn.le
  have h2 : W / n ≤ W := Int.ediv_le_self n hW.1
  exact toInt32_of_isExtent ⟨h1, lt_of_le_of_lt h2 hW.2⟩

theorem sliceWidthRemainderOf_eq {W n : Int} (hW : IsExtent W) (hn : 0 < n) :
    sliceWidthRemainderOf W n = W % n := by
  unfold sliceWidthRemainderOf
  exact Int.tmod_eq_emod hW.1 hn.le

/-- Facts about quotient and remainder used throughout. -/
theorem divmod_facts {W n : Int} (hW : IsExtent W) (hn : 0 < n) :
    0 ≤ W / n ∧ 0 ≤ W % n ∧ W % n < n ∧ n * (W / n) + W % n = W ∧ W % n ≤ W := by
  have h1 : 0 ≤ W / n := Int.ediv_nonneg hW.1 hn.le
  have h2 : 0 ≤ W % n := Int.emod_nonneg W hn.ne'
  have h3 : W % n < n := Int.emod_lt_of_pos W hn
  have h4 : n * (W / n) + W % n = W := Int.ediv_add_emod W n
  have h5 : 0 ≤ n * (W / n) := mul_nonneg hn.le h1
  exact ⟨h1, h2, h3, h4, by omega⟩

theorem currentSliceWidthOf_eq {W n : Int} (hW : IsExtent W) (hn : 0 < n) (i : Nat) :
    currentSliceWidthOf (W / n) (W % n) i = if (i : Int) < W % n then W / n + 1 else W / n := by
  obtain ⟨h1, h2, h3, h4, h5⟩ := divmod_facts hW hn
  unfold currentSliceWidthOf
  rw [toSizeT_of_nonneg h2 (lt_of_le_of_lt h5 hW.2)]
  split_ifs with hi
  · apply toInt32_of_isExtent
    have hn2 : 2 ≤ n := by omega
    have h6 : 2 * (W / n) ≤ n * (W / n) := mul_le_mul_of_nonneg_right hn2 h1
    have := hW.2
    constructor <;> omega
  · rfl

theorem offsetOf_eq {W n : Int} (hW : IsExtent W) (hn : 0 < n) (k : Nat) (hk : (k : Int) ≤ n) :
    offsetOf (W / n) (W % n) k = k * (W / n) + min (k : Int) (W % n) := by
  obtain ⟨h1, h2, h3, h4, h5⟩ := divmod_facts hW hn
  induction k with
  | zero => simp [offsetOf, h2]
  | succ k ih =>
    have hk' : (k : Int) ≤ n := by push_cast at hk; omega
    rw [offsetOf, ih hk', currentSliceWidthOf_eq hW hn]
    push_cast at hk ⊢
    have h6 : ((k : Int) + 1) * (W / n) ≤ n * (W / n) := mul_le_mul_of_nonneg_right hk h1
    have h7 : ((k : Int) + 1) * (W / n) = k * (W / n) + W / n := by ring
    have h8 : 0 ≤ (k : Int) * (W / n) := mul_nonneg (by omega) h1
    have := hW.2
    split_ifs with hi
    · rw [toInt32_of_isExtent (by constructor <;> omega)]
      omega
    · rw [toInt32_of_isExtent (by constructor <;> omega)]
      omega

theorem offsetOf_total {W n : Int} (hW : IsExtent W) (hn : 0 < n) :
    offsetOf (W / n) (W % n) n.toNat = W := by
  obtain ⟨h1, h2, h3, h4, h5⟩ := divmod_facts hW hn
  have hc : ((n.toNat : Nat) : Int) = n := Int.toNat_of_nonneg hn.le
  rw [offsetOf_eq hW hn n.toNat (by omega), hc]
  omega

/-! ## The rewriter -/

theorem Graph.setAttr_last (ops : List Operation) (op : Operation) (n : Nat) (name : String)
    (h : ∀ o ∈ ops, o.result.id ≠ op.result.id) :
    Graph.setAttr ⟨ops ++ [op], n⟩ op name =
      ⟨ops ++ [if op.hasAttr name then op else { op with attrs := op.attrs ++ [name] }], n⟩ := by
  unfold Graph.setAttr
  simp only [List.map_append, List.map_cons, List.map_nil, if_true]
  congr 2
  conv_rhs => rw [← List.map_id ops]
  apply List.map_congr_left
  intro o ho
  simp [h o ho]

/-- The state of the loop after `k` iterations, in closed form. -/
theorem splitLoop_fold (cr sc : Operation) (co : Value) (H D sw rem : Int) (g : Graph)
    (hg : ∀ o ∈ g.ops, o.result.id < g.nextId) (k : Nat) :
    (List.range k).foldl (splitLoopBody cr sc co H D sw rem)
        { g := g, prevEndIndex := 0, stridedSliceOps := [] } =
      { g := ⟨g.ops ++ (List.range k).flatMap (sliceOpsAt cr sc co H D sw rem g.nextId),
              g.nextId + 3 * k⟩,
        prevEndIndex := offsetOf sw rem k,
        stridedSliceOps := (List.range k).map (sliceValueAt co H D sw rem g.nextId) } := by
  induction k with
  | zero => simp [offsetOf]
  | succ k ih =>
    rw [List.range_succ, List.foldl_append, ih]
    simp only [List.foldl_cons, List.foldl_nil, splitLoopBody, Graph.create]
    have hfresh : ∀ o ∈ (g.ops ++ (List.range k).flatMap (sliceOpsAt cr sc co H D sw rem g.nextId)
        ++ [{ kind := .constant [0, 0, offsetOf sw rem k, 0], operands := [],
              result := ⟨g.nextId + 3 * k, i32x4⟩, attrs := [] }]
        ++ [{ kind := .constant [1, H, toInt32 (offsetOf sw rem k + currentSliceWidthOf sw rem k), D],
              operands := [], result := ⟨g.nextId + 3 * k + 1, i32x4⟩, attrs := [] }] :
          List Operation),
        o.result.id ≠ g.nextId + 3 * k + 1 + 1 := by
      intro o ho
      simp only [List.mem_append, List.mem_flatMap, List.mem_range, List.mem_singleton,
        sliceOpsAt, beginOpAt, endOpAt, sliceOpAt, List.mem_cons, List.not_mem_nil,
        or_false] at ho
      rcases ho with ((ho | ⟨i, hi, ho⟩) | ho) | ho
      · have := hg o ho; omega
      · rcases ho with ho | ho | ho
        · subst ho; simp; omega
        · subst ho; simp; omega
        · subst ho; simp; omega
      · subst ho; simp; omega
      · subst ho; simp
    rw [Graph.setAttr_last _ _ _ _ hfresh]
    simp only [List.flatMap_append, List.flatMap_singleton, List.map_append, List.map_cons,
      List.map_nil, sliceOpsAt, beginOpAt, endOpAt, sliceOpAt, sliceValueAt, offsetOf,
      Operation.hasAttr]
    simp [List.append_assoc, Nat.mul_succ, Nat.add_assoc]

theorem Graph.wf_create {g : Graph} (hg : g.WF) (kind : OpKind) (operands : List Value)
    (type : RankedTensorType) : (g.create kind operands type).1.WF := by
  obtain ⟨h1, h2⟩ := hg
  refine ⟨?_, ?_⟩
  · intro o ho
    simp only [Graph.create, List.mem_append, List.mem_singleton] at ho ⊢
    rcases ho with ho | ho
    · have := h1 o ho; omega
    · subst ho; simp
  · simp only [Graph.create, List.pairwise_append, List.pairwise_cons, List.Pairwise.nil,
      List.mem_singleton]
    refine ⟨h2, ⟨by simp, trivial⟩, ?_⟩
    intro a ha b hb
    subst hb
    have := h1 a ha
    simp; omega

theorem Graph.wf_clone {g : Graph} (hg : g.WF) (op : Operation) : (g.clone op).1.WF := by
  obtain ⟨h1, h2⟩ := hg
  refine ⟨?_, ?_⟩
  · intro o ho
    simp only [Graph.clone, List.mem_append, List.mem_singleton] at ho ⊢
    rcases ho with ho | ho
    · have := h1 o ho; omega
    · subst ho; simp
  · simp only [Graph.clone, List.pairwise_append, List.pairwise_cons, List.Pairwise.nil,
      List.mem_singleton]
    refine ⟨h2, ⟨by simp, trivial⟩, ?_⟩
    intro a ha b hb
    subst hb
    have := h1 a ha
    simp; omega

/-- Updating operations in place without touching their result identity keeps
the graph well formed. -/
theorem Graph.wf_map {g : Graph} (hg : g.WF) (f : Operation → Operation)
    (hf : ∀ o, (f o).result.id = o.result.id) : Graph.WF ⟨g.ops.map f, g.nextId⟩ := by
  obtain ⟨h1, h2⟩ := hg
  refine ⟨?_, ?_⟩
  · intro o ho
    simp only [List.mem_map] at ho
    obtain ⟨a, ha, rfl⟩ := ho
    rw [hf]; exact h1 a ha
  · simp only [List.pairwise_map, hf]
    exact h2

theorem Graph.wf_setAttr {g : Graph} (hg : g.WF) (op : Operation) (name : String) :
    (g.setAttr op name).WF := by
  apply Graph.wf_map hg
  intro o
  split_ifs <;> rfl

theorem Graph.wf_setResultType {g : Graph} (hg : g.WF) (op : Operation)
    (type : RankedTensorType) : (g.setResultType op type).WF := by
  apply Graph.wf_map hg
  intro o
  split_ifs <;> rfl

theorem Graph.wf_setOperand {g : Graph} (hg : g.WF) (op : Operation) (i : Nat) (v : Value) :
    (g.setOperand op i v).WF := by
  apply Graph.wf_map hg
  intro o
  split_ifs <;> rfl

theorem Graph.wf_replaceOp {g : Graph} (hg : g.WF) (op : Operation) (v : Value) :
    (g.replaceOp op v).WF := by
  have hfil : Graph.WF ⟨g.ops.filter (fun o => o.result.id != op.result.id), g.nextId⟩ :=
    ⟨fun o ho => hg.1 o (List.mem_of_mem_filter ho), hg.2.filter _⟩
  exact Graph.wf_map hfil _ (fun _ => rfl)

/-- In a well-formed graph a value is defined by the operation that bears its
identity. -/
theorem Graph.getDefiningOp_of_mem {g : Graph} (hg : g.WF) {o : Operation} (ho : o ∈ g.ops)
    (v : Value) (hv : v.id = o.result.id) : g.getDefiningOp v = some o := by
  obtain ⟨-, h2⟩ := hg
  unfold Graph.getDefiningOp
  rw [hv]
  generalize g.ops = l at ho h2
  induction l with
  | nil => simp at ho
  | cons a l ih =>
    rw [List.pairwise_cons] at h2
    rw [List.find?_cons]
    rcases List.mem_cons.1 ho with rfl | hmem
    · simp
    · have hne : (a.result.id == o.result.id) = false := by
        simpa using h2.1 o hmem
      rw [hne]
      exact ih hmem h2.2

/-! ## The graph `OpSplitPattern` leaves -/

theorem rewrite_eq (T : Int) (g : Graph) (c : Operation) (H W D S : Int)
    (hg : ∀ o ∈ g.ops, o.result.id < g.nextId) :
    OpSplitPattern.rewrite T g c H W D S =
      Graph.replaceOp
        ⟨g.ops ++ splitCreatedOps T g c H W D S, g.nextId + 2 + 3 * splitCount S T + 1⟩ c
        ⟨g.nextId + 2 + 3 * splitCount S T, c.result.type⟩ := by
  have hne : ∀ o ∈ g.ops, o.result.id ≠
      ({ c with result := ⟨g.nextId, c.result.type⟩ } : Operation).result.id := by
    intro o ho
    have := hg o ho
    simp; omega
  have hg3 : ∀ o ∈ (g.ops ++ [splitConvReplacement g c] ++
      [(⟨.constant [1, 1, 1, 1], [], ⟨g.nextId + 1, i32x4⟩, []⟩ : Operation)]),
      o.result.id < g.nextId + 1 + 1 := by
    intro o ho
    simp only [List.mem_append, List.mem_singleton] at ho
    rcases ho with (ho | ho) | ho
    · have := hg o ho; omega
    · subst ho; unfold splitConvReplacement; split_ifs <;> simp <;> omega
    · subst ho; simp
  unfold OpSplitPattern.rewrite
  simp only [Graph.clone, Graph.setAttr_last _ _ _ _ hne, Graph.create, splitLoop]
  have hfold := splitLoop_fold ({ c with result := ⟨g.nextId, c.result.type⟩ } : Operation)
    (⟨.constant [1, 1, 1, 1], [], ⟨g.nextId + 1, i32x4⟩, []⟩ : Operation) c.result H D
    (sliceWidthOf W (numSplitsOf S T)) (sliceWidthRemainderOf W (numSplitsOf S T))
    ⟨g.ops ++ [splitConvReplacement g c] ++
      [(⟨.constant [1, 1, 1, 1], [], ⟨g.nextId + 1, i32x4⟩, []⟩ : Operation)],
      g.nextId + 1 + 1⟩ hg3 (splitCount S T)
  have hcr : (if ({ c with result := ⟨g.nextId, c.result.type⟩ } : Operation).hasAttr opSplitLabel
      then ({ c with result := ⟨g.nextId, c.result.type⟩ } : Operation)
      else { kind := c.kind, operands := c.operands, result := ⟨g.nextId, c.result.type⟩,
             attrs := c.attrs ++ [opSplitLabel] }) = splitConvReplacement g c := by
    unfold splitConvReplacement Operation.hasAttr
    rfl
  rw [hcr]
  unfold splitCount at hfold ⊢
  rw [hfold]
  simp [splitCreatedOps, splitCount, Graph.clone, List.append_assoc]

/-- The renaming `replaceOp` applies to the operands of every operation. -/
theorem replaceOp_ops (g : Graph) (c : Operation) (v : Value) :
    (g.replaceOp c v).ops =
      (g.ops.filter (fun o => o.result.id != c.result.id)).map
        (fun o => o.replaceUsesOfWith c.result.id v) :=
  rfl

theorem splitCreatedOps_fresh (T : Int) (g : Graph) (c : Operation) (H W D S : Int) :
    ∀ o ∈ splitCreatedOps T g c H W D S, g.nextId ≤ o.result.id := by
  intro o ho
  simp only [splitCreatedOps, List.mem_append, List.mem_cons, List.mem_singleton,
    List.mem_flatMap, List.mem_range, sliceOpsAt, beginOpAt, endOpAt, sliceOpAt,
    List.not_mem_nil, or_false] at ho
  rcases ho with ((ho | ho) | ⟨i, -, ho | ho | ho⟩) | ho
  · subst ho; unfold splitConvReplacement; split_ifs <;> simp
  · subst ho; simp
  · subst ho; simp; omega
  · subst ho; simp; omega
  · subst ho; simp; omega
  · subst ho; simp; omega

theorem flatMap_singleton_eq_map {α β : Type} (f : α → β) (l : List α) :
    (l.flatMap fun a => [f a]) = l.map f := by
  induction l with
  | nil => rfl
  | cons a l ih => simp [List.flatMap_cons, ih]

theorem filter_slices_splitCreatedOps (T : Int) (g : Graph) (c : Operation) (H W D S : Int)
    (hc : c.isConv2D = true) :
    (splitCreatedOps T g c H W D S).filter
        (fun o => o.isStridedSlice && decide (g.nextId ≤ o.result.id)) =
      splitSlices T g c H W D S := by
  have hk : (splitConvReplacement g c).isStridedSlice = false := by
    unfold splitConvReplacement Operation.isStridedSlice
    unfold Operation.isConv2D at hc
    split_ifs <;> (simp only []; split at hc <;> simp_all)
  have h4 : ∀ cr sc co sw rem i,
      (sliceOpsAt cr sc co H D sw rem (g.nextId + 2) i).filter
        (fun o => o.isStridedSlice && decide (g.nextId ≤ o.result.id)) =
      [sliceOpAt cr sc co H D sw rem (g.nextId + 2) i] := by
    intro cr sc co sw rem i
    have hle : g.nextId ≤ g.nextId + 2 + 3 * i + 2 := by omega
    simp [sliceOpsAt, beginOpAt, endOpAt, sliceOpAt, List.filter_cons, Operation.isStridedSlice,
      hle]
  unfold splitCreatedOps splitSlices
  rw [List.filter_append, List.filter_append, List.filter_flatMap]
  simp only [h4, flatMap_singleton_eq_map]
  have h2 : ∀ vs ty, Operation.isStridedSlice ⟨.constant vs, [], ty, []⟩ = false :=
    fun _ _ => rfl
  have h3 : ∀ a f xs ty, Operation.isStridedSlice ⟨.concatenation a f, xs, ty, []⟩ = false :=
    fun _ _ _ _ => rfl
  simp only [List.filter_cons, hk, h2, h3, Bool.false_and, List.filter_nil]
  simp

/-- The strided slices found in the rewritten graph are the ones the loop
created, unchanged by the final replacement. -/
theorem createdStridedSlices_rewrite (T : Int) (g : Graph) (c : Operation) (H W D S : Int)
    (hg : ∀ o ∈ g.ops, o.result.id < g.nextId) (hcid : c.result.id < g.nextId)
    (hc : c.isConv2D = true) :
    createdStridedSlices g (OpSplitPattern.rewrite T g c H W D S) =
      splitSlices T g c H W D S := by
  rw [rewrite_eq T g c H W D S hg]
  unfold createdStridedSlices
  rw [replaceOp_ops]
  simp only [List.filter_append, List.map_append]
  have hold : (List.map (fun o : Operation => o.replaceUsesOfWith c.result.id
        (⟨g.nextId + 2 + 3 * splitCount S T, c.result.type⟩ : Value))
        (g.ops.filter (fun o => o.result.id != c.result.id))).filter
        (fun o => o.isStridedSlice && decide (g.nextId ≤ o.result.id)) = [] := by
    rw [List.filter_eq_nil_iff]
    intro o ho
    simp only [List.mem_map, List.mem_filter] at ho
    obtain ⟨a, ⟨ha, -⟩, rfl⟩ := ho
    have := hg a ha
    simp [Operation.replaceUsesOfWith]; intro _; omega
  rw [hold, List.nil_append]
  have hkeep : (splitCreatedOps T g c H W D S).filter (fun o => o.result.id != c.result.id) =
      splitCreatedOps T g c H W D S := by
    rw [List.filter_eq_self]
    intro o ho
    have := splitCreatedOps_fresh T g c H W D S o ho
    simp; omega
  rw [hkeep, List.filter_map]
  have hcomp : ((fun o : Operation => o.isStridedSlice && decide (g.nextId ≤ o.result.id)) ∘
      (fun o : Operation => o.replaceUsesOfWith c.result.id
        (⟨g.nextId + 2 + 3 * splitCount S T, c.result.type⟩ : Value))) =
      (fun o : Operation => o.isStridedSlice && decide (g.nextId ≤ o.result.id)) := by
    funext o
    simp [Operation.isStridedSlice, Operation.replaceUsesOfWith]
  rw [hcomp, filter_slices_splitCreatedOps T g c H W D S hc]
  conv_rhs => rw [← List.map_id (splitSlices T g c H W D S)]
  apply List.map_congr_left
  intro o ho
  simp only [splitSlices, List.mem_map, List.mem_range] at ho
  obtain ⟨i, -, rfl⟩ := ho
  have h1 : ¬ g.nextId = c.result.id := by omega
  have h2 : ¬ g.nextId + 2 + 3 * i = c.result.id := by omega
  have h3 : ¬ g.nextId + 2 + 3 * i + 1 = c.result.id := by omega
  have h4 : ¬ g.nextId + 1 = c.result.id := by omega
  simp [sliceOpAt, Graph.clone, Operation.replaceUsesOfWith, h1, h2, h3, h4]

theorem isQI8_iff (e : ElementType) : e.isQI8 = true ↔ e = .quant true 8 := by
  cases e <;> simp [ElementType.isQI8]

/-- On a convolution `OpSplitPattern::matchAndRewrite` is its chain of guards
followed by the rewrite. -/
theorem matchAndRewrite_eq (T : Int) (g : Graph) {c : Operation} {padding : String} {sw : Nat}
    {input filter : Value} {fH fW N H W D : Int}
    (hc : IsConv c padding sw input filter fH fW N H W D) :
    OpSplitPattern.matchAndRewrite T g c =
      if c.hasAttr opSplitLabel then some (.failure, g)
      else if padding != "VALID" then some (.failure, g)
      else if fH != fW then some (.failure, g)
      else if !input.type.elementType.isQI8 then some (.failure, g)
      else if !c.result.type.elementType.isQI8 then some (.failure, g)
      else if outputSizeOf (toInt32 H) (toInt32 W) (toInt32 D) < toInt32 (2 * T) then
        some (.failure, g)
      else some (.success, OpSplitPattern.rewrite T g c (toInt32 H) (toInt32 W) (toInt32 D)
        (outputSizeOf (toInt32 H) (toInt32 W) (toInt32 D))) := by
  obtain ⟨⟨sh, hk⟩, ⟨bias, hops⟩, ⟨fo, fi, hf⟩, hout⟩ := hc
  unfold OpSplitPattern.matchAndRewrite
  simp only [hk, hops, RankedTensorType.getDimSize, hf, hout]
  split_ifs <;> simp_all

theorem isConv_isConv2D {c : Operation} {padding : String} {sw : Nat}
    {input filter : Value} {fH fW N H W D : Int}
    (hc : IsConv c padding sw input filter fH fW N H W D) : c.isConv2D = true := by
  obtain ⟨⟨sh, hk⟩, -⟩ := hc
  simp [Operation.isConv2D, hk]

theorem splitLoop_wf (cr sc : Operation) (co : Value) (H D sw rem : Int) (l : List Nat) :
    ∀ st : SplitLoopState, st.g.WF →
      (l.foldl (splitLoopBody cr sc co H D sw rem) st).g.WF := by
  induction l with
  | nil => intro st h; exact h
  | cons i l ih =>
    intro st h
    rw [List.foldl_cons]
    apply ih
    unfold splitLoopBody
    exact Graph.wf_setAttr (Graph.wf_create (Graph.wf_create (Graph.wf_create h _ _ _) _ _ _) _ _ _)
      _ _

theorem rewrite_wf (T : Int) {g : Graph} (hg : g.WF) (c : Operation) (H W D S : Int) :
    (OpSplitPattern.rewrite T g c H W D S).WF := by
  unfold OpSplitPattern.rewrite
  apply Graph.wf_replaceOp
  apply Graph.wf_create
  unfold splitLoop
  apply splitLoop_wf
  exact Graph.wf_create (Graph.wf_setAttr (Graph.wf_clone hg _) _ _) _ _ _

theorem mem_rewrite_of_created (T : Int) (g : Graph) (c : Operation) (H W D S : Int)
    (hg : ∀ o ∈ g.ops, o.result.id < g.nextId) (hcid : c.result.id < g.nextId)
    {o : Operation} (ho : o ∈ splitCreatedOps T g c H W D S) :
    o.replaceUsesOfWith c.result.id ⟨g.nextId + 2 + 3 * splitCount S T, c.result.type⟩ ∈
      (OpSplitPattern.rewrite T g c H W D S).ops := by
  rw [rewrite_eq T g c H W D S hg, replaceOp_ops]
  apply List.mem_map_of_mem
  rw [List.mem_filter]
  refine ⟨List.mem_append_right _ ho, ?_⟩
  have := splitCreatedOps_fresh T g c H W D S o ho
  simp; omega

/-- The begin and end tensors of a loop-created strided slice, read in any
well-formed graph that holds its two constants. -/
theorem sliceBounds_of_mem {G : Graph} (hwf : G.WF) (cr sc : Operation) (co : Value)
    (H D sw rem : Int) (base i : Nat)
    (hb : beginOpAt sw rem base i ∈ G.ops) (he : endOpAt H D sw rem base i ∈ G.ops) :
    sliceBounds G (sliceOpAt cr sc co H D sw rem base i) =
      some ([0, 0, offsetOf sw rem i, 0], [1, H, offsetOf sw rem (i + 1), D]) := by
  have hdb := Graph.getDefiningOp_of_mem hwf hb ⟨base + 3 * i, i32x4⟩ rfl
  have hde := Graph.getDefiningOp_of_mem hwf he ⟨base + 3 * i + 1, i32x4⟩ rfl
  simp [sliceBounds, sliceOpAt, matchConstant, hdb, hde, beginOpAt, endOpAt]

/-- The begin and end tensors of the strided slices in the rewritten graph. -/
theorem sliceBounds_rewrite (T : Int) {g : Graph} (hg : g.WF) (c : Operation) (H W D S : Int)
    (hcid : c.result.id < g.nextId) (i : Nat) (hi : i < splitCount S T) :
    sliceBounds (OpSplitPattern.rewrite T g c H W D S)
        (sliceOpAt (g.clone c).2 (⟨.constant [1, 1, 1, 1], [], ⟨g.nextId + 1, i32x4⟩, []⟩)
          c.result H D (sliceWidthOf W (numSplitsOf S T))
          (sliceWidthRemainderOf W (numSplitsOf S T)) (g.nextId + 2) i) =
      some ([0, 0, offsetOf (sliceWidthOf W (numSplitsOf S T))
                (sliceWidthRemainderOf W (numSplitsOf S T)) i, 0],
            [1, H, offsetOf (sliceWidthOf W (numSplitsOf S T))
                (sliceWidthRemainderOf W (numSplitsOf S T)) (i + 1), D]) := by
  apply sliceBounds_of_mem (rewrite_wf T hg c H W D S)
  · have := mem_rewrite_of_created T g c H W D S hg.1 hcid
      (o := beginOpAt (sliceWidthOf W (numSplitsOf S T))
        (sliceWidthRemainderOf W (numSplitsOf S T)) (g.nextId + 2) i) (by
        simp only [splitCreatedOps, List.mem_append, List.mem_flatMap, List.mem_range, sliceOpsAt,
          List.mem_cons]
        exact Or.inl (Or.inr ⟨i, hi, Or.inl rfl⟩))
    simpa [Operation.replaceUsesOfWith, beginOpAt] using this
  · have := mem_rewrite_of_created T g c H W D S hg.1 hcid
      (o := endOpAt H D (sliceWidthOf W (numSplitsOf S T))
        (sliceWidthRemainderOf W (numSplitsOf S T)) (g.nextId + 2) i) (by
        simp only [splitCreatedOps, List.mem_append, List.mem_flatMap, List.mem_range, sliceOpsAt,
          List.mem_cons]
        exact Or.inl (Or.inr ⟨i, hi, Or.inr (Or.inl rfl)⟩))
    simpa [Operation.replaceUsesOfWith, endOpAt] using this

/-- The state the loop reaches from the initial state of the source, in closed
form. -/
theorem splitLoop_eq (cr sc : Operation) (co : Value) (H D sw rem n : Int) (g : Graph)
    (hg : g.WF) (hn : 0 ≤ n) (hn2 : n < 2147483648) :
    splitLoop cr sc co H D sw rem n { g := g, prevEndIndex := 0, stridedSliceOps := [] } =
      { g := ⟨g.ops ++ (List.range n.toNat).flatMap (sliceOpsAt cr sc co H D sw rem g.nextId),
              g.nextId + 3 * n.toNat⟩,
        prevEndIndex := offsetOf sw rem n.toNat,
        stridedSliceOps := (List.range n.toNat).map (sliceValueAt co H D sw rem g.nextId) } := by
  unfold splitLoop
  rw [toSizeT_of_nonneg hn hn2]
  exact splitLoop_fold cr sc co H D sw rem g hg.1 n.toNat

/-- The strided slices of the graph the loop leaves. -/
theorem createdStridedSlices_loop (cr sc : Operation) (co : Value) (H D sw rem : Int)
    (g : Graph) (hg : g.WF) (k : Nat) :
    createdStridedSlices g
        ⟨g.ops ++ (List.range k).flatMap (sliceOpsAt cr sc co H D sw rem g.nextId),
          g.nextId + 3 * k⟩ =
      (List.range k).map (sliceOpAt cr sc co H D sw rem g.nextId) := by
  unfold createdStridedSlices
  simp only [List.filter_append, List.filter_flatMap]
  have hold : g.ops.filter (fun o => o.isStridedSlice && decide (g.nextId ≤ o.result.id)) = [] := by
    rw [List.filter_eq_nil_iff]
    intro o ho
    have := hg.1 o ho
    simp; intro _; omega
  have h4 : ∀ i, (sliceOpsAt cr sc co H D sw rem g.nextId i).filter
        (fun o => o.isStridedSlice && decide (g.nextId ≤ o.result.id)) =
      [sliceOpAt cr sc co H D sw rem g.nextId i] := by
    intro i
    have hle : g.nextId ≤ g.nextId + 3 * i + 2 := by omega
    simp [sliceOpsAt, beginOpAt, endOpAt, sliceOpAt, List.filter_cons, Operation.isStridedSlice,
      hle]
  simp only [hold, h4, flatMap_singleton_eq_map, List.nil_append]

/-- The width ranges of the strided slices of the graph the loop leaves. -/
theorem widthRange_loop (cr sc : Operation) (co : Value) (H D sw rem : Int)
    (g : Graph) (k i : Nat) (hi : i < k)
    (hwf : Graph.WF ⟨g.ops ++ (List.range k).flatMap (sliceOpsAt cr sc co H D sw rem g.nextId),
          g.nextId + 3 * k⟩) :
    widthRange ⟨g.ops ++ (List.range k).flatMap (sliceOpsAt cr sc co H D sw rem g.nextId),
          g.nextId + 3 * k⟩ (sliceOpAt cr sc co H D sw rem g.nextId i) =
      some (offsetOf sw rem i, offsetOf sw rem (i + 1)) := by
  have hb := sliceBounds_of_mem hwf cr sc co H D sw rem g.nextId i
    (by
      simp only [List.mem_append, List.mem_flatMap, List.mem_range, sliceOpsAt, List.mem_cons]
      exact Or.inr ⟨i, hi, Or.inl rfl⟩)
    (by
      simp only [List.mem_append, List.mem_flatMap, List.mem_range, sliceOpsAt, List.mem_cons]
      exact Or.inr ⟨i, hi, Or.inr (Or.inl rfl)⟩)
  simp [widthRange, hb]

theorem toInt32_isInt32 (x : Int) : IsInt32 (toInt32 x) := by
  unfold toInt32 IsInt32; omega

theorem outputSizeOf_exact {H W D : Int} (hH : 0 ≤ H) (hW : 0 ≤ W) (hD : 0 ≤ D)
    (hlt : H * W * D < 2147483648) (hHW : H * W < 2147483648) :
    outputSizeOf H W D = H * W * D := by
  unfold outputSizeOf
  have h1 : 0 ≤ H * W := mul_nonneg hH hW
  rw [toInt32_of_isExtent ⟨h1, hHW⟩]
  exact toInt32_of_isExtent ⟨mul_nonneg h1 hD, hlt⟩

theorem exampleConv_isConv (N H W D : Int) :
    IsConv (exampleConv [N, H, W, D]) "VALID" 1 (exampleInput [N, H, W, D]) exampleFilter
      1 1 N H W D :=
  ⟨⟨1, rfl⟩, ⟨_, rfl⟩, ⟨4, 4, rfl⟩, rfl⟩

theorem exampleTensor_hasShape (n w : Nat) : HasShape (exampleTensor n w) n 1 w 1 := by
  refine ⟨List.length_replicate _ _, ?_⟩
  intro t1 h1
  rw [exampleTensor, List.mem_replicate] at h1
  obtain ⟨-, rfl⟩ := h1
  refine ⟨rfl, ?_⟩
  intro t2 h2
  rw [List.mem_singleton] at h2
  subst h2
  refine ⟨List.length_replicate _ _, ?_⟩
  intro t3 h3
  rw [List.mem_replicate] at h3
  obtain ⟨-, rfl⟩ := h3
  rfl

/-! ## C1: when the split rule fires -/

/-- C1 (counterexample): a convolution with output shape `[1, 32768, 65536, 1]`
has no split label, valid padding, a square filter, signed 8-bit quantized
input and output and `outputHeight * outputWidth * outputDepth >= 2 * 98304`,
yet the rule declines, because the `int32_t` product wraps to a negative
value. -/
theorem split_declines_on_int32_overflow :
    (exampleConv [1, 32768, 65536, 1]).kind = .conv2d "VALID" 1 1 ∧
    (exampleConv [1, 32768, 65536, 1]).hasAttr opSplitLabel = false ∧
    (exampleConv [1, 32768, 65536, 1]).operands.map (fun v => v.type) =
      [⟨[1, 32768, 65536, 1], .quant true 8⟩, ⟨[4, 1, 1, 4], .quant true 8⟩,
        ⟨[4], .integer 32⟩] ∧
    (exampleConv [1, 32768, 65536, 1]).result.type =
      ⟨[1, 32768, 65536, 1], .quant true 8⟩ ∧
    (2 * splitTensorSize ≤ 32768 * 65536 * 1) ∧
    OpSplitPattern.matchAndRewrite splitTensorSize (exampleGraph [1, 32768, 65536, 1])
        (exampleConv [1, 32768, 65536, 1]) =
      some (.failure, exampleGraph [1, 32768, 65536, 1]) := by
  refine ⟨rfl, by decide, rfl, rfl, by decide, ?_⟩
  decide

/-- C1 (amended): on a convolution with `int32_t` extents the split rule fires
if and only if the convolution has no split label, valid padding, a square
filter, signed 8-bit quantized input and output, and the product
`outputHeight * outputWidth * outputDepth` as computed in `int32_t` is at least
`2 * threshold`; in every other case it declines and leaves the graph as it
was. For non-negative extents whose exact product is below `2^31` the
`int32_t` product is the exact product. -/
theorem split_fires_iff_guards (T : Int) (g : Graph) (c : Operation) (padding : String)
    (sw : Nat) (input filter : Value) (fH fW N H W D : Int)
    (hc : IsConv c padding sw input filter fH fW N H W D)
    (hT : IsInt32 (2 * T)) (hH : IsInt32 H) (hW : IsInt32 W) (hD : IsInt32 D) :
    ((∃ g2, OpSplitPattern.matchAndRewrite T g c = some (.success, g2)) ↔
      (c.hasAttr opSplitLabel = false ∧ padding = "VALID" ∧ fH = fW ∧
        input.type.elementType = .quant true 8 ∧ c.result.type.elementType = .quant true 8 ∧
        2 * T ≤ outputSizeOf H W D)) ∧
    ((¬ ∃ g2, OpSplitPattern.matchAndRewrite T g c = some (.success, g2)) →
      OpSplitPattern.matchAndRewrite T g c = some (.failure, g)) ∧
    (0 ≤ H → 0 ≤ W → 0 ≤ D → H * W * D < 2147483648 → outputSizeOf H W D = H * W * D) := by
  rw [matchAndRewrite_eq T g hc, toInt32_of_isInt32 hH, toInt32_of_isInt32 hW,
    toInt32_of_isInt32 hD, toInt32_of_isInt32 hT]
  refine ⟨?_, ?_, ?_⟩
  · simp only [← isQI8_iff]
    split_ifs <;> simp_all
  · split_ifs <;> simp
  · intro h0 w0 d0 hlt
    rcases eq_or_lt_of_le d0 with hd | hd
    · subst hd
      simp [outputSizeOf, toInt32]
    · have h1 : 0 ≤ H * W := mul_nonneg h0 w0
      have h2 : H * W * 1 ≤ H * W * D := mul_le_mul_of_nonneg_left (by omega) h1
      exact outputSizeOf_exact h0 w0 d0 hlt (by omega)

theorem split_fires_iff_guards_witness :
    IsInt32 (2 * splitTensorSize) ∧ IsInt32 1 ∧ IsInt32 200000 ∧
    (∃ g2, OpSplitPattern.matchAndRewrite splitTensorSize (exampleGraph [1, 1, 200000, 1])
      (exampleConv [1, 1, 200000, 1]) = some (.success, g2)) :=
  ⟨by decide, by decide, by decide,
    (split_fires_iff_guards splitTensorSize (exampleGraph [1, 1, 200000, 1])
      (exampleConv [1, 1, 200000, 1]) "VALID" 1 (exampleInput [1, 1, 200000, 1])
      exampleFilter 1 1 1 1 200000 1
      (exampleConv_isConv 1 1 200000 1) (by decide) (by decide) (by decide)
      (by decide)).1.2 ⟨by decide, rfl, rfl, rfl, rfl, by decide⟩⟩

/-! ## C3: the number of partitions -/

/-- C3 (the code at the failing input): for a convolution with output shape
`[1, 1, 250000, 1]` the rule fires and creates two strided slices, the
truncated quotient `250000 / 98304`, whereas the ceiling of the exact quotient
is three; likewise output size 1024 with threshold 400 gives two, not three. -/
theorem numSplits_truncates_quotient :
    numSplitsOf (outputSizeOf 1 250000 1) splitTensorSize = 2 ∧
    ⌈(250000 : ℚ) / 98304⌉ = 3 ∧
    (OpSplitPattern.matchAndRewrite splitTensorSize (exampleGraph [1, 1, 250000, 1])
        (exampleConv [1, 1, 250000, 1])).map
      (fun r => (r.1, (createdStridedSlices (exampleGraph [1, 1, 250000, 1]) r.2).length)) =
      some (.success, 2) ∧
    numSplitsOf 1024 400 = 2 ∧ ⌈(1024 : ℚ) / 400⌉ = 3 := by
  refine ⟨by decide, ?_, by decide, by decide, ?_⟩
  · rw [Int.ceil_eq_iff]; norm_num
  · rw [Int.ceil_eq_iff]; norm_num

/-! ## C4: the partition widths -/

/-- The declared widths and width ranges of the strided slices the loop creates,
in closed form. -/
theorem splitLoop_spec (cr sc : Operation) (co : Value) (H D W n : Int) (g : Graph)
    (hg : g.WF) (hW : IsExtent W) (hn : 0 < n) (hn2 : n < 2147483648) :
    (splitLoop cr sc co H D (sliceWidthOf W n) (sliceWidthRemainderOf W n) n
        { g := g, prevEndIndex := 0, stridedSliceOps := [] }).stridedSliceOps.map
        (fun v => v.type.getDimSize 2) =
      (List.range n.toNat).map
        (fun (i : Nat) => some (if (i : Int) < W % n then W / n + 1 else W / n)) ∧
    (createdStridedSlices g
        (splitLoop cr sc co H D (sliceWidthOf W n) (sliceWidthRemainderOf W n) n
          { g := g, prevEndIndex := 0, stridedSliceOps := [] }).g).map
        (widthRange (splitLoop cr sc co H D (sliceWidthOf W n) (sliceWidthRemainderOf W n) n
          { g := g, prevEndIndex := 0, stridedSliceOps := [] }).g) =
      (List.range n.toNat).map
        (fun (i : Nat) => some ((i : Int) * (W / n) + min (i : Int) (W % n),
          (i : Int) * (W / n) + min (i : Int) (W % n) +
            (if (i : Int) < W % n then W / n + 1 else W / n))) := by
  have hwf := splitLoop_wf cr sc co H D (sliceWidthOf W n) (sliceWidthRemainderOf W n)
    (List.range (toSizeT n).toNat) { g := g, prevEndIndex := 0, stridedSliceOps := [] } hg
  have heq := splitLoop_eq cr sc co H D (sliceWidthOf W n) (sliceWidthRemainderOf W n) n g hg
    hn.le hn2
  unfold splitLoop at heq
  rw [heq] at hwf
  unfold splitLoop
  rw [heq]
  simp only [sliceWidthOf_eq hW hn, sliceWidthRemainderOf_eq hW hn] at hwf ⊢
  have hc : ((n.toNat : Nat) : Int) = n := Int.toNat_of_nonneg hn.le
  obtain ⟨h1, h2, h3, h4, h5⟩ := divmod_facts hW hn
  constructor
  · rw [List.map_map]
    apply List.map_congr_left
    intro i _
    simp [sliceValueAt, RankedTensorType.getDimSize, currentSliceWidthOf_eq hW hn]
  · rw [createdStridedSlices_loop _ _ _ _ _ _ _ _ hg, List.map_map]
    apply List.map_congr_left
    intro i hi
    rw [List.mem_range] at hi
    have hi2 : ((i : Nat) : Int) + 1 ≤ n := by omega
    simp only [Function.comp]
    rw [widthRange_loop _ _ _ _ _ _ _ _ _ _ hi hwf, offsetOf_eq hW hn i (by omega),
      offsetOf_eq hW hn (i + 1) (by push_cast; omega)]
    push_cast
    have h7 : ((i : Int) + 1) * (W / n) = i * (W / n) + W / n := by ring
    rw [h7]
    split_ifs with hlt
    · congr 2; omega
    · congr 2; omega

/-- C4: for every output width `W >= 0` and count `n > 0` (both `int32_t`),
the loop of the split rule creates `n` strided slices whose `i`-th declared
width is `floor(W / n) + 1` when `i < W mod n` and `floor(W / n)` otherwise,
and whose `i`-th width range starts at the sum of the earlier widths and ends
that width later. -/
theorem splitLoop_widths (cr sc : Operation) (co : Value) (H D W n : Int) (g : Graph)
    (hg : g.WF) (hW : IsExtent W) (hn : 0 < n) (hn2 : n < 2147483648) :
    (splitLoop cr sc co H D (sliceWidthOf W n) (sliceWidthRemainderOf W n) n
        { g := g, prevEndIndex := 0, stridedSliceOps := [] }).stridedSliceOps.map
        (fun v => v.type.getDimSize 2) =
      (List.range n.toNat).map
        (fun (i : Nat) => some (if (i : Int) < W % n then W / n + 1 else W / n)) ∧
    (createdStridedSlices g
        (splitLoop cr sc co H D (sliceWidthOf W n) (sliceWidthRemainderOf W n) n
          { g := g, prevEndIndex := 0, stridedSliceOps := [] }).g).map
        (widthRange (splitLoop cr sc co H D (sliceWidthOf W n) (sliceWidthRemainderOf W n) n
          { g := g, prevEndIndex := 0, stridedSliceOps := [] }).g) =
      (List.range n.toNat).map
        (fun (i : Nat) => some ((i : Int) * (W / n) + min (i : Int) (W % n),
          (i : Int) * (W / n) + min (i : Int) (W % n) +
            (if (i : Int) < W % n then W / n + 1 else W / n))) :=
  splitLoop_spec cr sc co H D W n g hg hW hn hn2

theorem splitLoop_widths_witness :
    (exampleGraph [1, 1, 1024, 3]).WF ∧ IsExtent 1024 ∧ (0 : Int) < 3 ∧
    (splitLoop (exampleConv [1, 1, 1024, 3]) (exampleConv []) ⟨3, ⟨[1, 1, 1024, 3], qi8⟩⟩ 1 3
        (sliceWidthOf 1024 3) (sliceWidthRemainderOf 1024 3) 3
        { g := exampleGraph [1, 1, 1024, 3], prevEndIndex := 0,
          stridedSliceOps := [] }).stridedSliceOps.map (fun v => v.type.getDimSize 2) =
      [some 342, some 341, some 341] ∧
    (createdStridedSlices (exampleGraph [1, 1, 1024, 3])
        (splitLoop (exampleConv [1, 1, 1024, 3]) (exampleConv []) ⟨3, ⟨[1, 1, 1024, 3], qi8⟩⟩ 1 3
          (sliceWidthOf 1024 3) (sliceWidthRemainderOf 1024 3) 3
          { g := exampleGraph [1, 1, 1024, 3], prevEndIndex := 0, stridedSliceOps := [] }).g).map
        (widthRange (splitLoop (exampleConv [1, 1, 1024, 3]) (exampleConv [])
          ⟨3, ⟨[1, 1, 1024, 3], qi8⟩⟩ 1 3
          (sliceWidthOf 1024 3) (sliceWidthRemainderOf 1024 3) 3
          { g := exampleGraph [1, 1, 1024, 3], prevEndIndex := 0, stridedSliceOps := [] }).g) =
      [some (0, 342), some (342, 683), some (683, 1024)] :=
  ⟨by decide, by decide, by decide,
    (splitLoop_widths (exampleConv [1, 1, 1024, 3]) (exampleConv [])
      ⟨3, ⟨[1, 1, 1024, 3], qi8⟩⟩ 1 3 1024 3 (exampleGraph [1, 1, 1024, 3])
      (by decide) (by decide) (by decide) (by decide)).1.trans (by decide),
    (splitLoop_widths (exampleConv [1, 1, 1024, 3]) (exampleConv [])
      ⟨3, ⟨[1, 1, 1024, 3], qi8⟩⟩ 1 3 1024 3 (exampleGraph [1, 1, 1024, 3])
      (by decide) (by decide) (by decide) (by decide)).2.trans (by decide)⟩

/-! ## C5: the partition widths sum to the output width -/

theorem sum_widths {W n : Int} (hW : IsExtent W) (hn : 0 < n) (k : Nat) :
    ((List.range k).map
        (fun (i : Nat) => if (i : Int) < W % n then W / n + 1 else W / n)).sum =
      (k : Int) * (W / n) + min (k : Int) (W % n) := by
  obtain ⟨h1, h2, h3, h4, h5⟩ := divmod_facts hW hn
  induction k with
  | zero => simp [h2]
  | succ k ih =>
    rw [List.sum_range_succ, ih]
    push_cast
    have h7 : ((k : Int) + 1) * (W / n) = k * (W / n) + W / n := by ring
    rw [h7]
    split_ifs with hlt <;> omega

/-- C5: for all `W >= count > 0` the loop of the split rule creates `count`
strided slices whose declared widths are all positive and sum exactly to
`W`. -/
theorem splitLoop_widths_sum (cr sc : Operation) (co : Value) (H D W n : Int) (g : Graph)
    (hg : g.WF) (hW : IsExtent W) (hn : 0 < n) (hnW : n ≤ W) :
    ∃ ws : List Int,
      (splitLoop cr sc co H D (sliceWidthOf W n) (sliceWidthRemainderOf W n) n
        { g := g, prevEndIndex := 0, stridedSliceOps := [] }).stridedSliceOps.map
        (fun v => v.type.getDimSize 2) = ws.map some ∧
      ws.length = n.toNat ∧ ws.sum = W ∧ ∀ w ∈ ws, 0 < w := by
  have hn2 : n < 2147483648 := lt_of_le_of_lt hnW hW.2
  obtain ⟨h1, h2, h3, h4, h5⟩ := divmod_facts hW hn
  have hc : ((n.toNat : Nat) : Int) = n := Int.toNat_of_nonneg hn.le
  have hq : 1 ≤ W / n := Int.le_ediv_of_mul_le hn (by omega)
  refine ⟨(List.range n.toNat).map
    (fun (i : Nat) => if (i : Int) < W % n then W / n + 1 else W / n), ?_, ?_, ?_, ?_⟩
  · rw [(splitLoop_spec cr sc co H D W n g hg hW hn hn2).1, List.map_map]
    rfl
  · simp
  · rw [sum_widths hW hn, hc]
    omega
  · intro w hw
    simp only [List.mem_map, List.mem_range] at hw
    obtain ⟨i, -, rfl⟩ := hw
    split_ifs <;> omega

theorem splitLoop_widths_sum_witness :
    (exampleGraph [1, 1, 1024, 3]).WF ∧ IsExtent 1024 ∧ (0 : Int) < 3 ∧ (3 : Int) ≤ 1024 ∧
    ∃ ws : List Int,
      (splitLoop (exampleConv [1, 1, 1024, 3]) (exampleConv []) ⟨3, ⟨[1, 1, 1024, 3], qi8⟩⟩ 1 3
        (sliceWidthOf 1024 3) (sliceWidthRemainderOf 1024 3) 3
        { g := exampleGraph [1, 1, 1024, 3], prevEndIndex := 0,
          stridedSliceOps := [] }).stridedSliceOps.map (fun v => v.type.getDimSize 2) =
        ws.map some ∧
      ws.length = (3 : Int).toNat ∧ ws.sum = 1024 ∧ ∀ w ∈ ws, 0 < w :=
  ⟨by decide, by decide, by decide, by decide,
    splitLoop_widths_sum (exampleConv [1, 1, 1024, 3]) (exampleConv [])
      ⟨3, ⟨[1, 1, 1024, 3], qi8⟩⟩ 1 3 1024 3 (exampleGraph [1, 1, 1024, 3])
      (by decide) (by decide) (by decide) (by decide)⟩

/-! ## C6 and C7: the width ranges of the strided slices -/

/-- What a successful application of the split rule tells about its input. -/
theorem fires_inv {T : Int} {g g2 : Graph} {c : Operation} {padding : String} {sw : Nat}
    {input filter : Value} {fH fW N H W D : Int}
    (hc : IsConv c padding sw input filter fH fW N H W D)
    (hT : 0 < T) (hT2 : T < 1073741824) (hH : IsInt32 H) (hW : IsInt32 W) (hD : IsInt32 D)
    (hfire : OpSplitPattern.matchAndRewrite T g c = some (.success, g2)) :
    g2 = OpSplitPattern.rewrite T g c H W D (outputSizeOf H W D) ∧
      2 * T ≤ outputSizeOf H W D := by
  have hT3 : IsInt32 (2 * T) := by unfold IsInt32; omega
  rw [matchAndRewrite_eq T g hc, toInt32_of_isInt32 hH, toInt32_of_isInt32 hW,
    toInt32_of_isInt32 hD, toInt32_of_isInt32 hT3] at hfire
  split_ifs at hfire with h1 h2 h3 h4 h5 h6
  all_goals first
    | (simp at hfire; done)
    | (simp only [Option.some.injEq, Prod.mk.injEq, true_and] at hfire
       exact ⟨hfire.symm, by omega⟩)

/-- The partition count once the size guard has passed. -/
theorem numSplits_facts {T S : Int} (hT : 0 < T) (hS : IsInt32 S) (h2 : 2 * T ≤ S) :
    numSplitsOf S T = S / T ∧ 2 ≤ S / T ∧ S / T < 2147483648 ∧
      splitCount S T = (S / T).toNat := by
  have hS0 : 0 ≤ S := by omega
  have hq : 2 ≤ S / T := Int.le_ediv_of_mul_le hT h2
  have hq2 : S / T ≤ S := Int.ediv_le_self T hS0
  have hS2 := hS.2
  have hnum : numSplitsOf S T = S / T := by
    unfold numSplitsOf
    rw [Int.tdiv_eq_ediv hS0 hT.le]
    exact toInt32_of_isExtent ⟨by omega, by omega⟩
  refine ⟨hnum, hq, by omega, ?_⟩
  unfold splitCount
  rw [hnum, toSizeT_of_nonneg (by omega) (by omega)]

theorem partitionStart_zero (W n : Int) (hW : IsExtent W) (hn : 0 < n) :
    partitionStart W n 0 = 0 := by
  obtain ⟨h1, h2, h3, h4, h5⟩ := divmod_facts hW hn
  simp [partitionStart, h2]

theorem partitionStart_succ (W n : Int) (i : Nat) :
    partitionStart W n (i + 1) = partitionStart W n i + partitionWidth W n i := by
  unfold partitionStart partitionWidth
  push_cast
  have h7 : ((i : Int) + 1) * (W / n) = i * (W / n) + W / n := by ring
  rw [h7]
  split_ifs <;> omega

theorem partitionStart_total (W n : Int) (hW : IsExtent W) (hn : 0 < n) :
    partitionStart W n n.toNat = W := by
  obtain ⟨h1, h2, h3, h4, h5⟩ := divmod_facts hW hn
  have hc : ((n.toNat : Nat) : Int) = n := Int.toNat_of_nonneg hn.le
  unfold partitionStart
  rw [hc]
  omega

theorem partitionWidth_nonneg (W n : Int) (hW : IsExtent W) (hn : 0 < n) (i : Nat) :
    0 ≤ partitionWidth W n i := by
  obtain ⟨h1, h2, h3, h4, h5⟩ := divmod_facts hW hn
  unfold partitionWidth
  split_ifs <;> omega

/-- The strided slices a successful application of the split rule leaves, with
their bounds and declared widths, in closed form. -/
theorem split_slices_spec {T : Int} {g g2 : Graph} {c : Operation} {padding : String}
    {sw : Nat} {input filter : Value} {fH fW N H W D : Int}
    (hc : IsConv c padding sw input filter fH fW N H W D)
    (hg : g.WF) (hmem : c ∈ g.ops) (hT : 0 < T) (hT2 : T < 1073741824)
    (hH : IsInt32 H) (hW : IsExtent W) (hD : IsInt32 D)
    (hfire : OpSplitPattern.matchAndRewrite T g c = some (.success, g2)) :
    (createdStridedSlices g g2).map (sliceBounds g2) =
      (List.range (outputSizeOf H W D / T).toNat).map (fun i =>
        some ([0, 0, partitionStart W (outputSizeOf H W D / T) i, 0],
          [1, H, partitionStart W (outputSizeOf H W D / T) (i + 1), D])) ∧
    (createdStridedSlices g g2).map declaredWidth =
      (List.range (outputSizeOf H W D / T).toNat).map (fun i =>
        some (partitionWidth W (outputSizeOf H W D / T) i)) ∧
    (∀ s ∈ createdStridedSlices g g2, s.hasAttr opSplitLabel = true ∧
      s.hasAttr raisedStridedSliceLabel = false ∧ s.isStridedSlice = true) := by
  have hW32 : IsInt32 W := ⟨by have := hW.1; omega, hW.2⟩
  obtain ⟨rfl, h2T⟩ := fires_inv hc hT hT2 hH hW32 hD hfire
  obtain ⟨hnum, hq, hq2, hcount⟩ :=
    numSplits_facts (S := outputSizeOf H W D) hT (toInt32_isInt32 _) h2T
  have hn : 0 < outputSizeOf H W D / T := by omega
  have hcid : c.result.id < g.nextId := hg.1 c hmem
  have hconv := isConv_isConv2D hc
  have hcn : ∀ i : Nat, i < (outputSizeOf H W D / T).toNat →
      ((i : Nat) : Int) + 1 ≤ outputSizeOf H W D / T := by
    intro i hi; omega
  rw [createdStridedSlices_rewrite T g c H W D _ hg.1 hcid hconv]
  unfold splitSlices
  rw [hcount, hnum, sliceWidthOf_eq hW hn, sliceWidthRemainderOf_eq hW hn]
  refine ⟨?_, ?_, ?_⟩
  · rw [List.map_map]
    apply List.map_congr_left
    intro i hi
    rw [List.mem_range] at hi
    have := sliceBounds_rewrite T hg c H W D (outputSizeOf H W D) hcid i (by rw [hcount]; exact hi)
    rw [hnum, sliceWidthOf_eq hW hn, sliceWidthRemainderOf_eq hW hn] at this
    simp only [Function.comp]
    rw [this, offsetOf_eq hW hn i (by have := hcn i hi; omega),
      offsetOf_eq hW hn (i + 1) (by have := hcn i hi; push_cast; omega)]
    rfl
  · rw [List.map_map]
    apply List.map_congr_left
    intro i _
    simp [sliceOpAt, declaredWidth, RankedTensorType.getDimSize, currentSliceWidthOf_eq hW hn,
      partitionWidth]
  · intro s hs
    simp only [List.mem_map, List.mem_range] at hs
    obtain ⟨i, -, rfl⟩ := hs
    have h1 : ([opSplitLabel] : List String).contains opSplitLabel = true := by decide
    have h2 : ([opSplitLabel] : List String).contains raisedStridedSliceLabel = false := by
      decide
    exact ⟨h1, h2, rfl⟩

theorem getElem?_map_range {β : Type} (k : Nat) (f : Nat → β) (i : Nat) (a : β)
    (h : ((List.range k).map f)[i]? = some a) : i < k ∧ a = f i := by
  rw [List.getElem?_map] at h
  rcases Nat.lt_or_ge i k with h1 | h1
  · rw [List.getElem?_range h1] at h
    simp at h
    exact ⟨h1, h.symm⟩
  · rw [List.getElem?_eq_none (by simpa using h1)] at h
    simp at h

/-- C6: for every convolution (non-negative `int32_t` output width) on which
the split rule fires, the strided slices it creates have constant width ranges
`rs` and declared widths `ws` such that the first start is 0, every later
start equals the previous end, every end equals its start plus that
partition's width (which is not negative), and the last end equals the
original output width. -/
theorem split_ranges_contiguous (T : Int) (g g2 : Graph) (c : Operation) (padding : String)
    (sw : Nat) (input filter : Value) (fH fW N H W D : Int)
    (hc : IsConv c padding sw input filter fH fW N H W D)
    (hg : g.WF) (hmem : c ∈ g.ops) (hT : 0 < T) (hT2 : T < 1073741824)
    (hH : IsInt32 H) (hW : IsExtent W) (hD : IsInt32 D)
    (hfire : OpSplitPattern.matchAndRewrite T g c = some (.success, g2)) :
    ∃ (rs : List (Int × Int)) (ws : List Int),
      (createdStridedSlices g g2).map (widthRange g2) = rs.map some ∧
      (createdStridedSlices g g2).map declaredWidth = ws.map some ∧
      rs.length = ws.length ∧ 2 ≤ rs.length ∧
      rs.head?.map Prod.fst = some 0 ∧
      (∀ (i : Nat) (a b : Int × Int), rs[i]? = some a → rs[i + 1]? = some b → b.1 = a.2) ∧
      (∀ (i : Nat) (a : Int × Int) (w : Int), rs[i]? = some a → ws[i]? = some w →
        a.2 = a.1 + w ∧ 0 ≤ w) ∧
      rs.getLast?.map Prod.snd = some W := by
  have hW32 : IsInt32 W := ⟨by have := hW.1; omega, hW.2⟩
  obtain ⟨hb, hw, -⟩ := split_slices_spec hc hg hmem hT hT2 hH hW hD hfire
  obtain ⟨-, h2T⟩ := fires_inv hc hT hT2 hH hW32 hD hfire
  obtain ⟨-, hq, -, -⟩ := numSplits_facts (S := outputSizeOf H W D) hT (toInt32_isInt32 _) h2T
  have hn : 0 < outputSizeOf H W D / T := by omega
  have hk : 2 ≤ (outputSizeOf H W D / T).toNat := by omega
  refine ⟨(List.range (outputSizeOf H W D / T).toNat).map (fun i =>
      (partitionStart W (outputSizeOf H W D / T) i,
        partitionStart W (outputSizeOf H W D / T) (i + 1))),
    (List.range (outputSizeOf H W D / T).toNat).map (fun i =>
      partitionWidth W (outputSizeOf H W D / T) i), ?_, ?_, ?_, ?_, ?_, ?_, ?_, ?_⟩
  · have : (createdStridedSlices g g2).map (widthRange g2) =
        ((createdStridedSlices g g2).map (sliceBounds g2)).map (fun o => o.bind (fun be =>
          (be.1[2]?).bind (fun b => (be.2[2]?).bind (fun e => some (b, e))))) := by
      rw [List.map_map]
      apply List.map_congr_left
      intro s _
      simp only [Function.comp, widthRange]
      cases sliceBounds g2 s <;> rfl
    rw [this, hb, List.map_map, List.map_map]
    apply List.map_congr_left
    intro i _
    rfl
  · rw [hw, List.map_map]; rfl
  · simp
  · simpa using hk
  · obtain ⟨m, hm⟩ : ∃ m, (outputSizeOf H W D / T).toNat = m + 1 :=
      ⟨(outputSizeOf H W D / T).toNat - 1, by omega⟩
    rw [hm, List.range_succ_eq_map]
    simp [partitionStart_zero W _ hW hn]
  · intro i a b ha hb2
    obtain ⟨-, rfl⟩ := getElem?_map_range _ _ _ _ ha
    obtain ⟨-, rfl⟩ := getElem?_map_range _ _ _ _ hb2
    rfl
  · intro i a w ha hw2
    obtain ⟨-, rfl⟩ := getElem?_map_range _ _ _ _ ha
    obtain ⟨-, rfl⟩ := getElem?_map_range _ _ _ _ hw2
    exact ⟨partitionStart_succ W _ i, partitionWidth_nonneg W _ hW hn i⟩
  · rw [List.getLast?_eq_getElem?, List.getElem?_map, List.length_map, List.length_range,
      List.getElem?_range (show (outputSizeOf H W D / T).toNat - 1 <
        (outputSizeOf H W D / T).toNat by omega)]
    simp only [Option.map_some']
    have : (outputSizeOf H W D / T).toNat - 1 + 1 = (outputSizeOf H W D / T).toNat := by omega
    rw [this, partitionStart_total W _ hW hn]

theorem split_ranges_contiguous_witness :
    IsConv (exampleConv [1, 1, 200000, 1]) "VALID" 1 (exampleInput [1, 1, 200000, 1])
      exampleFilter 1 1 1 1 200000 1 ∧
    (exampleGraph [1, 1, 200000, 1]).WF ∧
    exampleConv [1, 1, 200000, 1] ∈ (exampleGraph [1, 1, 200000, 1]).ops ∧
    0 < splitTensorSize ∧ splitTensorSize < 1073741824 ∧
    IsInt32 1 ∧ IsExtent 200000 ∧
    OpSplitPattern.matchAndRewrite splitTensorSize (exampleGraph [1, 1, 200000, 1])
        (exampleConv [1, 1, 200000, 1]) =
      some (.success, OpSplitPattern.rewrite splitTensorSize (exampleGraph [1, 1, 200000, 1])
        (exampleConv [1, 1, 200000, 1]) 1 200000 1 200000) ∧
    ∃ (rs : List (Int × Int)) (ws : List Int),
      (createdStridedSlices (exampleGraph [1, 1, 200000, 1])
        (OpSplitPattern.rewrite splitTensorSize (exampleGraph [1, 1, 200000, 1])
          (exampleConv [1, 1, 200000, 1]) 1 200000 1 200000)).map
        (widthRange (OpSplitPattern.rewrite splitTensorSize (exampleGraph [1, 1, 200000, 1])
          (exampleConv [1, 1, 200000, 1]) 1 200000 1 200000)) = rs.map some ∧
      (createdStridedSlices (exampleGraph [1, 1, 200000, 1])
        (OpSplitPattern.rewrite splitTensorSize (exampleGraph [1, 1, 200000, 1])
          (exampleConv [1, 1, 200000, 1]) 1 200000 1 200000)).map declaredWidth =
        ws.map some ∧
      rs.length = ws.length ∧ 2 ≤ rs.length ∧
      rs.head?.map Prod.fst = some 0 ∧
      (∀ (i : Nat) (a b : Int × Int), rs[i]? = some a → rs[i + 1]? = some b → b.1 = a.2) ∧
      (∀ (i : Nat) (a : Int × Int) (w : Int), rs[i]? = some a → ws[i]? = some w →
        a.2 = a.1 + w ∧ 0 ≤ w) ∧
      rs.getLast?.map Prod.snd = some 200000 :=
  ⟨exampleConv_isConv 1 1 200000 1, by decide, by decide, by decide, by decide, by decide,
    by decide, by decide,
    split_ranges_contiguous splitTensorSize (exampleGraph [1, 1, 200000, 1]) _
      (exampleConv [1, 1, 200000, 1]) "VALID" 1 (exampleInput [1, 1, 200000, 1])
      exampleFilter 1 1 1 1 200000 1 (exampleConv_isConv 1 1 200000 1)
      (by decide) (by decide) (by decide) (by decide) (by decide) (by decide) (by decide)
      (by decide)⟩

/-- C7 (counterexample): for a convolution with output shape `[1, 512, 1, 512]`
the split rule fires with a partition count of 2, which exceeds the output
width 1, and the second strided slice it creates has declared width 0. -/
theorem split_creates_zero_width_slice :
    (OpSplitPattern.matchAndRewrite splitTensorSize (exampleGraph [1, 512, 1, 512])
        (exampleConv [1, 512, 1, 512])).map
      (fun r => (r.1, (createdStridedSlices (exampleGraph [1, 512, 1, 512]) r.2).map
        declaredWidth)) = some (.success, [some 1, some 0]) ∧
    numSplitsOf (outputSizeOf 512 1 512) splitTensorSize = 2 ∧
    ¬ (numSplitsOf (outputSizeOf 512 1 512) splitTensorSize ≤ 1) := by
  decide

/-- C7 (amended): the split rule has no guard on the partition count; for every
convolution on which it fires and whose partition count does not exceed the
output width, every strided slice it creates has a declared width > 0. -/
theorem split_widths_pos_of_count_le_width (T : Int) (g g2 : Graph) (c : Operation)
    (padding : String) (sw : Nat) (input filter : Value) (fH fW N H W D : Int)
    (hc : IsConv c padding sw input filter fH fW N H W D)
    (hg : g.WF) (hmem : c ∈ g.ops) (hT : 0 < T) (hT2 : T < 1073741824)
    (hH : IsInt32 H) (hW : IsExtent W) (hD : IsInt32 D)
    (hfire : OpSplitPattern.matchAndRewrite T g c = some (.success, g2))
    (hle : numSplitsOf (outputSizeOf H W D) T ≤ W) :
    ∀ s ∈ createdStridedSlices g g2, ∃ w, declaredWidth s = some w ∧ 0 < w := by
  have hW32 : IsInt32 W := ⟨by have := hW.1; omega, hW.2⟩
  obtain ⟨-, hw, -⟩ := split_slices_spec hc hg hmem hT hT2 hH hW hD hfire
  obtain ⟨-, h2T⟩ := fires_inv hc hT hT2 hH hW32 hD hfire
  obtain ⟨hnum, hq, -, -⟩ :=
    numSplits_facts (S := outputSizeOf H W D) hT (toInt32_isInt32 _) h2T
  have hn : 0 < outputSizeOf H W D / T := by omega
  rw [hnum] at hle
  obtain ⟨h1, h2, h3, h4, h5⟩ := divmod_facts hW hn
  have hq1 : 1 ≤ W / (outputSizeOf H W D / T) := Int.le_ediv_of_mul_le hn (by omega)
  intro s hs
  have hmem2 : declaredWidth s ∈ (createdStridedSlices g g2).map declaredWidth :=
    List.mem_map_of_mem _ hs
  rw [hw] at hmem2
  simp only [List.mem_map, List.mem_range] at hmem2
  obtain ⟨i, -, hi⟩ := hmem2
  refine ⟨_, hi.symm, ?_⟩
  unfold partitionWidth
  split_ifs <;> omega

theorem split_widths_pos_of_count_le_width_witness :
    IsConv (exampleConv [1, 1, 200000, 1]) "VALID" 1 (exampleInput [1, 1, 200000, 1])
      exampleFilter 1 1 1 1 200000 1 ∧
    (exampleGraph [1, 1, 200000, 1]).WF ∧
    exampleConv [1, 1, 200000, 1] ∈ (exampleGraph [1, 1, 200000, 1]).ops ∧
    0 < splitTensorSize ∧ splitTensorSize < 1073741824 ∧
    IsInt32 1 ∧ IsExtent 200000 ∧
    OpSplitPattern.matchAndRewrite splitTensorSize (exampleGraph [1, 1, 200000, 1])
        (exampleConv [1, 1, 200000, 1]) =
      some (.success, OpSplitPattern.rewrite splitTensorSize (exampleGraph [1, 1, 200000, 1])
        (exampleConv [1, 1, 200000, 1]) 1 200000 1 200000) ∧
    numSplitsOf (outputSizeOf 1 200000 1) splitTensorSize ≤ 200000 ∧
    ∀ s ∈ createdStridedSlices (exampleGraph [1, 1, 200000, 1])
        (OpSplitPattern.rewrite splitTensorSize (exampleGraph [1, 1, 200000, 1])
          (exampleConv [1, 1, 200000, 1]) 1 200000 1 200000),
      ∃ w, declaredWidth s = some w ∧ 0 < w :=
  ⟨exampleConv_isConv 1 1 200000 1, by decide, by decide, by decide, by decide, by decide,
    by decide, by decide, by decide,
    split_widths_pos_of_count_le_width splitTensorSize (exampleGraph [1, 1, 200000, 1]) _
      (exampleConv [1, 1, 200000, 1]) "VALID" 1 (exampleInput [1, 1, 200000, 1])
      exampleFilter 1 1 1 1 200000 1 (exampleConv_isConv 1 1 200000 1)
      (by decide) (by decide) (by decide) (by decide) (by decide) (by decide) (by decide)
      (by decide) (by decide)⟩

/-! ## C2: the concatenation of the strided slices -/

theorem clampIndex_of_le (dim : Nat) (i : Int) (h0 : 0 ≤ i) (h : i ≤ dim) :
    clampIndex dim i = i.toNat := by
  unfold clampIndex
  rw [if_neg (by omega), min_eq_left h]

theorem sliceAxis_of_le {β : Type} (l : List β) (b e : Int) (hb : 0 ≤ b) (hbe : b ≤ e)
    (he : e ≤ l.length) :
    sliceAxis b e l = (l.drop b.toNat).take (e.toNat - b.toNat) := by
  unfold sliceAxis
  rw [clampIndex_of_le _ b hb (by omega), clampIndex_of_le _ e (by omega) he]

theorem sliceAxis_full {β : Type} (l : List β) (e : Int) (he : e = l.length) :
    sliceAxis 0 e l = l := by
  rw [sliceAxis_of_le l 0 e le_rfl (by omega) (by omega)]
  simp [he]

theorem flatten_slices {β : Type} (row : List β) (a : Nat → Nat) (h0 : a 0 = 0)
    (hmono : ∀ i, a i ≤ a (i + 1)) (k : Nat) :
    ((List.range k).map (fun i => (row.drop (a i)).take (a (i + 1) - a i))).flatten =
      row.take (a k) := by
  induction k with
  | zero => simp [h0]
  | succ k ih =>
    rw [List.range_succ, List.map_append, List.flatten_append, ih]
    have h : a (k + 1) = a k + (a (k + 1) - a k) := by have := hmono k; omega
    conv_rhs => rw [h, List.take_add]
    simp

theorem concatAxis2_singleton_map {α : Type} (t0 : List (List (List α)))
    (fs : List (List (List α) → List (List α))) (hne : fs ≠ []) :
    concatAxis2 (fs.map (fun f => [t0.map f])) =
      [t0.map (fun row => (fs.map (fun f => f row)).flatten)] := by
  induction fs with
  | nil => exact absurd rfl hne
  | cons f rest ih =>
    cases rest with
    | nil => simp [concatAxis2]
    | cons f2 rest2 =>
      have ih2 := ih (by simp)
      simp only [List.map_cons] at ih2 ⊢
      rw [concatAxis2, ih2]
      simp [List.zipWith_map, List.zipWith_same]

theorem concatAxis2_length_le_one {α : Type} (ts : List (Tensor4 α))
    (h : ∀ t ∈ ts, t.length ≤ 1) : (concatAxis2 ts).length ≤ 1 := by
  induction ts with
  | nil => simp [concatAxis2]
  | cons t rest ih =>
    cases rest with
    | nil => simpa [concatAxis2] using h
    | cons u rest2 =>
      rw [concatAxis2, List.length_zipWith]
      have := h t (by simp)
      omega

theorem stridedSliceEval_length_le_one {α : Type} (b1 b2 b3 e1 e2 e3 : Int) (t : Tensor4 α) :
    (stridedSliceEval [0, b1, b2, b3] [1, e1, e2, e3] t).length ≤ 1 := by
  unfold stridedSliceEval sliceAxis clampIndex
  simp only [List.getD_cons_zero, List.length_map, List.length_take]
  omega

/-- The value of a width slice of a tensor of batch 1: every row is cut to the
columns `[b, e)`. -/
theorem stridedSliceEval_width {α : Type} (t : Tensor4 α) (h w d : Nat) (H D b e : Int)
    (ht : HasShape t 1 h w d) (hH : H = h) (hD : D = d) (hb : 0 ≤ b) (hbe : b ≤ e)
    (he : e ≤ w) :
    stridedSliceEval [0, 0, b, 0] [1, H, e, D] t =
      t.map (fun t1 => t1.map (fun row => (row.drop b.toNat).take (e.toNat - b.toNat))) := by
  obtain ⟨hlen, hrows⟩ := ht
  unfold stridedSliceEval
  simp only [List.getD_cons_zero, List.getD_cons_succ]
  rw [sliceAxis_full t 1 (by rw [hlen]; rfl)]
  apply List.map_congr_left
  intro t1 ht1
  obtain ⟨h1, hrow⟩ := hrows t1 ht1
  rw [sliceAxis_full t1 H (by rw [h1, hH])]
  apply List.map_congr_left
  intro row hrowmem
  obtain ⟨h2, hpx⟩ := hrow row hrowmem
  rw [sliceAxis_of_le row b e hb hbe (by rw [h2]; exact he)]
  conv_rhs => rw [← List.map_id (List.take (e.toNat - b.toNat) (List.drop b.toNat row))]
  apply List.map_congr_left
  intro px hpxmem
  have hmem : px ∈ row := List.mem_of_mem_drop (List.mem_of_mem_take hpxmem)
  exact sliceAxis_full px D (by rw [hpx px hmem, hD])

theorem partitionStart_mono (W n : Int) (hW : IsExtent W) (hn : 0 < n) (i j : Nat)
    (hij : i ≤ j) : partitionStart W n i ≤ partitionStart W n j := by
  induction j with
  | zero =>
    have : i = 0 := by omega
    subst this; exact le_rfl
  | succ j ih =>
    rcases Nat.lt_or_ge i (j + 1) with h | h
    · have h1 := ih (by omega)
      have h2 := partitionStart_succ W n j
      have h3 := partitionWidth_nonneg W n hW hn j
      omega
    · have : i = j + 1 := by omega
      subst this; exact le_rfl

theorem partitionStart_nonneg (W n : Int) (hW : IsExtent W) (hn : 0 < n) (i : Nat) :
    0 ≤ partitionStart W n i := by
  have := partitionStart_mono W n hW hn 0 i (by omega)
  rw [partitionStart_zero W n hW hn] at this
  exact this

/-- The concatenation operation a successful application of the split rule
leaves: it reads the created strided slices in creation order and has the type
of the original convolution's output. -/
theorem split_concat_spec {T : Int} {g g2 : Graph} {c : Operation} {padding : String}
    {sw : Nat} {input filter : Value} {fH fW N H W D : Int}
    (hc : IsConv c padding sw input filter fH fW N H W D)
    (hg : g.WF) (hmem : c ∈ g.ops) (hT : 0 < T) (hT2 : T < 1073741824)
    (hH : IsInt32 H) (hW : IsInt32 W) (hD : IsInt32 D)
    (hfire : OpSplitPattern.matchAndRewrite T g c = some (.success, g2)) :
    ∃ concatOp ∈ g2.ops, concatOp.kind = .concatenation 2 "NONE" ∧
      concatOp.operands = (createdStridedSlices g g2).map (fun s => s.result) ∧
      concatOp.result.type = c.result.type := by
  obtain ⟨rfl, -⟩ := fires_inv hc hT hT2 hH hW hD hfire
  have hcid : c.result.id < g.nextId := hg.1 c hmem
  rw [createdStridedSlices_rewrite T g c H W D _ hg.1 hcid (isConv_isConv2D hc)]
  refine ⟨_, mem_rewrite_of_created T g c H W D (outputSizeOf H W D) hg.1 hcid
    (o := (⟨.concatenation 2 "NONE",
      (List.range (splitCount (outputSizeOf H W D) T)).map
        (sliceValueAt c.result H D
          (sliceWidthOf W (numSplitsOf (outputSizeOf H W D) T))
          (sliceWidthRemainderOf W (numSplitsOf (outputSizeOf H W D) T))
          (g.nextId + 2)),
      ⟨g.nextId + 2 + 3 * splitCount (outputSizeOf H W D) T, c.result.type⟩,
      []⟩ : Operation)) (by simp [splitCreatedOps]), rfl, ?_, rfl⟩
  simp only [Operation.replaceUsesOfWith, splitSlices, List.map_map]
  apply List.map_congr_left
  intro i _
  have h1 : ¬ g.nextId + 2 + 3 * i + 2 = c.result.id := by omega
  simp [sliceValueAt, sliceOpAt, h1]

/-- The values of the created strided slices when the tensor they read is
`t`. -/
theorem split_slices_eval {α : Type} {T : Int} {g g2 : Graph} {c : Operation}
    {padding : String} {sw : Nat} {input filter : Value} {fH fW N H W D : Int} (t : Tensor4 α)
    (hc : IsConv c padding sw input filter fH fW N H W D)
    (hg : g.WF) (hmem : c ∈ g.ops) (hT : 0 < T) (hT2 : T < 1073741824)
    (hH : IsInt32 H) (hW : IsExtent W) (hD : IsInt32 D)
    (hfire : OpSplitPattern.matchAndRewrite T g c = some (.success, g2)) :
    (createdStridedSlices g g2).map (evalSlice g2 t) =
      ((List.range (outputSizeOf H W D / T).toNat).map (fun i =>
        stridedSliceEval [0, 0, partitionStart W (outputSizeOf H W D / T) i, 0]
          [1, H, partitionStart W (outputSizeOf H W D / T) (i + 1), D] t)).map some := by
  obtain ⟨hb, -, -⟩ := split_slices_spec hc hg hmem hT hT2 hH hW hD hfire
  have : (createdStridedSlices g g2).map (evalSlice g2 t) =
      ((createdStridedSlices g g2).map (sliceBounds g2)).map
        (Option.map (fun be => stridedSliceEval be.1 be.2 t)) := by
    rw [List.map_map]; rfl
  rw [this, hb, List.map_map, List.map_map]
  rfl

/-- C2 (counterexample): for a convolution with output shape
`[2, 1, 196608, 1]` (batch 2) the split rule fires, and the strided slices it
creates, which all select the batch range `[0, 1)`, concatenate to a tensor
that differs from the value of the convolution's output. -/
theorem split_concat_drops_batches :
    ∃ (g2 : Graph) (outs : List (Tensor4 Int)),
      (exampleConv [2, 1, 196608, 1]).result.type.shape = [2, 1, 196608, 1] ∧
      HasShape (exampleTensor 2 196608) 2 1 196608 1 ∧
      OpSplitPattern.matchAndRewrite splitTensorSize (exampleGraph [2, 1, 196608, 1])
        (exampleConv [2, 1, 196608, 1]) = some (.success, g2) ∧
      (createdStridedSlices (exampleGraph [2, 1, 196608, 1]) g2).map
        (evalSlice g2 (exampleTensor 2 196608)) =
        outs.map some ∧
      concatAxis2 outs ≠ (exampleTensor 2 196608) := by
  have hfire : OpSplitPattern.matchAndRewrite splitTensorSize (exampleGraph [2, 1, 196608, 1])
      (exampleConv [2, 1, 196608, 1]) = some (.success,
        OpSplitPattern.rewrite splitTensorSize (exampleGraph [2, 1, 196608, 1])
          (exampleConv [2, 1, 196608, 1]) 1 196608 1 196608) := by decide
  refine ⟨_, _, rfl, ?_, hfire,
    split_slices_eval _ (exampleConv_isConv 2 1 196608 1) (by decide) (by decide) (by decide)
      (by decide) (by decide) (by decide) (by decide) hfire, ?_⟩
  · exact exampleTensor_hasShape 2 196608
  · intro h
    have hlen := concatAxis2_length_le_one
      ((List.range (outputSizeOf 1 196608 1 / splitTensorSize).toNat).map (fun i =>
        stridedSliceEval [0, 0, partitionStart 196608 (outputSizeOf 1 196608 1 / splitTensorSize) i, 0]
          [1, 1, partitionStart 196608 (outputSizeOf 1 196608 1 / splitTensorSize) (i + 1), 1]
          (exampleTensor 2 196608)))
      (by
        intro u hu
        simp only [List.mem_map] at hu
        obtain ⟨i, -, rfl⟩ := hu
        exact stridedSliceEval_length_le_one _ _ _ _ _ _ _)
    rw [h, exampleTensor, List.length_replicate] at hlen
    omega

/-- C2 (amended): for every valid convolution with batch 1 (and non-negative
`int32_t` height, width and depth) on which the split rule fires, the strided
slices it creates, evaluated on the value `t` of the convolution's output and
concatenated along the width axis in creation order, give back exactly `t`,
hence its shape and values; the concatenation the rule creates reads those
slices in that order and has the original output type. -/
theorem split_concat_reconstructs {α : Type} (T : Int) (g g2 : Graph) (c : Operation)
    (padding : String) (sw : Nat) (input filter : Value) (fH fW H W D : Int) (t : Tensor4 α)
    (hc : IsConv c padding sw input filter fH fW 1 H W D)
    (hg : g.WF) (hmem : c ∈ g.ops) (hT : 0 < T) (hT2 : T < 1073741824)
    (hH : IsExtent H) (hW : IsExtent W) (hD : IsExtent D)
    (ht : HasShape t 1 H.toNat W.toNat D.toNat)
    (hfire : OpSplitPattern.matchAndRewrite T g c = some (.success, g2)) :
    ∃ (outs : List (Tensor4 α)) (concatOp : Operation),
      (createdStridedSlices g g2).map (evalSlice g2 t) = outs.map some ∧
      concatAxis2 outs = t ∧
      concatOp ∈ g2.ops ∧ concatOp.kind = .concatenation 2 "NONE" ∧
      concatOp.operands = (createdStridedSlices g g2).map (fun s => s.result) ∧
      concatOp.result.type = c.result.type := by
  have hH32 : IsInt32 H := ⟨by have := hH.1; omega, hH.2⟩
  have hW32 : IsInt32 W := ⟨by have := hW.1; omega, hW.2⟩
  have hD32 : IsInt32 D := ⟨by have := hD.1; omega, hD.2⟩
  obtain ⟨concatOp, hcmem, hck, hcops, hcty⟩ :=
    split_concat_spec hc hg hmem hT hT2 hH32 hW32 hD32 hfire
  obtain ⟨-, h2T⟩ := fires_inv hc hT hT2 hH32 hW32 hD32 hfire
  obtain ⟨-, hq, -, -⟩ :=
    numSplits_facts (S := outputSizeOf H W D) hT (toInt32_isInt32 _) h2T
  have hn : 0 < outputSizeOf H W D / T := by omega
  have hk : (outputSizeOf H W D / T).toNat ≠ 0 := by omega
  refine ⟨(List.range (outputSizeOf H W D / T).toNat).map (fun i =>
      stridedSliceEval [0, 0, partitionStart W (outputSizeOf H W D / T) i, 0]
        [1, H, partitionStart W (outputSizeOf H W D / T) (i + 1), D] t),
    concatOp, ?_, ?_, hcmem, hck, hcops, hcty⟩
  · exact split_slices_eval t hc hg hmem hT hT2 hH32 hW hD32 hfire
  · have hstart : ∀ i, i < (outputSizeOf H W D / T).toNat →
        stridedSliceEval [0, 0, partitionStart W (outputSizeOf H W D / T) i, 0]
          [1, H, partitionStart W (outputSizeOf H W D / T) (i + 1), D] t =
        t.map (fun t1 => t1.map (fun row =>
          (row.drop (partitionStart W (outputSizeOf H W D / T) i).toNat).take
            ((partitionStart W (outputSizeOf H W D / T) (i + 1)).toNat -
              (partitionStart W (outputSizeOf H W D / T) i).toNat))) := by
      intro i hi
      apply stridedSliceEval_width t H.toNat W.toNat D.toNat H D _ _ ht
      · exact (Int.toNat_of_nonneg hH.1).symm
      · exact (Int.toNat_of_nonneg hD.1).symm
      · exact partitionStart_nonneg W _ hW hn i
      · exact partitionStart_mono W _ hW hn i (i + 1) (by omega)
      · have h1 := partitionStart_mono W _ hW hn (i + 1) (outputSizeOf H W D / T).toNat
          (by omega)
        rw [partitionStart_total W _ hW hn] at h1
        rw [Int.toNat_of_nonneg hW.1]
        exact h1
    obtain ⟨hlen, hrows⟩ := ht
    obtain ⟨t0, rfl⟩ : ∃ t0, t = [t0] := by
      match t, hlen with
      | [t0], _ => exact ⟨t0, rfl⟩
    have hmap : (List.range (outputSizeOf H W D / T).toNat).map (fun i =>
        stridedSliceEval [0, 0, partitionStart W (outputSizeOf H W D / T) i, 0]
          [1, H, partitionStart W (outputSizeOf H W D / T) (i + 1), D] [t0]) =
        ((List.range (outputSizeOf H W D / T).toNat).map (fun i =>
          (fun (row : List (List α)) =>
            (row.drop (partitionStart W (outputSizeOf H W D / T) i).toNat).take
              ((partitionStart W (outputSizeOf H W D / T) (i + 1)).toNat -
                (partitionStart W (outputSizeOf H W D / T) i).toNat)))).map
          (fun f => [t0.map f]) := by
      rw [List.map_map]
      apply List.map_congr_left
      intro i hi
      rw [hstart i (List.mem_range.1 hi)]
      rfl
    rw [hmap, concatAxis2_singleton_map t0 _ (by simpa using hk)]
    congr 1
    conv_rhs => rw [← List.map_id t0]
    apply List.map_congr_left
    intro row hrow
    obtain ⟨-, hrow2⟩ := hrows t0 (by simp)
    obtain ⟨hrl, -⟩ := hrow2 row hrow
    rw [List.map_map]
    have := flatten_slices row (fun i => (partitionStart W (outputSizeOf H W D / T) i).toNat)
      (by simp [partitionStart_zero W _ hW hn])
      (fun i => Int.toNat_le_toNat (partitionStart_mono W _ hW hn i (i + 1) (by omega)))
      (outputSizeOf H W D / T).toNat
    have hgoal : (List.map ((fun f => f row) ∘ fun i => (fun (row : List (List α)) =>
            (row.drop (partitionStart W (outputSizeOf H W D / T) i).toNat).take
              ((partitionStart W (outputSizeOf H W D / T) (i + 1)).toNat -
                (partitionStart W (outputSizeOf H W D / T) i).toNat)))
          (List.range (outputSizeOf H W D / T).toNat)).flatten = row := by
      refine Eq.trans this ?_
      rw [partitionStart_total W _ hW hn, ← hrl, List.take_length]
    exact hgoal

theorem split_concat_reconstructs_witness :
    IsConv (exampleConv [1, 1, 200000, 1]) "VALID" 1 (exampleInput [1, 1, 200000, 1])
      exampleFilter 1 1 1 1 200000 1 ∧
    (exampleGraph [1, 1, 200000, 1]).WF ∧
    exampleConv [1, 1, 200000, 1] ∈ (exampleGraph [1, 1, 200000, 1]).ops ∧
    0 < splitTensorSize ∧ splitTensorSize < 1073741824 ∧
    IsExtent 1 ∧ IsExtent 200000 ∧
    HasShape (exampleTensor 1 200000) 1 1 200000 1 ∧
    OpSplitPattern.matchAndRewrite splitTensorSize (exampleGraph [1, 1, 200000, 1])
        (exampleConv [1, 1, 200000, 1]) =
      some (.success, OpSplitPattern.rewrite splitTensorSize (exampleGraph [1, 1, 200000, 1])
        (exampleConv [1, 1, 200000, 1]) 1 200000 1 200000) ∧
    ∃ (outs : List (Tensor4 Int)) (concatOp : Operation),
      (createdStridedSlices (exampleGraph [1, 1, 200000, 1])
        (OpSplitPattern.rewrite splitTensorSize (exampleGraph [1, 1, 200000, 1])
          (exampleConv [1, 1, 200000, 1]) 1 200000 1 200000)).map
        (evalSlice (OpSplitPattern.rewrite splitTensorSize (exampleGraph [1, 1, 200000, 1])
          (exampleConv [1, 1, 200000, 1]) 1 200000 1 200000)
          (exampleTensor 1 200000)) = outs.map some ∧
      concatAxis2 outs = (exampleTensor 1 200000) ∧
      concatOp ∈ (OpSplitPattern.rewrite splitTensorSize (exampleGraph [1, 1, 200000, 1])
          (exampleConv [1, 1, 200000, 1]) 1 200000 1 200000).ops ∧
      concatOp.kind = .concatenation 2 "NONE" ∧
      concatOp.operands = (createdStridedSlices (exampleGraph [1, 1, 200000, 1])
        (OpSplitPattern.rewrite splitTensorSize (exampleGraph [1, 1, 200000, 1])
          (exampleConv [1, 1, 200000, 1]) 1 200000 1 200000)).map (fun s => s.result) ∧
      concatOp.result.type = (exampleConv [1, 1, 200000, 1]).result.type :=
  ⟨exampleConv_isConv 1 1 200000 1, by decide, by decide, by decide, by decide, by decide,
    by decide, exampleTensor_hasShape 1 200000, by decide,
    split_concat_reconstructs splitTensorSize (exampleGraph [1, 1, 200000, 1]) _
      (exampleConv [1, 1, 200000, 1]) "VALID" 1 (exampleInput [1, 1, 200000, 1])
      exampleFilter 1 1 1 200000 1 (exampleTensor 1 200000)
      (exampleConv_isConv 1 1 200000 1)
      (by decide) (by decide) (by decide) (by decide) (by decide) (by decide) (by decide)
      (exampleTensor_hasShape 1 200000) (by decide)⟩

/-! ## The graph `RaiseStridedSlicePattern` leaves -/

theorem Graph.setResultType_last (ops : List Operation) (op : Operation) (n : Nat)
    (type : RankedTensorType) (h : ∀ o ∈ ops, o.result.id ≠ op.result.id) :
    Graph.setResultType ⟨ops ++ [op], n⟩ op type =
      ⟨ops ++ [{ op with result := ⟨op.result.id, type⟩ }], n⟩ := by
  unfold Graph.setResultType
  simp only [List.map_append, List.map_cons, List.map_nil, if_true]
  congr 2
  conv_rhs => rw [← List.map_id ops]
  apply List.map_congr_left
  intro o ho
  simp [h o ho]

theorem Graph.setOperand_last (ops : List Operation) (op op2 : Operation) (n i k : Nat)
    (v : Value) (h : ∀ o ∈ ops, o.result.id ≠ k) (h1 : op.result.id = k)
    (h2 : op2.result.id = k) :
    Graph.setOperand ⟨ops ++ [op2], n⟩ op i v =
      ⟨ops ++ [{ op2 with operands := op2.operands.set i v }], n⟩ := by
  unfold Graph.setOperand
  rw [h1]
  simp only [List.map_append, List.map_cons, List.map_nil, h2, if_true]
  congr 2
  conv_rhs => rw [← List.map_id ops]
  apply List.map_congr_left
  intro o ho
  simp [h o ho]

theorem raise_rewrite_eq (G : Graph) (hG : ∀ o ∈ G.ops, o.result.id < G.nextId)
    (s conv : Operation) (convInput st : Value) (m1 m2 m3 m4 m5 : Int)
    (endIndex sw fW inN inH inD outputWidth oN oH oD : Int) :
    RaiseStridedSlicePattern.rewrite G s conv convInput st m1 m2 m3 m4 m5 endIndex sw fW
        inN inH inD outputWidth oN oH oD =
      Graph.replaceOp
        ⟨G.ops ++ [raisedEndOp G endIndex sw fW inH inD,
            raisedBeginOp G endIndex outputWidth sw fW,
            raisedSliceOp G (.stridedSlice m1 m2 m3 m4 m5) convInput st outputWidth sw fW
              inN inH inD,
            raisedConvOp G conv convInput outputWidth sw fW inN inH inD oN oH oD],
          G.nextId + 4⟩ s
        ⟨G.nextId + 3, ⟨[oN, oH, outputWidth, oD], conv.result.type.elementType⟩⟩ := by
  unfold RaiseStridedSlicePattern.rewrite
  simp only [Graph.create, Graph.clone]
  have h1 : ∀ o ∈ G.ops ++ [raisedEndOp G endIndex sw fW inH inD] ++
      [raisedBeginOp G endIndex outputWidth sw fW], o.result.id ≠ G.nextId + 1 + 1 := by
    intro o ho
    simp only [List.mem_append, List.mem_singleton] at ho
    rcases ho with (ho | ho) | ho
    · have := hG o ho; omega
    · subst ho; simp [raisedEndOp]; omega
    · subst ho; simp [raisedBeginOp]
  have h2 : ∀ o ∈ G.ops ++ [raisedEndOp G endIndex sw fW inH inD] ++
      [raisedBeginOp G endIndex outputWidth sw fW] ++
      [raisedSliceOp G (.stridedSlice m1 m2 m3 m4 m5) convInput st outputWidth sw fW
        inN inH inD], o.result.id ≠ G.nextId + 1 + 1 + 1 := by
    intro o ho
    simp only [List.mem_append, List.mem_singleton] at ho
    rcases ho with ((ho | ho) | ho) | ho
    · have := hG o ho; omega
    · subst ho; simp [raisedEndOp]; omega
    · subst ho; simp [raisedBeginOp]
    · subst ho; simp [raisedSliceOp]
  simp only [raisedEndOp, raisedBeginOp, raisedSliceOp] at h1 h2
  rw [Graph.setAttr_last _ _ _ _ h1]
  simp only [Operation.hasAttr, List.contains_nil, Bool.false_eq_true, if_false,
    List.nil_append]
  rw [Graph.setResultType_last _ _ _ _ h2, Graph.setOperand_last _ _ _ _ _ _ _ h2 rfl rfl]
  simp [raisedEndOp, raisedBeginOp, raisedSliceOp, raisedConvOp, Nat.add_assoc]

/-- On a labelled strided slice that reads a convolution and has a constant end
tensor, `RaiseStridedSlicePattern::matchAndRewrite` succeeds and leaves the
graph with four more operations and the slice replaced. -/
theorem raise_matchAndRewrite_eq (G : Graph) (hG : G.WF) (s conv : Operation)
    (m1 m2 m3 m4 m5 : Int) (x bv ev st convInput filter : Value) (rest : List Value)
    (p : String) (sh sw : Nat) (fo fH fW fi inN inH inW inD oN oH oW oD : Int)
    (e0 e1 endIndex e3 sN sH outputWidth sD : Int)
    (hk : s.kind = .stridedSlice m1 m2 m3 m4 m5)
    (hl1 : s.hasAttr opSplitLabel = true) (hl2 : s.hasAttr raisedStridedSliceLabel = false)
    (hops : s.operands = [x, bv, ev, st])
    (hconv : conv ∈ G.ops) (hx : x.id = conv.result.id)
    (hck : conv.kind = .conv2d p sh sw) (hcops : conv.operands = convInput :: filter :: rest)
    (hf : filter.type.shape = [fo, fH, fW, fi])
    (hin : convInput.type.shape = [inN, inH, inW, inD])
    (hout : conv.result.type.shape = [oN, oH, oW, oD])
    (hend : matchConstant G ev = some [e0, e1, endIndex, e3])
    (hs : s.result.type.shape = [sN, sH, outputWidth, sD]) :
    RaiseStridedSlicePattern.matchAndRewrite G s =
      some (.success, Graph.replaceOp
        ⟨G.ops ++ [raisedEndOp G endIndex sw fW inH inD,
            raisedBeginOp G endIndex outputWidth sw fW,
            raisedSliceOp G s.kind convInput st outputWidth sw fW inN inH inD,
            raisedConvOp G conv convInput outputWidth sw fW inN inH inD oN oH oD],
          G.nextId + 4⟩ s
        ⟨G.nextId + 3, ⟨[oN, oH, outputWidth, oD], conv.result.type.elementType⟩⟩) := by
  have hdef := Graph.getDefiningOp_of_mem hG hconv x hx
  rw [hk, ← raise_rewrite_eq G hG.1 s conv convInput st m1 m2 m3 m4 m5 endIndex sw fW inN inH
    inD outputWidth oN oH oD]
  unfold RaiseStridedSlicePattern.matchAndRewrite
  simp only [hk, hl1, hl2, hops, hdef, hck, hcops, hf, hin, hout, hend, hs,
    RankedTensorType.getDimSize, List.getElem?_cons_zero, List.getElem?_cons_succ,
    Option.bind_eq_bind, Option.some_bind, Bool.not_true, Bool.false_eq_true, if_false]

theorem Graph.mem_replaceOp {g : Graph} {o : Operation} (ho : o ∈ g.ops) (s : Operation)
    (v : Value) (hne : o.result.id ≠ s.result.id) :
    o.replaceUsesOfWith s.result.id v ∈ (g.replaceOp s v).ops := by
  rw [replaceOp_ops]
  apply List.mem_map_of_mem
  rw [List.mem_filter]
  exact ⟨ho, by simpa using hne⟩

theorem matchConstant_of_mem {G : Graph} (hG : G.WF) {o : Operation} (ho : o ∈ G.ops)
    (values : List Int) (hk : o.kind = .constant values) (v : Value)
    (hv : v.id = o.result.id) : matchConstant G v = some values := by
  unfold matchConstant
  rw [Graph.getDefiningOp_of_mem hG ho v hv]
  simp [hk]

theorem raise_rewrite_wf {G : Graph} (hG : G.WF) (s conv : Operation) (convInput st : Value)
    (m1 m2 m3 m4 m5 : Int)
    (endIndex sw fW inN inH inD outputWidth oN oH oD : Int) :
    (RaiseStridedSlicePattern.rewrite G s conv convInput st m1 m2 m3 m4 m5 endIndex sw fW
        inN inH inD outputWidth oN oH oD).WF := by
  unfold RaiseStridedSlicePattern.rewrite
  exact Graph.wf_replaceOp (Graph.wf_setOperand (Graph.wf_setResultType (Graph.wf_clone
    (Graph.wf_setAttr (Graph.wf_create (Graph.wf_create (Graph.wf_create hG _ _ _) _ _ _) _ _ _)
      _ _) _) _ _) _ _ _) _ _

/-- The one strided slice a successful application of
`RaiseStridedSlicePattern` creates, and the width range it selects. -/
theorem raise_created (G : Graph) (hG : G.WF) (s conv : Operation)
    (m1 m2 m3 m4 m5 : Int) (convInput st : Value)
    (endIndex sw fW inN inH inD outputWidth oN oH oD : Int)
    (hs : s.result.id < G.nextId) (hconv : conv.isConv2D = true) :
    createdStridedSlices G (Graph.replaceOp
        ⟨G.ops ++ [raisedEndOp G endIndex sw fW inH inD,
            raisedBeginOp G endIndex outputWidth sw fW,
            raisedSliceOp G (.stridedSlice m1 m2 m3 m4 m5) convInput st outputWidth sw fW
              inN inH inD,
            raisedConvOp G conv convInput outputWidth sw fW inN inH inD oN oH oD],
          G.nextId + 4⟩ s
        ⟨G.nextId + 3, ⟨[oN, oH, outputWidth, oD], conv.result.type.elementType⟩⟩) =
      [(raisedSliceOp G (.stridedSlice m1 m2 m3 m4 m5) convInput st outputWidth sw fW
          inN inH inD).replaceUsesOfWith s.result.id
        ⟨G.nextId + 3, ⟨[oN, oH, outputWidth, oD], conv.result.type.elementType⟩⟩] ∧
    widthRange (Graph.replaceOp
        ⟨G.ops ++ [raisedEndOp G endIndex sw fW inH inD,
            raisedBeginOp G endIndex outputWidth sw fW,
            raisedSliceOp G (.stridedSlice m1 m2 m3 m4 m5) convInput st outputWidth sw fW
              inN inH inD,
            raisedConvOp G conv convInput outputWidth sw fW inN inH inD oN oH oD],
          G.nextId + 4⟩ s
        ⟨G.nextId + 3, ⟨[oN, oH, outputWidth, oD], conv.result.type.elementType⟩⟩)
      ((raisedSliceOp G (.stridedSlice m1 m2 m3 m4 m5) convInput st outputWidth sw fW
          inN inH inD).replaceUsesOfWith s.result.id
        ⟨G.nextId + 3, ⟨[oN, oH, outputWidth, oD], conv.result.type.elementType⟩⟩) =
      some (newBeginIndexOf (newEndIndexOf endIndex sw fW)
          (newOutputWidthOf outputWidth sw fW),
        toInt32 (newEndIndexOf endIndex sw fW)) := by
  have hwf : (Graph.replaceOp
        ⟨G.ops ++ [raisedEndOp G endIndex sw fW inH inD,
            raisedBeginOp G endIndex outputWidth sw fW,
            raisedSliceOp G (.stridedSlice m1 m2 m3 m4 m5) convInput st outputWidth sw fW
              inN inH inD,
            raisedConvOp G conv convInput outputWidth sw fW inN inH inD oN oH oD],
          G.nextId + 4⟩ s
        ⟨G.nextId + 3, ⟨[oN, oH, outputWidth, oD], conv.result.type.elementType⟩⟩).WF := by
    rw [← raise_rewrite_eq G hG.1 s conv convInput st m1 m2 m3 m4 m5 endIndex sw fW inN inH inD
      outputWidth oN oH oD]
    exact raise_rewrite_wf hG _ _ _ _ _ _ _ _ _ _ _ _ _ _ _ _ _ _ _
  have hck : (raisedConvOp G conv convInput outputWidth sw fW inN inH inD oN oH oD).isStridedSlice
      = false := by
    unfold Operation.isConv2D at hconv
    unfold raisedConvOp Operation.isStridedSlice
    simp only []
    split at hconv <;> simp_all
  have hne1 : ¬ G.nextId = s.result.id := by omega
  have hne2 : ¬ G.nextId + 1 = s.result.id := by omega
  have hne3 : ¬ G.nextId + 2 = s.result.id := by omega
  have hne4 : ¬ G.nextId + 3 = s.result.id := by omega
  constructor
  · unfold createdStridedSlices
    rw [replaceOp_ops]
    simp only [List.filter_append, List.map_append]
    have hold : (List.map (fun o : Operation => o.replaceUsesOfWith s.result.id
          (⟨G.nextId + 3, ⟨[oN, oH, outputWidth, oD], conv.result.type.elementType⟩⟩ : Value))
          (G.ops.filter (fun o => o.result.id != s.result.id))).filter
          (fun o => o.isStridedSlice && decide (G.nextId ≤ o.result.id)) = [] := by
      rw [List.filter_eq_nil_iff]
      intro o ho
      simp only [List.mem_map, List.mem_filter] at ho
      obtain ⟨a, ⟨ha, -⟩, rfl⟩ := ho
      have := hG.1 a ha
      simp [Operation.replaceUsesOfWith]; intro _; omega
    rw [hold, List.nil_append]
    simp [List.filter_cons, raisedEndOp, raisedBeginOp, raisedSliceOp,
      Operation.replaceUsesOfWith, Operation.isStridedSlice, hne1, hne2, hne3, hne4]
    intro _ h
    have h2 : (raisedConvOp G conv convInput outputWidth sw fW inN inH inD oN oH
        oD).isStridedSlice = true := h
    rw [hck] at h2
    cases h2
  · have hb := Graph.mem_replaceOp
      (g := ⟨G.ops ++ [raisedEndOp G endIndex sw fW inH inD,
            raisedBeginOp G endIndex outputWidth sw fW,
            raisedSliceOp G (.stridedSlice m1 m2 m3 m4 m5) convInput st outputWidth sw fW
              inN inH inD,
            raisedConvOp G conv convInput outputWidth sw fW inN inH inD oN oH oD],
          G.nextId + 4⟩)
      (o := raisedBeginOp G endIndex outputWidth sw fW) (by simp) s
      ⟨G.nextId + 3, ⟨[oN, oH, outputWidth, oD], conv.result.type.elementType⟩⟩
      (by simp [raisedBeginOp]; omega)
    have he := Graph.mem_replaceOp
      (g := ⟨G.ops ++ [raisedEndOp G endIndex sw fW inH inD,
            raisedBeginOp G endIndex outputWidth sw fW,
            raisedSliceOp G (.stridedSlice m1 m2 m3 m4 m5) convInput st outputWidth sw fW
              inN inH inD,
            raisedConvOp G conv convInput outputWidth sw fW inN inH inD oN oH oD],
          G.nextId + 4⟩)
      (o := raisedEndOp G endIndex sw fW inH inD) (by simp) s
      ⟨G.nextId + 3, ⟨[oN, oH, outputWidth, oD], conv.result.type.elementType⟩⟩
      (by simp [raisedEndOp]; omega)
    have hmb := matchConstant_of_mem hwf hb _ rfl ⟨G.nextId + 1, i32x4⟩ rfl
    have hme := matchConstant_of_mem hwf he _ rfl ⟨G.nextId, i32x4⟩ rfl
    obtain ⟨v0, v3, hop⟩ : ∃ v0 v3,
        ((raisedSliceOp G (.stridedSlice m1 m2 m3 m4 m5) convInput st outputWidth sw fW
          inN inH inD).replaceUsesOfWith s.result.id
          ⟨G.nextId + 3, ⟨[oN, oH, outputWidth, oD], conv.result.type.elementType⟩⟩).operands =
          [v0, ⟨G.nextId + 1, i32x4⟩, ⟨G.nextId, i32x4⟩, v3] :=
      ⟨if convInput.id = s.result.id then
          ⟨G.nextId + 3, ⟨[oN, oH, outputWidth, oD], conv.result.type.elementType⟩⟩
        else convInput,
        if st.id = s.result.id then
          ⟨G.nextId + 3, ⟨[oN, oH, outputWidth, oD], conv.result.type.elementType⟩⟩
        else st,
        by simp [raisedSliceOp, Operation.replaceUsesOfWith, hne1, hne2]⟩
    unfold widthRange sliceBounds
    rw [hop]
    simp only [List.getElem?_cons_zero, List.getElem?_cons_succ, hmb, hme, Option.bind_eq_bind,
      Option.some_bind]

/-! ## Hoisting a strided slice the split rule created -/

theorem toInt32_newEndIndexOf (e s f : Int) :
    toInt32 (newEndIndexOf e s f) = toInt32 (e * s - s + f) := by
  unfold newEndIndexOf toInt64 toUInt32 toInt32
  generalize e * s = p
  omega

/-- The width entry of the begin tensor is the `int32_t` value of the exact
`(endIndex - outputWidth) * stride`. -/
theorem newBeginIndexOf_eq (e w s f : Int) :
    newBeginIndexOf (newEndIndexOf e s f) (newOutputWidthOf w s f) = toInt32 ((e - w) * s) := by
  have h : (e - w) * s = e * s - w * s := by ring
  rw [h]
  unfold newBeginIndexOf newEndIndexOf newOutputWidthOf toInt64 toUInt32 toInt32
  generalize e * s = p
  generalize w * s = q
  omega

/-- The new output width is the `int32_t` value of the exact
`outputWidth * stride - stride + filterWidth`. -/
theorem newOutputWidthOf_eq (w s f : Int) :
    newOutputWidthOf w s f = toInt32 (w * s - s + f) := by
  unfold newOutputWidthOf toInt64 toInt32
  generalize w * s = q
  omega

/-- The hoisted indices in exact arithmetic, when the output range is not
empty and the hoisted end index is an `int32_t` value. -/
theorem hoist_indices_exact (s f : Nat) (a b : Int) (hs : 1 ≤ s) (hf : 1 ≤ f) (ha : 0 ≤ a)
    (hab : a < b) (hfit : b * s - s + f < 2147483648) :
    toInt32 (newEndIndexOf b s f) = b * s - s + f ∧
    newOutputWidthOf (b - a) s f = (b - a) * s - s + f ∧
    newBeginIndexOf (newEndIndexOf b s f) (newOutputWidthOf (b - a) s f) = a * s := by
  have hs0 : (0 : Int) ≤ s := by omega
  have h1 : 0 ≤ a * s := mul_nonneg ha hs0
  have h2 : a * s + s ≤ b * s := by
    have : (a + 1) * (s : Int) ≤ b * s := mul_le_mul_of_nonneg_right (by omega) hs0
    linarith
  have h3 : (b - a) * (s : Int) = b * s - a * s := by ring
  refine ⟨?_, ?_, ?_⟩
  · rw [toInt32_newEndIndexOf]
    exact toInt32_of_isExtent ⟨by omega, hfit⟩
  · rw [newOutputWidthOf_eq, h3]
    exact toInt32_of_isExtent ⟨by omega, by omega⟩
  · rw [newBeginIndexOf_eq]
    have : (b - (b - a)) * (s : Int) = a * s := by ring
    rw [this]
    exact toInt32_of_isExtent ⟨h1, by omega⟩

theorem splitConvReplacement_facts (g : Graph) (c : Operation) :
    (splitConvReplacement g c).kind = c.kind ∧
    (splitConvReplacement g c).operands = c.operands ∧
    (splitConvReplacement g c).result = ⟨g.nextId, c.result.type⟩ ∧
    (splitConvReplacement g c).hasAttr opSplitLabel = true := by
  unfold splitConvReplacement
  split_ifs with h
  · exact ⟨rfl, rfl, rfl, h⟩
  · refine ⟨rfl, rfl, rfl, ?_⟩
    simp [Operation.hasAttr]

/-- Hoisting the `i`-th strided slice a successful split created: the raise
pattern succeeds on it and leaves the graph in closed form. -/
theorem hoist_split_slice {T : Int} {g g2 : Graph} {c : Operation} {padding : String}
    {sw : Nat} {input filter : Value} {fH fW N H W D inN inH inW inD : Int}
    (hc : IsConv c padding sw input filter fH fW N H W D)
    (hg : g.WF) (hmem : c ∈ g.ops) (hT : 0 < T) (hT2 : T < 1073741824)
    (hH : IsInt32 H) (hW : IsExtent W) (hD : IsInt32 D)
    (hfire : OpSplitPattern.matchAndRewrite T g c = some (.success, g2))
    (hin : input.type.shape = [inN, inH, inW, inD])
    (hself1 : input.id ≠ c.result.id) (hself2 : filter.id ≠ c.result.id)
    (i : Nat) (hi : i < (outputSizeOf H W D / T).toNat) :
    ∃ (s conv2 : Operation) (st : Value),
      (createdStridedSlices g g2)[i]? = some s ∧
      s ∈ g2.ops ∧ s.result.id < g2.nextId ∧ g2.WF ∧
      conv2.isConv2D = true ∧ conv2.hasAttr opSplitLabel = true ∧
      conv2.result.type = c.result.type ∧
      RaiseStridedSlicePattern.matchAndRewrite g2 s = some (.success, Graph.replaceOp
        ⟨g2.ops ++ [raisedEndOp g2 (partitionStart W (outputSizeOf H W D / T) (i + 1)) sw fW
              inH inD,
            raisedBeginOp g2 (partitionStart W (outputSizeOf H W D / T) (i + 1))
              (partitionWidth W (outputSizeOf H W D / T) i) sw fW,
            raisedSliceOp g2 (.stridedSlice 0 0 0 0 0) input st
              (partitionWidth W (outputSizeOf H W D / T) i) sw fW inN inH inD,
            raisedConvOp g2 conv2 input (partitionWidth W (outputSizeOf H W D / T) i) sw fW
              inN inH inD N H D],
          g2.nextId + 4⟩ s
        ⟨g2.nextId + 3, ⟨[N, H, partitionWidth W (outputSizeOf H W D / T) i, D],
          c.result.type.elementType⟩⟩) := by
  have hW32 : IsInt32 W := ⟨by have := hW.1; omega, hW.2⟩
  obtain ⟨rfl, h2T⟩ := fires_inv hc hT hT2 hH hW32 hD hfire
  obtain ⟨hnum, hq, hq2, hcount⟩ :=
    numSplits_facts (S := outputSizeOf H W D) hT (toInt32_isInt32 _) h2T
  have hn : 0 < outputSizeOf H W D / T := by omega
  have hcid : c.result.id < g.nextId := hg.1 c hmem
  have hconv := isConv_isConv2D hc
  have hwf := rewrite_wf T hg c H W D (outputSizeOf H W D)
  obtain ⟨⟨sh, hk⟩, ⟨bias, hops⟩, ⟨fo, fi, hf⟩, hout⟩ := hc
  obtain ⟨hrk, hro, hrr, hrl⟩ := splitConvReplacement_facts g c
  have hi2 : i < splitCount (outputSizeOf H W D) T := by rw [hcount]; exact hi
  have hin1 : ((i : Nat) : Int) + 1 ≤ outputSizeOf H W D / T := by omega
  -- the slice
  have hsl : (createdStridedSlices g (OpSplitPattern.rewrite T g c H W D (outputSizeOf H W D)))[i]? =
      some (sliceOpAt (g.clone c).2 (⟨.constant [1, 1, 1, 1], [], ⟨g.nextId + 1, i32x4⟩, []⟩)
        c.result H D (sliceWidthOf W (numSplitsOf (outputSizeOf H W D) T))
        (sliceWidthRemainderOf W (numSplitsOf (outputSizeOf H W D) T)) (g.nextId + 2) i) := by
    rw [createdStridedSlices_rewrite T g c H W D _ hg.1 hcid hconv]
    unfold splitSlices
    rw [List.getElem?_map, List.getElem?_range hi2]
    rfl
  have hsmem : sliceOpAt (g.clone c).2 (⟨.constant [1, 1, 1, 1], [], ⟨g.nextId + 1, i32x4⟩, []⟩)
        c.result H D (sliceWidthOf W (numSplitsOf (outputSizeOf H W D) T))
        (sliceWidthRemainderOf W (numSplitsOf (outputSizeOf H W D) T)) (g.nextId + 2) i ∈
      (OpSplitPattern.rewrite T g c H W D (outputSizeOf H W D)).ops := by
    have h1 := List.getElem?_mem hsl
    unfold createdStridedSlices at h1
    exact List.mem_of_mem_filter h1
  have hcmem := mem_rewrite_of_created T g c H W D (outputSizeOf H W D) hg.1 hcid
    (o := splitConvReplacement g c) (by simp [splitCreatedOps])
  have hemem := mem_rewrite_of_created T g c H W D (outputSizeOf H W D) hg.1 hcid
    (o := endOpAt H D (sliceWidthOf W (numSplitsOf (outputSizeOf H W D) T))
      (sliceWidthRemainderOf W (numSplitsOf (outputSizeOf H W D) T)) (g.nextId + 2) i) (by
      simp only [splitCreatedOps, List.mem_append, List.mem_flatMap, List.mem_range, sliceOpsAt,
        List.mem_cons]
      exact Or.inl (Or.inr ⟨i, hi2, Or.inr (Or.inl rfl)⟩))
  have hend := matchConstant_of_mem hwf hemem _ rfl ⟨g.nextId + 2 + 3 * i + 1, i32x4⟩ rfl
  have hraise := raise_matchAndRewrite_eq _ hwf
    (sliceOpAt (g.clone c).2 (⟨.constant [1, 1, 1, 1], [], ⟨g.nextId + 1, i32x4⟩, []⟩)
        c.result H D (sliceWidthOf W (numSplitsOf (outputSizeOf H W D) T))
        (sliceWidthRemainderOf W (numSplitsOf (outputSizeOf H W D) T)) (g.nextId + 2) i)
    _ 0 0 0 0 0 (g.clone c).2.result
    ⟨g.nextId + 2 + 3 * i, i32x4⟩ ⟨g.nextId + 2 + 3 * i + 1, i32x4⟩ ⟨g.nextId + 1, i32x4⟩
    input filter
    [if bias.id = c.result.id then
      ⟨g.nextId + 2 + 3 * splitCount (outputSizeOf H W D) T, c.result.type⟩ else bias]
    padding sh sw fo fH fW fi inN inH inW inD N H W D
    1 H (offsetOf (sliceWidthOf W (numSplitsOf (outputSizeOf H W D) T))
      (sliceWidthRemainderOf W (numSplitsOf (outputSizeOf H W D) T)) (i + 1)) D
    1 H (currentSliceWidthOf (sliceWidthOf W (numSplitsOf (outputSizeOf H W D) T))
      (sliceWidthRemainderOf W (numSplitsOf (outputSizeOf H W D) T)) i) D
    rfl (show ([opSplitLabel] : List String).contains opSplitLabel = true by decide)
    (show ([opSplitLabel] : List String).contains raisedStridedSliceLabel = false by decide)
    rfl hcmem
    (by simp [Operation.replaceUsesOfWith, hrr, Graph.clone])
    (by simp [Operation.replaceUsesOfWith, hrk, hk])
    (by simp [Operation.replaceUsesOfWith, hro, hops, hself1, hself2])
    hf hin
    (by simp [Operation.replaceUsesOfWith, hrr, hout])
    hend rfl
  have helt : ((splitConvReplacement g c).replaceUsesOfWith c.result.id
      ⟨g.nextId + 2 + 3 * splitCount (outputSizeOf H W D) T, c.result.type⟩).result.type.elementType
      = c.result.type.elementType := by
    simp [Operation.replaceUsesOfWith, hrr]
  rw [helt] at hraise
  rw [hnum, sliceWidthOf_eq hW hn, sliceWidthRemainderOf_eq hW hn] at hsl hsmem hraise
  rw [offsetOf_eq hW hn (i + 1) (by push_cast; omega), currentSliceWidthOf_eq hW hn] at hraise
  refine ⟨_, _, _, hsl, hsmem, ?_, hwf, ?_, ?_, ?_, hraise⟩
  · have := hwf.1 _ hsmem
    exact this
  · simp [Operation.replaceUsesOfWith, Operation.isConv2D, hrk, hk]
  · simpa [Operation.replaceUsesOfWith, Operation.hasAttr] using hrl
  · simp [Operation.replaceUsesOfWith, hrr]

theorem exampleConv2_isConv :
    IsConv exampleConv2 "VALID" 2 ⟨0, ⟨[1, 3, 2049, 1], qi8⟩⟩ ⟨1, ⟨[288, 3, 3, 1], qi8⟩⟩
      3 3 1 1 1024 288 :=
  ⟨⟨2, rfl⟩, ⟨_, rfl⟩, ⟨288, 1, rfl⟩, rfl⟩

/-! ## C8: the indices the raise pattern computes -/

/-- C8 (counterexample): for stride 2, filter width 3 and the strided slice with
width range `(342, 683)` that the split rule creates on an output of width
1024, the raise pattern creates a strided slice with width range
`(684, 1367)`: the end index is `683 * 2 - 2 + 3 = 1367` and the begin index
`1367 - 683 = 684`, not 1365 and 682. -/
theorem hoist_example_indices :
    OpSplitPattern.matchAndRewrite splitTensorSize exampleGraph2 exampleConv2 =
      some (.success, exampleSplitGraph2) ∧
    exampleSlice2 ∈ createdStridedSlices exampleGraph2 exampleSplitGraph2 ∧
    widthRange exampleSplitGraph2 exampleSlice2 = some (342, 683) ∧
    (RaiseStridedSlicePattern.matchAndRewrite exampleSplitGraph2 exampleSlice2).map
      (fun r => (r.1, (createdStridedSlices exampleSplitGraph2 r.2).map (widthRange r.2))) =
      some (.success, [some (684, 1367)]) ∧
    ((684 : Int), (1367 : Int)) ≠ (682, 1365) := by
  decide

/-- C8 (amended): for every strided slice the split rule creates, with width range
`(a, b)`, on a convolution with width stride `sw` and filter width `fW` (whose
input has rank 4 and which does not read its own result), the raise pattern
succeeds and the one strided slice it creates has end index
`b * sw - sw + fW` and begin index that end minus
`(b - a) * sw - sw + fW`, provided the end index and `a * sw` are `int32_t`
values. -/
theorem hoist_indices_of_split_slice (T : Int) (g g2 : Graph) (c : Operation)
    (padding : String) (sw : Nat) (input filter : Value)
    (fH fW N H W D inN inH inW inD : Int) (s : Operation) (a b : Int)
    (hc : IsConv c padding sw input filter fH fW N H W D)
    (hg : g.WF) (hmem : c ∈ g.ops) (hT : 0 < T) (hT2 : T < 1073741824)
    (hH : IsInt32 H) (hW : IsExtent W) (hD : IsInt32 D)
    (hfire : OpSplitPattern.matchAndRewrite T g c = some (.success, g2))
    (hin : input.type.shape = [inN, inH, inW, inD])
    (hself1 : input.id ≠ c.result.id) (hself2 : filter.id ≠ c.result.id)
    (hs : s ∈ createdStridedSlices g g2) (hr : widthRange g2 s = some (a, b))
    (hE : IsInt32 (b * sw - sw + fW)) (hS : IsInt32 (a * sw)) :
    ∃ g3, RaiseStridedSlicePattern.matchAndRewrite g2 s = some (.success, g3) ∧
      (createdStridedSlices g2 g3).map (widthRange g3) =
        [some (b * sw - sw + fW - ((b - a) * sw - sw + fW), b * sw - sw + fW)] := by
  obtain ⟨i, hi⟩ := List.mem_iff_getElem?.1 hs
  obtain ⟨hb, -, -⟩ := split_slices_spec hc hg hmem hT hT2 hH hW hD hfire
  have hlen : (createdStridedSlices g g2).length = (outputSizeOf H W D / T).toNat := by
    have := congrArg List.length hb
    simpa using this
  have hil : i < (outputSizeOf H W D / T).toNat := by
    rw [← hlen]
    exact (List.getElem?_eq_some.1 hi).1
  obtain ⟨s2, conv2, st, hs2, hs2mem, hs2id, hwf, hcv, -, hct, hraise⟩ :=
    hoist_split_slice hc hg hmem hT hT2 hH hW hD hfire hin hself1 hself2 i hil
  rw [hi] at hs2
  cases hs2
  -- the range of the slice
  have hbi : ((createdStridedSlices g g2).map (sliceBounds g2))[i]? =
      some (sliceBounds g2 s) := by
    rw [List.getElem?_map, hi]; rfl
  rw [hb, List.getElem?_map, List.getElem?_range hil] at hbi
  simp only [Option.map_some', Option.some.injEq] at hbi
  have hab : a = partitionStart W (outputSizeOf H W D / T) i ∧
      b = partitionStart W (outputSizeOf H W D / T) (i + 1) := by
    unfold widthRange at hr
    rw [← hbi] at hr
    simp at hr
    exact ⟨hr.1.symm, hr.2.symm⟩
  obtain ⟨rfl, rfl⟩ := hab
  have hw : partitionWidth W (outputSizeOf H W D / T) i =
      partitionStart W (outputSizeOf H W D / T) (i + 1) -
        partitionStart W (outputSizeOf H W D / T) i := by
    rw [partitionStart_succ]; ring
  obtain ⟨hcr, hwr⟩ := raise_created g2 hwf s conv2 0 0 0 0 0 input st
    (partitionStart W (outputSizeOf H W D / T) (i + 1)) sw fW inN inH inD
    (partitionWidth W (outputSizeOf H W D / T) i) N H D hs2id hcv
  rw [hct] at hcr hwr
  refine ⟨_, hraise, ?_⟩
  rw [hcr, List.map_cons, List.map_nil, hwr, toInt32_newEndIndexOf, newBeginIndexOf_eq,
    toInt32_of_isInt32 hE, hw]
  have h1 : (partitionStart W (outputSizeOf H W D / T) (i + 1) -
      (partitionStart W (outputSizeOf H W D / T) (i + 1) -
        partitionStart W (outputSizeOf H W D / T) i)) * (sw : Int) =
      partitionStart W (outputSizeOf H W D / T) i * sw := by ring
  rw [h1, toInt32_of_isInt32 hS]
  congr 3
  ring

theorem hoist_indices_of_split_slice_witness :
    IsConv exampleConv2 "VALID" 2 ⟨0, ⟨[1, 3, 2049, 1], qi8⟩⟩ ⟨1, ⟨[288, 3, 3, 1], qi8⟩⟩
      3 3 1 1 1024 288 ∧
    exampleGraph2.WF ∧ exampleConv2 ∈ exampleGraph2.ops ∧
    0 < splitTensorSize ∧ splitTensorSize < 1073741824 ∧
    IsInt32 1 ∧ IsExtent 1024 ∧ IsInt32 288 ∧
    OpSplitPattern.matchAndRewrite splitTensorSize exampleGraph2 exampleConv2 =
      some (.success, exampleSplitGraph2) ∧
    exampleSlice2 ∈ createdStridedSlices exampleGraph2 exampleSplitGraph2 ∧
    widthRange exampleSplitGraph2 exampleSlice2 = some (342, 683) ∧
    IsInt32 ((683 : Int) * 2 - 2 + 3) ∧ IsInt32 ((342 : Int) * 2) ∧
    ∃ g3, RaiseStridedSlicePattern.matchAndRewrite exampleSplitGraph2 exampleSlice2 =
        some (.success, g3) ∧
      (createdStridedSlices exampleSplitGraph2 g3).map (widthRange g3) =
        [some ((683 : Int) * 2 - 2 + 3 - ((683 - 342) * 2 - 2 + 3), (683 : Int) * 2 - 2 + 3)] :=
  ⟨exampleConv2_isConv, by decide, by decide, by decide, by decide, ⟨by omega, by omega⟩,
    ⟨by omega, by omega⟩, ⟨by omega, by omega⟩, by decide, by decide, by decide, by decide,
    by decide,
    hoist_indices_of_split_slice splitTensorSize exampleGraph2 exampleSplitGraph2 exampleConv2
      "VALID" 2 ⟨0, ⟨[1, 3, 2049, 1], qi8⟩⟩ ⟨1, ⟨[288, 3, 3, 1], qi8⟩⟩
      3 3 1 1 1024 288 1 3 2049 1 exampleSlice2 342 683 exampleConv2_isConv
      (by decide) (by decide) (by decide) (by decide) (by decide) (by decide) (by decide)
      (by decide) rfl (by decide) (by decide) (by decide) (by decide) (by decide) (by decide)⟩

/-! ## C9: round trip of the hoisted region -/

/-- C9: for every stride `s >= 1`, filter width `f >= 1` and output range
`0 <= a < b` whose hoisted end index is an `int32_t` value, the new output
width the raise pattern computes is `(b - a) * s - s + f`, the forward formula
`floor((inWidth - f) / s) + 1` applied to it gives back `b - a`, the begin
index is `a * s`, and the region from begin to end has exactly that width. -/
theorem hoist_round_trip (s f : Nat) (a b : Int) (hs : 1 ≤ s) (hf : 1 ≤ f) (ha : 0 ≤ a)
    (hab : a < b) (hfit : b * s - s + f < 2147483648) :
    newOutputWidthOf (b - a) s f = (b - a) * s - s + f ∧
    (validOutWidth (newOutputWidthOf (b - a) s f).toNat f s : Int) = b - a ∧
    newBeginIndexOf (newEndIndexOf b s f) (newOutputWidthOf (b - a) s f) = a * s ∧
    toInt32 (newEndIndexOf b s f) -
      newBeginIndexOf (newEndIndexOf b s f) (newOutputWidthOf (b - a) s f) =
      newOutputWidthOf (b - a) s f := by
  obtain ⟨h1, h2, h3⟩ := hoist_indices_exact s f a b hs hf ha hab hfit
  refine ⟨h2, ?_, h3, ?_⟩
  · rw [h2]
    obtain ⟨k, hk⟩ : ∃ k : Nat, b - a = (k : Int) + 1 := ⟨(b - a - 1).toNat, by omega⟩
    rw [hk]
    have : (((k : Int) + 1) * s - s + f).toNat = k * s + f := by
      have : ((k : Int) + 1) * s - s + f = ((k * s + f : Nat) : Int) := by push_cast; ring
      rw [this, Int.toNat_ofNat]
    rw [this]
    unfold validOutWidth
    rw [if_neg (by omega)]
    have h5 : k * s + f - f = k * s := by omega
    rw [h5, Nat.mul_div_cancel _ (by omega : 0 < s)]
    push_cast; ring
  · rw [h3, h1, h2]; ring

theorem hoist_round_trip_witness :
    1 ≤ 2 ∧ 1 ≤ 3 ∧ (0 : Int) ≤ 342 ∧ (342 : Int) < 683 ∧
    (683 : Int) * 2 - 2 + 3 < 2147483648 ∧
    newOutputWidthOf (683 - 342) 2 3 = (683 - 342) * 2 - 2 + 3 ∧
    (validOutWidth (newOutputWidthOf (683 - 342) 2 3).toNat 3 2 : Int) = 683 - 342 ∧
    newBeginIndexOf (newEndIndexOf 683 2 3) (newOutputWidthOf (683 - 342) 2 3) = 342 * 2 ∧
    toInt32 (newEndIndexOf 683 2 3) -
      newBeginIndexOf (newEndIndexOf 683 2 3) (newOutputWidthOf (683 - 342) 2 3) =
      newOutputWidthOf (683 - 342) 2 3 :=
  ⟨by decide, by decide, by decide, by decide, by decide,
    hoist_round_trip 2 3 342 683 (by decide) (by decide) (by decide) (by decide) (by decide)⟩

/-! ## C10: value equivalence of the hoist along the width -/

theorem validOutWidth_bound (len f s b : Nat) (hs : 1 ≤ s) (hb1 : 1 ≤ b)
    (hb : b ≤ validOutWidth len f s) : f ≤ len ∧ (b - 1) * s + f ≤ len := by
  unfold validOutWidth at hb
  split_ifs at hb with h
  · omega
  · have h1 : b - 1 ≤ (len - f) / s := by omega
    have h2 : (b - 1) * s ≤ len - f := by
      calc (b - 1) * s ≤ (len - f) / s * s := Nat.mul_le_mul_right s h1
        _ ≤ len - f := Nat.div_mul_le_self _ _
    omega

/-- C10: for every input row `x` (of `int32_t` length), filter width `f >= 1`,
stride `s >= 1` and partition range `[a, b)` within the valid-convolution
output of `x`, the valid convolution of the hoisted extraction
`x[inputStart, inputEnd)`, with the indices the raise pattern computes, is
exactly the elements `[a, b)` of the convolution of the full `x`. -/
theorem hoist_conv_value_equiv {α β : Type} (kernel : List α → β) (f s : Nat) (x : List α)
    (a b : Nat) (hs : 1 ≤ s) (hf : 1 ≤ f) (hab : a < b)
    (hb : b ≤ validOutWidth x.length f s) (hlen : x.length < 2147483648) :
    conv1dValid kernel f s
        (sliceAxis (newBeginIndexOf (newEndIndexOf b s f) (newOutputWidthOf ((b : Int) - a) s f))
          (toInt32 (newEndIndexOf b s f)) x) =
      sliceAxis a b (conv1dValid kernel f s x) := by
  obtain ⟨hfl, hbl⟩ := validOutWidth_bound x.length f s b hs (by omega) hb
  have hcast : (b : Int) * s - s + f = (((b - 1) * s + f : Nat) : Int) := by
    have : ((b - 1 : Nat) : Int) = (b : Int) - 1 := by omega
    push_cast; rw [this]; ring
  obtain ⟨h1, h2, h3⟩ := hoist_indices_exact s f a b hs hf (by omega) (by omega)
    (by rw [hcast]; omega)
  rw [h1, h3, hcast]
  have hamul : ((a : Int) * s) = ((a * s : Nat) : Int) := by push_cast; ring
  rw [hamul]
  have has : a * s + s ≤ (b - 1) * s + s := by
    have : a ≤ b - 1 := by omega
    have := Nat.mul_le_mul_right s this
    omega
  have hbs : (b - 1) * s + s = b * s := by
    have : b = (b - 1) + 1 := by omega
    conv_rhs => rw [this, Nat.add_mul]
    omega
  rw [sliceAxis_of_le x _ _ (by omega) (by omega) (by omega)]
  simp only [Int.toNat_ofNat]
  have hlenc : (conv1dValid kernel f s x).length = validOutWidth x.length f s := by
    simp [conv1dValid]
  rw [sliceAxis_of_le _ _ _ (by omega) (by omega) (by rw [hlenc]; exact_mod_cast hb)]
  simp only [Int.toNat_ofNat]
  have hL : (b - 1) * s + f - a * s = (b - a - 1) * s + f := by
    have : (b - 1) * s = (b - a - 1) * s + a * s := by
      rw [← Nat.add_mul]; congr 1; omega
    omega
  rw [hL]
  have hylen : ((x.drop (a * s)).take ((b - a - 1) * s + f)).length = (b - a - 1) * s + f := by
    rw [List.length_take, List.length_drop]; omega
  unfold conv1dValid
  rw [hylen]
  have hv : validOutWidth ((b - a - 1) * s + f) f s = b - a := by
    unfold validOutWidth
    rw [if_neg (by omega)]
    have : (b - a - 1) * s + f - f = (b - a - 1) * s := by omega
    rw [this, Nat.mul_div_cancel _ (by omega : 0 < s)]
    omega
  rw [hv]
  apply List.ext_getElem?
  intro j
  rcases Nat.lt_or_ge j (b - a) with hj | hj
  · have hja : a + j < validOutWidth x.length f s := by omega
    rw [List.getElem?_map, List.getElem?_range hj, List.getElem?_take_of_lt hj,
      List.getElem?_drop, List.getElem?_map, List.getElem?_range hja]
    simp only [Option.map_some']
    congr 2
    have hjs : j * s + f ≤ (b - a - 1) * s + f := by
      have : j ≤ b - a - 1 := by omega
      have := Nat.mul_le_mul_right s this
      omega
    rw [List.drop_take, List.take_take, List.drop_drop, Nat.min_eq_left (by omega)]
    congr 2
    rw [Nat.add_mul]
  · rw [List.getElem?_eq_none (by simpa using hj), List.getElem?_eq_none]
    rw [List.length_take]
    omega

theorem hoist_conv_value_equiv_witness :
    1 ≤ 2 ∧ 1 ≤ 3 ∧ 1 < 3 ∧ 3 ≤ validOutWidth (List.range 11).length 3 2 ∧
    (List.range 11).length < 2147483648 ∧
    conv1dValid List.sum 3 2
        (sliceAxis (newBeginIndexOf (newEndIndexOf 3 2 3) (newOutputWidthOf (3 - 1) 2 3))
          (toInt32 (newEndIndexOf 3 2 3)) (List.range 11)) =
      sliceAxis 1 3 (conv1dValid List.sum 3 2 (List.range 11)) :=
  ⟨by decide, by decide, by decide, by decide, by decide,
    hoist_conv_value_equiv List.sum 3 2 (List.range 11) 1 3 (by decide) (by decide) (by decide)
      (by decide) (by decide)⟩

/-! ## C14: the hoisted extraction is narrower than the input -/

/-- C14: for stride `s >= 1`, filter width `f >= 1`, input width `inW` (an
`int32_t`) and output width `floor((inW - f) / s) + 1`, every partition width
`w` with `1 <= w < outW` has a hoisted width, as the raise pattern computes
it, equal to `w * s - s + f` and strictly smaller than `inW`. -/
theorem hoisted_width_lt_input (s f : Nat) (inW w : Int) (hs : 1 ≤ s) (hf : 1 ≤ f)
    (hin : inW < 2147483648) (hw1 : 1 ≤ w) (hw : w < (inW - f) / s + 1) :
    newOutputWidthOf w s f = w * s - s + f ∧ w * s - s + f < inW := by
  have hs0 : (0 : Int) < s := by omega
  have h1 : w ≤ (inW - f) / s := by omega
  have h2 : w * s ≤ inW - f := (Int.le_ediv_iff_mul_le hs0).1 h1
  have h3 : (1 : Int) * s ≤ w * s := mul_le_mul_of_nonneg_right hw1 hs0.le
  have hnw : newOutputWidthOf w s f = toInt32 (w * s - s + f) := by
    unfold newOutputWidthOf toInt64 toInt32
    generalize w * (s : Int) = q
    omega
  refine ⟨?_, by omega⟩
  rw [hnw]
  exact toInt32_of_isExtent ⟨by omega, by omega⟩

theorem hoisted_width_lt_input_witness :
    1 ≤ 2 ∧ 1 ≤ 3 ∧ (2049 : Int) < 2147483648 ∧ (1 : Int) ≤ 341 ∧
    (341 : Int) < (2049 - 3) / 2 + 1 ∧
    newOutputWidthOf 341 2 3 = 341 * 2 - 2 + 3 ∧ (341 : Int) * 2 - 2 + 3 < 2049 :=
  ⟨by decide, by decide, by decide, by decide, by decide,
    hoisted_width_lt_input 2 3 2049 341 (by decide) (by decide) (by decide) (by decide)
      (by decide)⟩

/-! ## C16: balanced partitions -/

/-- C17: whenever the split rule fires with `splitTensorSize = 98304`, the
computed `numSplits` is at least 2, hence not zero, and the rule creates
exactly `numSplits` strided slices. -/
theorem split_count_ge_two (g g2 : Graph) (c : Operation) (padding : String)
    (sw : Nat) (input filter : Value) (fH fW N H W D : Int)
    (hc : IsConv c padding sw input filter fH fW N H W D)
    (hg : g.WF) (hmem : c ∈ g.ops)
    (hH : IsInt32 H) (hW : IsInt32 W) (hD : IsInt32 D)
    (hfire : OpSplitPattern.matchAndRewrite splitTensorSize g c = some (.success, g2)) :
    2 ≤ numSplitsOf (outputSizeOf H W D) splitTensorSize ∧
    numSplitsOf (outputSizeOf H W D) splitTensorSize ≠ 0 ∧
    ((createdStridedSlices g g2).length : Int) =
      numSplitsOf (outputSizeOf H W D) splitTensorSize := by
  have hT : (0 : Int) < splitTensorSize := by decide
  have hT2 : splitTensorSize < 1073741824 := by decide
  obtain ⟨rfl, h2T⟩ := fires_inv hc hT hT2 hH hW hD hfire
  obtain ⟨hnum, hq, -, hcount⟩ :=
    numSplits_facts (S := outputSizeOf H W D) hT (toInt32_isInt32 _) h2T
  rw [createdStridedSlices_rewrite splitTensorSize g c H W D _ hg.1 (hg.1 c hmem)
    (isConv_isConv2D hc)]
  refine ⟨by omega, by omega, ?_⟩
  simp only [splitSlices, List.length_map, List.length_range]
  rw [hcount, hnum]
  omega

theorem split_count_ge_two_witness :
    IsConv (exampleConv [1, 1, 200000, 1]) "VALID" 1 (exampleInput [1, 1, 200000, 1])
      exampleFilter 1 1 1 1 200000 1 ∧
    (exampleGraph [1, 1, 200000, 1]).WF ∧
    exampleConv [1, 1, 200000, 1] ∈ (exampleGraph [1, 1, 200000, 1]).ops ∧
    IsInt32 1 ∧ IsInt32 200000 ∧
    OpSplitPattern.matchAndRewrite splitTensorSize (exampleGraph [1, 1, 200000, 1])
        (exampleConv [1, 1, 200000, 1]) =
      some (.success, OpSplitPattern.rewrite splitTensorSize (exampleGraph [1, 1, 200000, 1])
        (exampleConv [1, 1, 200000, 1]) 1 200000 1 200000) ∧
    2 ≤ numSplitsOf (outputSizeOf 1 200000 1) splitTensorSize ∧
    numSplitsOf (outputSizeOf 1 200000 1) splitTensorSize ≠ 0 ∧
    ((createdStridedSlices (exampleGraph [1, 1, 200000, 1])
        (OpSplitPattern.rewrite splitTensorSize (exampleGraph [1, 1, 200000, 1])
          (exampleConv [1, 1, 200000, 1]) 1 200000 1 200000)).length : Int) =
      numSplitsOf (outputSizeOf 1 200000 1) splitTensorSize :=
  ⟨exampleConv_isConv 1 1 200000 1, by decide, by decide, by decide, by decide, by decide,
    split_count_ge_two (exampleGraph [1, 1, 200000, 1]) _
      (exampleConv [1, 1, 200000, 1]) "VALID" 1 (exampleInput [1, 1, 200000, 1])
      exampleFilter 1 1 1 1 200000 1 (exampleConv_isConv 1 1 200000 1)
      (by decide) (by decide) (by decide) (by decide) (by decide) (by decide)⟩

/-! ## C18: the hoisted region lies inside the input -/

/-- C18: for stride `s >= 1`, filter width `f >= 1`, input width `inW >= f` (an
`int32_t`), output width `floor((inW - f) / s) + 1` and every range
`0 <= a < b <= outW`, the indices the raise pattern computes satisfy
`0 <= inputStart < inputEnd <= inW`. -/
theorem hoisted_region_within_input (s f : Nat) (inW a b : Int) (hs : 1 ≤ s) (hf : 1 ≤ f)
    (hfin : (f : Int) ≤ inW) (hin : inW < 2147483648) (ha : 0 ≤ a) (hab : a < b)
    (hb : b ≤ (inW - f) / s + 1) :
    0 ≤ newBeginIndexOf (newEndIndexOf b s f) (newOutputWidthOf (b - a) s f) ∧
    newBeginIndexOf (newEndIndexOf b s f) (newOutputWidthOf (b - a) s f) <
      toInt32 (newEndIndexOf b s f) ∧
    toInt32 (newEndIndexOf b s f) ≤ inW := by
  have hs0 : (0 : Int) < s := by omega
  have h1 : b - 1 ≤ (inW - f) / s := by omega
  have h2 : (b - 1) * s ≤ inW - f := (Int.le_ediv_iff_mul_le hs0).1 h1
  have h3 : (b - 1) * (s : Int) = b * s - s := by ring
  obtain ⟨e1, e2, e3⟩ := hoist_indices_exact s f a b hs hf ha hab (by omega)
  rw [e1, e3]
  have h4 : 0 ≤ a * (s : Int) := mul_nonneg ha hs0.le
  have h5 : a * (s : Int) ≤ (b - 1) * s := mul_le_mul_of_nonneg_right (by omega) hs0.le
  refine ⟨h4, by omega, by omega⟩

theorem hoisted_region_within_input_witness :
    1 ≤ 2 ∧ 1 ≤ 3 ∧ (3 : Int) ≤ 2049 ∧ (2049 : Int) < 2147483648 ∧ (0 : Int) ≤ 342 ∧
    (342 : Int) < 683 ∧ (683 : Int) ≤ (2049 - 3) / 2 + 1 ∧
    0 ≤ newBeginIndexOf (newEndIndexOf 683 2 3) (newOutputWidthOf (683 - 342) 2 3) ∧
    newBeginIndexOf (newEndIndexOf 683 2 3) (newOutputWidthOf (683 - 342) 2 3) <
      toInt32 (newEndIndexOf 683 2 3) ∧
    toInt32 (newEndIndexOf 683 2 3) ≤ 2049 :=
  ⟨by decide, by decide, by decide, by decide, by decide, by decide, by decide,
    hoisted_region_within_input 2 3 2049 342 683 (by decide) (by decide) (by decide)
      (by decide) (by decide) (by decide) (by decide)⟩

/-! ## C19: the size of a partition -/

theorem partition_size_lt (A W T : Int) (hA : 0 ≤ A) (hW : 0 ≤ W) (hT : 0 < T)
    (h2T : 2 * T ≤ A * W) (hn : A * W / T ≤ W) (i : Nat) :
    A * partitionWidth W (A * W / T) i < 2 * T := by
  have hn2 : 2 ≤ A * W / T := Int.le_ediv_of_mul_le hT h2T
  have hn0 : 0 < A * W / T := by omega
  -- facts on S / T
  have hS1 : T * (A * W / T) + A * W % T = A * W := Int.ediv_add_emod (A * W) T
  have hS2 : 0 ≤ A * W % T := Int.emod_nonneg _ hT.ne'
  have hS3 : A * W % T < T := Int.emod_lt_of_pos _ hT
  -- facts on W / n
  have hq0 : 0 ≤ W / (A * W / T) := Int.ediv_nonneg hW hn0.le
  have hr0 : 0 ≤ W % (A * W / T) := Int.emod_nonneg W hn0.ne'
  have hr1 : W % (A * W / T) < A * W / T := Int.emod_lt_of_pos W hn0
  have hW1 : A * W / T * (W / (A * W / T)) + W % (A * W / T) = W := Int.ediv_add_emod W _
  generalize hnd : A * W / T = n at *
  generalize hqd : W / n = q at *
  generalize hrd : W % n = r at *
  generalize hmd : A * W % T = m at *
  have hTn : T * 1 ≤ T * n := mul_le_mul_of_nonneg_left (by omega) hT.le
  unfold partitionWidth
  rw [hqd, hrd]
  split_ifs with hlt
  · -- width q + 1, so r ≥ 1
    have hr : 1 ≤ r := by omega
    rcases le_or_lt A T with hAT | hAT
    · have h1 : A * (n - 1) ≤ T * (n - 1) := mul_le_mul_of_nonneg_right hAT (by omega)
      have h2 : A * ((q + 1) * n) ≤ A * (W + n - 1) :=
        mul_le_mul_of_nonneg_left (by nlinarith) hA
      have h3 : A * (q + 1) * n < 2 * T * n := by nlinarith
      exact lt_of_mul_lt_mul_right h3 hn0.le
    · exfalso
      have h1 : W * T ≤ A * W := by
        have := mul_le_mul_of_nonneg_right hAT.le hW
        linarith
      have h2 : W ≤ A * W / T := Int.le_ediv_of_mul_le hT h1
      rw [hnd] at h2
      have h3 : n = W := le_antisymm hn h2
      subst h3
      rw [Int.emod_self] at hrd
      omega
  · have h1 : A * (n * q) ≤ A * W := mul_le_mul_of_nonneg_left (by omega) hA
    have h3 : A * q * n < 2 * T * n := by nlinarith
    exact lt_of_mul_lt_mul_right h3 hn0.le

/-- C19 (counterexample): for a convolution with output shape
`[1, 1, 65536, 65539]` the `int32_t` product wraps to `196608`, the split rule
fires with two partitions of width 32768, and the output size of a partition,
`1 * 32768 * 65539`, is not below `2 * 98304`. -/
theorem split_partition_size_overflow :
    (OpSplitPattern.matchAndRewrite splitTensorSize (exampleGraph [1, 1, 65536, 65539])
        (exampleConv [1, 1, 65536, 65539])).map
      (fun r => (r.1, (createdStridedSlices (exampleGraph [1, 1, 65536, 65539]) r.2).map
        declaredWidth)) = some (.success, [some 32768, some 32768]) ∧
    numSplitsOf (outputSizeOf 1 65536 65539) splitTensorSize ≤ 65536 ∧
    ¬ ((1 : Int) * 32768 * 65539 < 2 * splitTensorSize) := by
  decide

/-- C19 (amended): for every convolution with non-negative extents whose exact
product `H * W * D` is below `2^31`, on which the split rule fires with
`numSplits <= outputWidth`, every strided slice it creates has a declared
width `w` with `H * w * D < 2 * threshold`. -/
theorem split_partition_size_lt (T : Int) (g g2 : Graph) (c : Operation) (padding : String)
    (sw : Nat) (input filter : Value) (fH fW N H W D : Int)
    (hc : IsConv c padding sw input filter fH fW N H W D)
    (hg : g.WF) (hmem : c ∈ g.ops) (hT : 0 < T) (hT2 : T < 1073741824)
    (hH : IsExtent H) (hW : IsExtent W) (hD : IsExtent D)
    (hexact : H * W * D < 2147483648)
    (hfire : OpSplitPattern.matchAndRewrite T g c = some (.success, g2))
    (hle : numSplitsOf (outputSizeOf H W D) T ≤ W) :
    ∀ s ∈ createdStridedSlices g g2, ∃ w, declaredWidth s = some w ∧ H * w * D < 2 * T := by
  have hH32 : IsInt32 H := ⟨by have := hH.1; omega, hH.2⟩
  have hW32 : IsInt32 W := ⟨by have := hW.1; omega, hW.2⟩
  have hD32 : IsInt32 D := ⟨by have := hD.1; omega, hD.2⟩
  obtain ⟨-, hw, -⟩ := split_slices_spec hc hg hmem hT hT2 hH32 hW hD32 hfire
  obtain ⟨-, h2T⟩ := fires_inv hc hT hT2 hH32 hW32 hD32 hfire
  obtain ⟨hnum, -, -, -⟩ :=
    numSplits_facts (S := outputSizeOf H W D) hT (toInt32_isInt32 _) h2T
  rw [hnum] at hle
  have hS : outputSizeOf H W D = H * D * W := by
    have hHW : 0 ≤ H * W := mul_nonneg hH.1 hW.1
    rcases eq_or_lt_of_le hD.1 with hd | hd
    · subst hd
      simp [outputSizeOf, toInt32]
    · have h2 : H * W * 1 ≤ H * W * D := mul_le_mul_of_nonneg_left (by omega) hHW
      rw [outputSizeOf_exact hH.1 hW.1 hD.1 hexact (by omega)]
      ring
  rw [hS] at hw hle h2T
  intro s hs
  have hmem2 : declaredWidth s ∈ (createdStridedSlices g g2).map declaredWidth :=
    List.mem_map_of_mem _ hs
  rw [hw] at hmem2
  simp only [List.mem_map, List.mem_range] at hmem2
  obtain ⟨i, -, hi⟩ := hmem2
  refine ⟨_, hi.symm, ?_⟩
  have := partition_size_lt (H * D) W T (mul_nonneg hH.1 hD.1) hW.1 hT h2T hle i
  have h3 : H * partitionWidth W (H * D * W / T) i * D =
      H * D * partitionWidth W (H * D * W / T) i := by ring
  rw [h3]
  exact this

theorem split_partition_size_lt_witness :
    IsConv (exampleConv [1, 1, 200000, 1]) "VALID" 1 (exampleInput [1, 1, 200000, 1])
      exampleFilter 1 1 1 1 200000 1 ∧
    (exampleGraph [1, 1, 200000, 1]).WF ∧
    exampleConv [1, 1, 200000, 1] ∈ (exampleGraph [1, 1, 200000, 1]).ops ∧
    0 < splitTensorSize ∧ splitTensorSize < 1073741824 ∧
    IsExtent 1 ∧ IsExtent 200000 ∧ (1 : Int) * 200000 * 1 < 2147483648 ∧
    OpSplitPattern.matchAndRewrite splitTensorSize (exampleGraph [1, 1, 200000, 1])
        (exampleConv [1, 1, 200000, 1]) =
      some (.success, OpSplitPattern.rewrite splitTensorSize (exampleGraph [1, 1, 200000, 1])
        (exampleConv [1, 1, 200000, 1]) 1 200000 1 200000) ∧
    numSplitsOf (outputSizeOf 1 200000 1) splitTensorSize ≤ 200000 ∧
    ∀ s ∈ createdStridedSlices (exampleGraph [1, 1, 200000, 1])
        (OpSplitPattern.rewrite splitTensorSize (exampleGraph [1, 1, 200000, 1])
          (exampleConv [1, 1, 200000, 1]) 1 200000 1 200000),
      ∃ w, declaredWidth s = some w ∧ 1 * w * 1 < 2 * splitTensorSize :=
  ⟨exampleConv_isConv 1 1 200000 1, by decide, by decide, by decide, by decide, by decide,
    by decide, by decide, by decide, by decide,
    split_partition_size_lt splitTensorSize (exampleGraph [1, 1, 200000, 1]) _
      (exampleConv [1, 1, 200000, 1]) "VALID" 1 (exampleInput [1, 1, 200000, 1])
      exampleFilter 1 1 1 1 200000 1 (exampleConv_isConv 1 1 200000 1)
      (by decide) (by decide) (by decide) (by decide) (by decide) (by decide) (by decide)
      (by decide) (by decide) (by decide)⟩

/-! ## C11: when the raise pattern declines -/

/-- C11 (counterexample): a strided slice labelled by the split rule and not yet
raised whose input no operation defines, or an operation that is not a
convolution defines: the raise pattern does not decline, the cast of the
producer to a convolution fails. -/
theorem hoist_aborts_on_non_conv_producer :
    exampleOrphanSlice.hasAttr opSplitLabel = true ∧
    exampleOrphanSlice.hasAttr raisedStridedSliceLabel = false ∧
    exampleOrphanSlice ∈ exampleOrphanGraph.ops ∧
    exampleOrphanGraph.getDefiningOp ⟨0, ⟨[1, 1, 1024, 288], qi8⟩⟩ = none ∧
    RaiseStridedSlicePattern.matchAndRewrite exampleOrphanGraph exampleOrphanSlice = none ∧
    RaiseStridedSlicePattern.matchAndRewrite exampleOrphanGraph exampleOrphanSlice ≠
      some (.failure, exampleOrphanGraph) ∧
    exampleOrphanSlice ∈ exampleReluGraph.ops ∧
    (exampleReluGraph.getDefiningOp ⟨0, ⟨[1, 1, 1024, 288], qi8⟩⟩).map Operation.isConv2D =
      some false ∧
    RaiseStridedSlicePattern.matchAndRewrite exampleReluGraph exampleOrphanSlice = none ∧
    RaiseStridedSlicePattern.matchAndRewrite exampleReluGraph exampleOrphanSlice ≠
      some (.failure, exampleReluGraph) := by
  decide

/-- C11 (amended): on a strided slice labelled by the split rule and not yet
raised, whose input a convolution (with an input, and a filter of rank 3 or
more) produces and whose end tensor is not a constant, the raise pattern
declines and leaves the graph unchanged. -/
theorem hoist_declines_on_non_constant_end (g : Graph) (s conv : Operation)
    (m1 m2 m3 m4 m5 : Int) (x bv ev st convInput filter : Value) (rest : List Value)
    (p : String) (sh sw : Nat) (fW : Int)
    (hk : s.kind = .stridedSlice m1 m2 m3 m4 m5)
    (hl1 : s.hasAttr opSplitLabel = true) (hl2 : s.hasAttr raisedStridedSliceLabel = false)
    (hops : s.operands = [x, bv, ev, st])
    (hdef : g.getDefiningOp x = some conv) (hck : conv.kind = .conv2d p sh sw)
    (hcops : conv.operands = convInput :: filter :: rest)
    (hf : filter.type.getDimSize 2 = some fW)
    (hend : matchConstant g ev = none) :
    RaiseStridedSlicePattern.matchAndRewrite g s = some (.failure, g) := by
  unfold RaiseStridedSlicePattern.matchAndRewrite
  rw [hk]
  simp only [hl1, hl2, Bool.not_true, Bool.false_eq_true, if_false]
  rw [hops, List.getElem?_cons_zero, Option.bind_eq_bind, Option.some_bind, hdef,
    Option.bind_eq_bind, Option.some_bind, hck]
  simp only []
  rw [hcops, List.getElem?_cons_zero, Option.some_bind, List.getElem?_cons_succ,
    List.getElem?_cons_zero, Option.some_bind, hf, Option.bind_eq_bind, Option.some_bind]
  have h2 : [x, bv, ev, st][2]? = some ev := rfl
  rw [h2, Option.some_bind, hend]

theorem hoist_declines_on_non_constant_end_witness :
    exampleDynSlice.hasAttr opSplitLabel = true ∧
    exampleDynSlice.hasAttr raisedStridedSliceLabel = false ∧
    exampleDynGraph.getDefiningOp ⟨3, ⟨[1, 1, 1024, 288], qi8⟩⟩ = some exampleConv2 ∧
    matchConstant exampleDynGraph ⟨5, i32x4⟩ = none ∧
    RaiseStridedSlicePattern.matchAndRewrite exampleDynGraph exampleDynSlice =
      some (.failure, exampleDynGraph) :=
  ⟨by decide, by decide, by decide, by decide,
    hoist_declines_on_non_constant_end exampleDynGraph exampleDynSlice exampleConv2 0 0 0 0 0
      ⟨3, ⟨[1, 1, 1024, 288], qi8⟩⟩ ⟨4, i32x4⟩ ⟨5, i32x4⟩ ⟨6, i32x4⟩
      ⟨0, ⟨[1, 3, 2049, 1], qi8⟩⟩ ⟨1, ⟨[288, 3, 3, 1], qi8⟩⟩ [⟨2, ⟨[288], .integer 32⟩⟩]
      "VALID" 2 2 3 rfl (by decide) (by decide) rfl (by decide) rfl rfl rfl (by decide)⟩

/-! ## Successful applications, in general -/

/-- A successful application of `OpSplitPattern`: the operation is an unlabelled
convolution and the graph is the one the rewrite part leaves. -/
theorem split_success_inv {T : Int} {g g2 : Graph} {c : Operation}
    (h : OpSplitPattern.matchAndRewrite T g c = some (.success, g2)) :
    c.isConv2D = true ∧ c.hasAttr opSplitLabel = false ∧
      ∃ H W D S, g2 = OpSplitPattern.rewrite T g c H W D S := by
  unfold OpSplitPattern.matchAndRewrite at h
  split at h
  · rename_i padding sh sw hk
    have hl : c.hasAttr opSplitLabel = false := by
      cases hl : c.hasAttr opSplitLabel
      · rfl
      · simp [hl] at h
    refine ⟨by simp [Operation.isConv2D, hk], hl, ?_⟩
    rw [hl] at h
    simp only [Bool.false_eq_true, if_false] at h
    by_cases h2 : (padding != "VALID") = true
    · rw [if_pos h2] at h; simp at h
    rw [if_neg h2] at h
    simp only [Option.bind_eq_bind, Option.bind_eq_some] at h
    obtain ⟨filter, -, fH, -, fW, -, h⟩ := h
    by_cases h3 : (fH != fW) = true
    · rw [if_pos h3] at h; simp at h
    rw [if_neg h3] at h
    simp only [Option.bind_eq_bind, Option.bind_eq_some] at h
    obtain ⟨input, -, h⟩ := h
    by_cases h4 : (!input.type.elementType.isQI8) = true
    · rw [if_pos h4] at h; simp at h
    rw [if_neg h4] at h
    by_cases h5 : (!c.result.type.elementType.isQI8) = true
    · rw [if_pos h5] at h; simp at h
    rw [if_neg h5] at h
    simp only [Option.bind_eq_bind, Option.bind_eq_some] at h
    obtain ⟨H, -, W, -, D, -, h⟩ := h
    by_cases h6 : outputSizeOf (toInt32 H) (toInt32 W) (toInt32 D) < toInt32 (2 * T)
    · rw [if_pos h6] at h; simp at h
    rw [if_neg h6] at h
    simp only [Option.some.injEq, Prod.mk.injEq, true_and] at h
    exact ⟨_, _, _, _, h.symm⟩
  · simp at h

/-- The guards of `OpSplitPattern`, spelled out: the pattern matches exactly the
unlabelled convolutions that pass them. -/
theorem fires_iff (T : Int) (g : Graph) (c : Operation) :
    OpSplitPattern.fires T g c = true ↔
      ∃ padding sh sw filter input fH fW H W D,
        c.kind = .conv2d padding sh sw ∧ c.hasAttr opSplitLabel = false ∧
        (padding != "VALID") = false ∧ c.operands[1]? = some filter ∧
        filter.type.getDimSize 1 = some fH ∧ filter.type.getDimSize 2 = some fW ∧
        (fH != fW) = false ∧ c.operands[0]? = some input ∧
        input.type.elementType.isQI8 = true ∧ c.result.type.elementType.isQI8 = true ∧
        c.result.type.getDimSize 1 = some H ∧ c.result.type.getDimSize 2 = some W ∧
        c.result.type.getDimSize 3 = some D ∧
        ¬ outputSizeOf (toInt32 H) (toInt32 W) (toInt32 D) < toInt32 (2 * T) := by
  constructor
  · intro hf
    have h : ∃ g2, OpSplitPattern.matchAndRewrite T g c = some (.success, g2) := by
      unfold OpSplitPattern.fires at hf
      split at hf
      · exact ⟨_, by assumption⟩
      · cases hf
    obtain ⟨g2, h⟩ := h
    unfold OpSplitPattern.matchAndRewrite at h
    split at h
    · rename_i padding sh sw hk
      have hl : c.hasAttr opSplitLabel = false := by
        cases hl : c.hasAttr opSplitLabel
        · rfl
        · simp [hl] at h
      rw [hl] at h
      simp only [Bool.false_eq_true, if_false] at h
      by_cases h2 : (padding != "VALID") = true
      · rw [if_pos h2] at h; simp at h
      rw [if_neg h2] at h
      simp only [Option.bind_eq_bind, Option.bind_eq_some] at h
      obtain ⟨filter, e1, fH, e2, fW, e3, h⟩ := h
      by_cases h3 : (fH != fW) = true
      · rw [if_pos h3] at h; simp at h
      rw [if_neg h3] at h
      simp only [Option.bind_eq_bind, Option.bind_eq_some] at h
      obtain ⟨input, e4, h⟩ := h
      by_cases h4 : (!input.type.elementType.isQI8) = true
      · rw [if_pos h4] at h; simp at h
      rw [if_neg h4] at h
      by_cases h5 : (!c.result.type.elementType.isQI8) = true
      · rw [if_pos h5] at h; simp at h
      rw [if_neg h5] at h
      simp only [Option.bind_eq_bind, Option.bind_eq_some] at h
      obtain ⟨H, e5, W, e6, D, e7, h⟩ := h
      by_cases h6 : outputSizeOf (toInt32 H) (toInt32 W) (toInt32 D) < toInt32 (2 * T)
      · rw [if_pos h6] at h; simp at h
      exact ⟨padding, sh, sw, filter, input, fH, fW, H, W, D, hk, hl, by simpa using h2, e1, e2,
        e3, by simpa using h3, e4, by simpa using h4, by simpa using h5, e5, e6, e7, h6⟩
    · simp at h
  · rintro ⟨padding, sh, sw, filter, input, fH, fW, H, W, D, hk, hl, h2, e1, e2, e3, h3, e4, h4,
      h5, e5, e6, e7, h6⟩
    unfold OpSplitPattern.fires OpSplitPattern.matchAndRewrite
    rw [hk]
    simp only [hl, h2, e1, e2, e3, h3, e4, h4, h5, e5, e6, e7, h6, Bool.false_eq_true, if_false,
      Option.bind_eq_bind, Option.some_bind, Bool.not_true]

/-- The verdict of `OpSplitPattern` depends on the kind, the labels, the result
type and the types of the first two operands only. -/
theorem fires_of_same_types (T : Int) (g g2 : Graph) (c c2 : Operation)
    (hk : c2.kind = c.kind) (ha : c2.attrs = c.attrs) (hr : c2.result.type = c.result.type)
    (h0 : ∀ v, c.operands[0]? = some v → ∃ v2, c2.operands[0]? = some v2 ∧ v2.type = v.type)
    (h1 : ∀ v, c.operands[1]? = some v → ∃ v2, c2.operands[1]? = some v2 ∧ v2.type = v.type)
    (h : OpSplitPattern.fires T g c = true) : OpSplitPattern.fires T g2 c2 = true := by
  rw [fires_iff] at h ⊢
  obtain ⟨padding, sh, sw, filter, input, fH, fW, H, W, D, hk1, hl, h2, e1, e2, e3, h3, e4, h4,
    h5, e5, e6, e7, h6⟩ := h
  obtain ⟨input2, e4b, ht0⟩ := h0 _ e4
  obtain ⟨filter2, e1b, ht1⟩ := h1 _ e1
  refine ⟨padding, sh, sw, filter2, input2, fH, fW, H, W, D, hk.trans hk1, ?_, h2, e1b, ?_, ?_,
    h3, e4b, ?_, ?_, ?_, ?_, ?_, h6⟩
  · unfold Operation.hasAttr at hl ⊢; rw [ha]; exact hl
  · rw [ht1]; exact e2
  · rw [ht1]; exact e3
  · rw [ht0]; exact h4
  · rw [hr]; exact h5
  · rw [hr]; exact e5
  · rw [hr]; exact e6
  · rw [hr]; exact e7

/-- A successful application of `RaiseStridedSlicePattern`: the operation is a
labelled strided slice that has not been raised, a convolution defines its
input, and the graph is the one the rewrite part leaves. -/
theorem raise_success_inv {g g2 : Graph} {s : Operation}
    (h : RaiseStridedSlicePattern.matchAndRewrite g s = some (.success, g2)) :
    ∃ (m1 m2 m3 m4 m5 : Int) (x : Value) (conv : Operation) (p : String) (sh sw : Nat)
      (convInput st : Value) (endIndex fW inN inH inD w oN oH oD : Int),
      s.kind = .stridedSlice m1 m2 m3 m4 m5 ∧ s.hasAttr opSplitLabel = true ∧
      s.hasAttr raisedStridedSliceLabel = false ∧ s.operands[0]? = some x ∧
      g.getDefiningOp x = some conv ∧ conv.kind = .conv2d p sh sw ∧
      conv.operands[0]? = some convInput ∧ s.operands[3]? = some st ∧
      convInput.type.shape[0]? = some inN ∧ convInput.type.shape[1]? = some inH ∧
      convInput.type.shape[3]? = some inD ∧ s.result.type.shape[2]? = some w ∧
      conv.result.type.shape[0]? = some oN ∧ conv.result.type.shape[1]? = some oH ∧
      conv.result.type.shape[3]? = some oD ∧
      g2 = RaiseStridedSlicePattern.rewrite g s conv convInput st m1 m2 m3 m4 m5 endIndex sw fW
        inN inH inD w oN oH oD := by
  unfold RaiseStridedSlicePattern.matchAndRewrite at h
  split at h
  · rename_i m1 m2 m3 m4 m5 hk
    have hl1 : s.hasAttr opSplitLabel = true := by
      cases hl : s.hasAttr opSplitLabel
      · simp [hl] at h
      · rfl
    rw [hl1] at h
    simp only [Bool.not_true, Bool.false_eq_true, if_false] at h
    have hl2 : s.hasAttr raisedStridedSliceLabel = false := by
      cases hl : s.hasAttr raisedStridedSliceLabel
      · rfl
      · simp [hl] at h
    rw [hl2] at h
    simp only [Bool.false_eq_true, if_false] at h
    obtain ⟨x, e1, h⟩ := Option.bind_eq_some.1 h
    obtain ⟨conv, e2, h⟩ := Option.bind_eq_some.1 h
    split at h
    · rename_i p sh sw hck
      obtain ⟨convInput, e3, h⟩ := Option.bind_eq_some.1 h
      obtain ⟨filter, e4, h⟩ := Option.bind_eq_some.1 h
      obtain ⟨fW, e5, h⟩ := Option.bind_eq_some.1 h
      obtain ⟨sliceEnd, e6, h⟩ := Option.bind_eq_some.1 h
      split at h
      · simp at h
      · rename_i attr hattr
        obtain ⟨endIndex, e7, h⟩ := Option.bind_eq_some.1 h
        obtain ⟨inH, e8, h⟩ := Option.bind_eq_some.1 h
        obtain ⟨inD, e9, h⟩ := Option.bind_eq_some.1 h
        obtain ⟨w, e10, h⟩ := Option.bind_eq_some.1 h
        obtain ⟨inN, e11, h⟩ := Option.bind_eq_some.1 h
        obtain ⟨st, e12, h⟩ := Option.bind_eq_some.1 h
        obtain ⟨oN, e13, h⟩ := Option.bind_eq_some.1 h
        obtain ⟨oH, e14, h⟩ := Option.bind_eq_some.1 h
        obtain ⟨oD, e15, h⟩ := Option.bind_eq_some.1 h
        simp only [Option.some.injEq, Prod.mk.injEq, true_and] at h
        exact ⟨m1, m2, m3, m4, m5, x, conv, p, sh, sw, convInput, st, endIndex, fW, inN, inH,
          inD, w, oN, oH, oD, hk, hl1, hl2, e1, e2, hck, e3, e12, e11, e8, e9, e10, e13, e14,
          e15, h.symm⟩
    · cases h
  · simp at h

/-- In a well-formed graph an operation is determined by its result identity. -/
theorem Graph.eq_of_id {g : Graph} (hg : g.WF) {p q : Operation} (hp : p ∈ g.ops)
    (hq : q ∈ g.ops) (h : p.result.id = q.result.id) : p = q := by
  have h1 := Graph.getDefiningOp_of_mem hg hp p.result rfl
  have h2 := Graph.getDefiningOp_of_mem hg hq p.result h
  rw [h1] at h2
  exact Option.some.inj h2

theorem Graph.mem_of_getDefiningOp {g : Graph} {v : Value} {o : Operation}
    (h : g.getDefiningOp v = some o) : o ∈ g.ops ∧ o.result.id = v.id := by
  unfold Graph.getDefiningOp at h
  exact ⟨List.mem_of_find?_eq_some h, by simpa using List.find?_some h⟩

/-- Erasing the operation with the identity of `c` removes one operation that
satisfies `P` when `c` does, and none otherwise. -/
theorem length_filter_erase (l : List Operation)
    (hp : l.Pairwise (fun a b => a.result.id ≠ b.result.id)) (c : Operation) (hc : c ∈ l)
    (P : Operation → Bool) :
    (l.filter P).length =
      ((l.filter (fun o => o.result.id != c.result.id)).filter P).length +
        (if P c then 1 else 0) := by
  induction l with
  | nil => simp at hc
  | cons a l ih =>
    rw [List.pairwise_cons] at hp
    rcases List.mem_cons.1 hc with rfl | hmem
    · have hrest : l.filter (fun o => o.result.id != c.result.id) = l := by
        rw [List.filter_eq_self]
        intro o ho
        have := hp.1 o ho
        simp only [bne_iff_ne, ne_eq]
        exact fun h => this h.symm
      simp only [List.filter_cons, bne_self_eq_false, Bool.false_eq_true, if_false, hrest]
      split_ifs <;> simp
    · have hne : (a.result.id != c.result.id) = true := by
        simpa using hp.1 c hmem
      have := ih hp.2 hmem
      simp only [List.filter_cons, hne, if_true]
      split_ifs <;> simp_all

/-- The operations of the graph `OpSplitPattern` leaves: the old ones without
the matched convolution, then the created ones, all with the result of the
convolution renamed to the result of the concatenation. -/
theorem split_step_ops (T : Int) (g : Graph) (c : Operation) (H W D S : Int)
    (hg : ∀ o ∈ g.ops, o.result.id < g.nextId) (hcid : c.result.id < g.nextId) :
    (OpSplitPattern.rewrite T g c H W D S).ops =
      (g.ops.filter (fun o => o.result.id != c.result.id)).map
          (fun o => o.replaceUsesOfWith c.result.id
            ⟨g.nextId + 2 + 3 * splitCount S T, c.result.type⟩) ++
        (splitCreatedOps T g c H W D S).map
          (fun o => o.replaceUsesOfWith c.result.id
            ⟨g.nextId + 2 + 3 * splitCount S T, c.result.type⟩) := by
  rw [rewrite_eq T g c H W D S hg, replaceOp_ops]
  simp only [List.filter_append, List.map_append]
  congr 2
  rw [List.filter_eq_self]
  intro o ho
  have := splitCreatedOps_fresh T g c H W D S o ho
  simp; omega

theorem rewrite_nextId (T : Int) (g : Graph) (c : Operation) (H W D S : Int)
    (hg : ∀ o ∈ g.ops, o.result.id < g.nextId) :
    (OpSplitPattern.rewrite T g c H W D S).nextId = g.nextId + 2 + 3 * splitCount S T + 1 := by
  rw [rewrite_eq T g c H W D S hg]
  rfl

/-- The operations of the graph `RaiseStridedSlicePattern` leaves. -/
theorem raise_step_ops (G : Graph) (hG : ∀ o ∈ G.ops, o.result.id < G.nextId)
    (s conv : Operation) (convInput st : Value) (m1 m2 m3 m4 m5 : Int)
    (endIndex sw fW inN inH inD outputWidth oN oH oD : Int) (hs : s.result.id < G.nextId) :
    (RaiseStridedSlicePattern.rewrite G s conv convInput st m1 m2 m3 m4 m5 endIndex sw fW
        inN inH inD outputWidth oN oH oD).ops =
      (G.ops.filter (fun o => o.result.id != s.result.id)).map
          (fun o => o.replaceUsesOfWith s.result.id
            ⟨G.nextId + 3, ⟨[oN, oH, outputWidth, oD], conv.result.type.elementType⟩⟩) ++
        [raisedEndOp G endIndex sw fW inH inD,
          raisedBeginOp G endIndex outputWidth sw fW,
          raisedSliceOp G (.stridedSlice m1 m2 m3 m4 m5) convInput st outputWidth sw fW
            inN inH inD,
          raisedConvOp G conv convInput outputWidth sw fW inN inH inD oN oH oD].map
          (fun o => o.replaceUsesOfWith s.result.id
            ⟨G.nextId + 3, ⟨[oN, oH, outputWidth, oD], conv.result.type.elementType⟩⟩) := by
  rw [raise_rewrite_eq G hG, replaceOp_ops]
  simp only [List.filter_append, List.map_append]
  congr 2
  rw [List.filter_eq_self]
  intro o ho
  simp only [List.mem_cons, List.mem_singleton, List.not_mem_nil, or_false] at ho
  rcases ho with rfl | rfl | rfl | rfl <;>
    simp [raisedEndOp, raisedBeginOp, raisedSliceOp, raisedConvOp] <;> omega

theorem raise_rewrite_nextId (G : Graph) (hG : ∀ o ∈ G.ops, o.result.id < G.nextId)
    (s conv : Operation) (convInput st : Value) (m1 m2 m3 m4 m5 : Int)
    (endIndex sw fW inN inH inD outputWidth oN oH oD : Int) :
    (RaiseStridedSlicePattern.rewrite G s conv convInput st m1 m2 m3 m4 m5 endIndex sw fW
        inN inH inD outputWidth oN oH oD).nextId = G.nextId + 4 := by
  rw [raise_rewrite_eq G hG]
  rfl

/-- Every convolution `OpSplitPattern` creates bears the split label. -/
theorem splitCreatedOps_conv_labelled (T : Int) (g : Graph) (c : Operation) (H W D S : Int) :
    ∀ o ∈ splitCreatedOps T g c H W D S, o.isConv2D = true → o.hasAttr opSplitLabel = true := by
  intro o ho hconv
  simp only [splitCreatedOps, List.mem_append, List.mem_cons, List.mem_singleton,
    List.mem_flatMap, List.mem_range, sliceOpsAt, beginOpAt, endOpAt, sliceOpAt,
    List.not_mem_nil, or_false] at ho
  rcases ho with ((ho | ho) | ⟨i, -, ho | ho | ho⟩) | ho
  · subst ho; exact (splitConvReplacement_facts g c).2.2.2
  all_goals (subst ho; simp [Operation.isConv2D] at hconv)

theorem fires_isConv {T : Int} {g : Graph} {c : Operation}
    (h : OpSplitPattern.fires T g c = true) :
    c.isConv2D = true ∧ c.hasAttr opSplitLabel = false := by
  rw [fires_iff] at h
  obtain ⟨padding, sh, sw, filter, input, fH, fW, H, W, D, hk, hl, -⟩ := h
  exact ⟨by simp [Operation.isConv2D, hk], hl⟩

theorem fires_of_success {T : Int} {g g2 : Graph} {c : Operation}
    (h : OpSplitPattern.matchAndRewrite T g c = some (.success, g2)) :
    OpSplitPattern.fires T g c = true := by
  unfold OpSplitPattern.fires
  rw [h]

/-- Renaming a value of the right type in the operands does not change the
verdict of `OpSplitPattern`. -/
theorem fires_replaceUsesOfWith (T : Int) (g g2 : Graph) (o : Operation) (id : Nat)
    (K : Value) (hty : ∀ v ∈ o.operands, v.id = id → v.type = K.type) :
    OpSplitPattern.fires T g2 (o.replaceUsesOfWith id K) = OpSplitPattern.fires T g o := by
  have hget : ∀ (i : Nat) (v : Value), o.operands[i]? = some v →
      ∃ v2, (o.replaceUsesOfWith id K).operands[i]? = some v2 ∧ v2.type = v.type := by
    intro i v hv
    refine ⟨if v.id = id then K else v, ?_, ?_⟩
    · simp [Operation.replaceUsesOfWith, List.getElem?_map, hv]
    · split_ifs with h
      · exact (hty v (List.getElem?_mem hv) h).symm
      · rfl
  have hget2 : ∀ (i : Nat) (v2 : Value), (o.replaceUsesOfWith id K).operands[i]? = some v2 →
      ∃ v, o.operands[i]? = some v ∧ v.type = v2.type := by
    intro i v2 hv
    simp only [Operation.replaceUsesOfWith, List.getElem?_map, Option.map_eq_some'] at hv
    obtain ⟨v, hv1, rfl⟩ := hv
    refine ⟨v, hv1, ?_⟩
    split_ifs with h
    · exact hty v (List.getElem?_mem hv1) h
    · rfl
  rw [Bool.eq_iff_iff]
  constructor
  · exact fires_of_same_types T g2 g _ o rfl rfl rfl (hget2 0) (hget2 1)
  · exact fires_of_same_types T g g2 o _ rfl rfl rfl (hget 0) (hget 1)

/-- A successful application of `OpSplitPattern` lowers by one the number of
operations that satisfy its guards. -/
theorem split_step_candidates {T : Int} {g g2 : Graph} {c : Operation} (hg : g.WF)
    (hty : g.Typed) (hmem : c ∈ g.ops)
    (hfire : OpSplitPattern.matchAndRewrite T g c = some (.success, g2)) :
    splitCandidates T g2 + 1 = splitCandidates T g := by
  obtain ⟨hconv, hlab, H, W, D, S, rfl⟩ := split_success_inv hfire
  have hcid := hg.1 c hmem
  unfold splitCandidates
  rw [split_step_ops T g c H W D S hg.1 hcid, List.filter_append, List.length_append,
    List.filter_map, List.filter_map, List.length_map, List.length_map]
  have hnew : (splitCreatedOps T g c H W D S).filter
      (OpSplitPattern.fires T (OpSplitPattern.rewrite T g c H W D S) ∘
        fun o => o.replaceUsesOfWith c.result.id
          ⟨g.nextId + 2 + 3 * splitCount S T, c.result.type⟩) = [] := by
    rw [List.filter_eq_nil_iff]
    intro o ho hf
    obtain ⟨h1, h2⟩ := fires_isConv hf
    have h3 := splitCreatedOps_conv_labelled T g c H W D S o ho h1
    have h4 : (o.replaceUsesOfWith c.result.id
        ⟨g.nextId + 2 + 3 * splitCount S T, c.result.type⟩).hasAttr opSplitLabel = true := h3
    rw [h4] at h2
    cases h2
  have hold : (g.ops.filter (fun o => o.result.id != c.result.id)).filter
      (OpSplitPattern.fires T (OpSplitPattern.rewrite T g c H W D S) ∘
        fun o => o.replaceUsesOfWith c.result.id
          ⟨g.nextId + 2 + 3 * splitCount S T, c.result.type⟩) =
      (g.ops.filter (fun o => o.result.id != c.result.id)).filter (OpSplitPattern.fires T g) := by
    apply List.filter_congr
    intro o ho
    have ho2 := List.mem_of_mem_filter ho
    exact fires_replaceUsesOfWith T g _ o _ _ (fun v hv hid => hty o ho2 v hv c hmem hid.symm)
  rw [hnew, hold, length_filter_erase g.ops hg.2 c hmem (OpSplitPattern.fires T g),
    fires_of_success hfire]
  simp

/-- A successful application of `RaiseStridedSlicePattern` lowers by one the
number of strided slices that bear the split label and not the raised label. -/
theorem raise_step_candidates {g g2 : Graph} {s : Operation} (hg : g.WF) (hmem : s ∈ g.ops)
    (hfire : RaiseStridedSlicePattern.matchAndRewrite g s = some (.success, g2)) :
    hoistCandidates g2 + 1 = hoistCandidates g := by
  obtain ⟨m1, m2, m3, m4, m5, x, conv, p, sh, sw, convInput, st, endIndex, fW, inN, inH,
    inD, w, oN, oH, oD, hk, hl1, hl2, e1, e2, hck, e3, e12, e11, e8, e9, e10, e13, e14,
    e15, rfl⟩ := raise_success_inv hfire
  have hsid := hg.1 s hmem
  have hPs : s.isUnraisedSplitSlice = true := by
    simp [Operation.isUnraisedSplitSlice, Operation.isStridedSlice, hk, hl1, hl2]
  have hcs : (raisedConvOp g conv convInput w sw fW inN inH inD oN oH oD).isStridedSlice =
      false := by
    simp [raisedConvOp, Operation.isStridedSlice, hck]
  unfold hoistCandidates
  rw [raise_step_ops g hg.1 s conv convInput st m1 m2 m3 m4 m5 endIndex sw fW inN inH inD w oN
    oH oD hsid, List.filter_append, List.length_append, List.filter_map, List.filter_map,
    List.length_map, List.length_map]
  have hcomp : (Operation.isUnraisedSplitSlice ∘ fun o : Operation =>
      o.replaceUsesOfWith s.result.id
        ⟨g.nextId + 3, ⟨[oN, oH, w, oD], conv.result.type.elementType⟩⟩) =
      Operation.isUnraisedSplitSlice := rfl
  rw [hcomp]
  have hnew : [raisedEndOp g endIndex sw fW inH inD, raisedBeginOp g endIndex w sw fW,
      raisedSliceOp g (.stridedSlice m1 m2 m3 m4 m5) convInput st w sw fW inN inH inD,
      raisedConvOp g conv convInput w sw fW inN inH inD oN oH oD].filter
      Operation.isUnraisedSplitSlice = [] := by
    rw [List.filter_eq_nil_iff]
    intro o ho
    simp only [List.mem_cons, List.mem_singleton, List.not_mem_nil, or_false] at ho
    rcases ho with rfl | rfl | rfl | rfl
    · simp [Operation.isUnraisedSplitSlice, Operation.isStridedSlice, raisedEndOp]
    · simp [Operation.isUnraisedSplitSlice, Operation.isStridedSlice, raisedBeginOp]
    · have : ([raisedStridedSliceLabel] : List String).contains opSplitLabel = false := by
        decide
      simp [Operation.isUnraisedSplitSlice, raisedSliceOp, Operation.hasAttr, this]
    · simp [Operation.isUnraisedSplitSlice, hcs]
  rw [hnew, length_filter_erase g.ops hg.2 s hmem Operation.isUnraisedSplitSlice, hPs]
  simp

/-! ## Well-formedness along the rewrites -/

/-- Every operand of an operation `OpSplitPattern` creates is an operand of the
matched convolution or the result of an operation it creates. -/
theorem splitCreatedOps_operands (T : Int) (g : Graph) (c : Operation) (H W D S : Int) :
    ∀ o ∈ splitCreatedOps T g c H W D S, ∀ v ∈ o.operands,
      v ∈ c.operands ∨ ∃ q ∈ splitCreatedOps T g c H W D S, q.result = v := by
  intro o ho v hv
  have hcr : splitConvReplacement g c ∈ splitCreatedOps T g c H W D S := by
    simp [splitCreatedOps]
  have hst : (⟨.constant [1, 1, 1, 1], [], ⟨g.nextId + 1, i32x4⟩, []⟩ : Operation) ∈
      splitCreatedOps T g c H W D S := by
    simp [splitCreatedOps]
  have hsl : ∀ i, i < splitCount S T → ∀ q ∈ sliceOpsAt (g.clone c).2
      (⟨.constant [1, 1, 1, 1], [], ⟨g.nextId + 1, i32x4⟩, []⟩) c.result H D
      (sliceWidthOf W (numSplitsOf S T)) (sliceWidthRemainderOf W (numSplitsOf S T))
      (g.nextId + 2) i, q ∈ splitCreatedOps T g c H W D S := by
    intro i hi q hq
    simp only [splitCreatedOps, List.mem_append, List.mem_flatMap, List.mem_range]
    exact Or.inl (Or.inr ⟨i, hi, hq⟩)
  simp only [splitCreatedOps, List.mem_append, List.mem_cons, List.mem_singleton,
    List.mem_flatMap, List.mem_range, List.not_mem_nil, or_false] at ho
  rcases ho with ((ho | ho) | ⟨i, hi, ho⟩) | ho
  · subst ho
    rw [(splitConvReplacement_facts g c).2.1] at hv
    exact Or.inl hv
  · subst ho; simp at hv
  · simp only [sliceOpsAt, List.mem_cons, List.mem_singleton, List.not_mem_nil, or_false] at ho
    rcases ho with ho | ho | ho
    · subst ho; simp [beginOpAt] at hv
    · subst ho; simp [endOpAt] at hv
    · subst ho
      simp only [sliceOpAt, List.mem_cons, List.mem_singleton, List.not_mem_nil, or_false] at hv
      right
      rcases hv with rfl | rfl | rfl | rfl
      · exact ⟨_, hcr, by simp [(splitConvReplacement_facts g c).2.2.1, Graph.clone]⟩
      · exact ⟨beginOpAt (sliceWidthOf W (numSplitsOf S T))
          (sliceWidthRemainderOf W (numSplitsOf S T)) (g.nextId + 2) i,
          hsl i hi _ (by simp [sliceOpsAt]), rfl⟩
      · exact ⟨endOpAt H D (sliceWidthOf W (numSplitsOf S T))
          (sliceWidthRemainderOf W (numSplitsOf S T)) (g.nextId + 2) i,
          hsl i hi _ (by simp [sliceOpsAt]), rfl⟩
      · exact ⟨_, hst, rfl⟩
  · subst ho
    simp only [List.mem_map, List.mem_range] at hv
    obtain ⟨i, hi, rfl⟩ := hv
    right
    exact ⟨sliceOpAt (g.clone c).2 (⟨.constant [1, 1, 1, 1], [], ⟨g.nextId + 1, i32x4⟩, []⟩)
      c.result H D (sliceWidthOf W (numSplitsOf S T))
      (sliceWidthRemainderOf W (numSplitsOf S T)) (g.nextId + 2) i,
      hsl i hi _ (by simp [sliceOpsAt]), rfl⟩

/-- Membership in the graph `OpSplitPattern` leaves. -/
theorem mem_rewrite_iff (T : Int) (g : Graph) (c : Operation) (H W D S : Int)
    (hg : ∀ o ∈ g.ops, o.result.id < g.nextId) (hcid : c.result.id < g.nextId)
    (o2 : Operation) :
    o2 ∈ (OpSplitPattern.rewrite T g c H W D S).ops ↔
      ∃ o, ((o ∈ g.ops ∧ o.result.id ≠ c.result.id) ∨ o ∈ splitCreatedOps T g c H W D S) ∧
        o2 = o.replaceUsesOfWith c.result.id
          ⟨g.nextId + 2 + 3 * splitCount S T, c.result.type⟩ := by
  rw [split_step_ops T g c H W D S hg hcid]
  simp only [List.mem_append, List.mem_map, List.mem_filter, bne_iff_ne, ne_eq]
  constructor
  · rintro (⟨o, ho, rfl⟩ | ⟨o, ho, rfl⟩)
    · exact ⟨o, Or.inl ho, rfl⟩
    · exact ⟨o, Or.inr ho, rfl⟩
  · rintro ⟨o, ho | ho, rfl⟩
    · exact Or.inl ⟨o, ho, rfl⟩
    · exact Or.inr ⟨o, ho, rfl⟩

theorem mem_replaceUsesOfWith {o : Operation} {id : Nat} {K v2 : Value}
    (h : v2 ∈ (o.replaceUsesOfWith id K).operands) :
    (v2 = K ∧ ∃ v ∈ o.operands, v.id = id) ∨ (v2 ∈ o.operands ∧ v2.id ≠ id) := by
  simp only [Operation.replaceUsesOfWith, List.mem_map] at h
  obtain ⟨v, hv, rfl⟩ := h
  split_ifs with hid
  · exact Or.inl ⟨rfl, v, hv, hid⟩
  · exact Or.inr ⟨hv, hid⟩

/-- Where the operands of the graph `OpSplitPattern` leaves come from: an
operand of an old operation, or the result of a created operation. -/
theorem split_step_sources (T : Int) {g : Graph} (c : Operation) (H W D S : Int) (hg : g.WF)
    (hcl : g.Closed) (hmem : c ∈ g.ops) :
    ∀ o2 ∈ (OpSplitPattern.rewrite T g c H W D S).ops, ∀ v2 ∈ o2.operands,
      (v2.id < g.nextId ∧ v2.id ≠ c.result.id ∧ ∃ o ∈ g.ops, v2 ∈ o.operands) ∨
      (∃ q ∈ splitCreatedOps T g c H W D S, q.result = v2) := by
  have hcid := hg.1 c hmem
  have hK : (⟨.concatenation 2 "NONE",
      (List.range (splitCount S T)).map
        (sliceValueAt c.result H D (sliceWidthOf W (numSplitsOf S T))
          (sliceWidthRemainderOf W (numSplitsOf S T)) (g.nextId + 2)),
      ⟨g.nextId + 2 + 3 * splitCount S T, c.result.type⟩, []⟩ : Operation) ∈
      splitCreatedOps T g c H W D S := by
    simp [splitCreatedOps]
  intro o2 ho2 v2 hv2
  obtain ⟨o, ho, rfl⟩ := (mem_rewrite_iff T g c H W D S hg.1 hcid o2).1 ho2
  rcases mem_replaceUsesOfWith hv2 with ⟨rfl, -⟩ | ⟨hv, hne⟩
  · exact Or.inr ⟨_, hK, rfl⟩
  · rcases ho with ⟨ho, -⟩ | ho
    · exact Or.inl ⟨hcl o ho v2 hv, hne, o, ho, hv⟩
    · rcases splitCreatedOps_operands T g c H W D S o ho v2 hv with hc | hq
      · exact Or.inl ⟨hcl c hmem v2 hc, hne, c, hmem, hc⟩
      · exact Or.inr hq

/-- The graph `OpSplitPattern` leaves is well formed and closed when the graph
it is applied to is. -/
theorem split_step_closed {T : Int} {g g2 : Graph} {c : Operation} (hg : g.WF)
    (hcl : g.Closed) (hmem : c ∈ g.ops)
    (hfire : OpSplitPattern.matchAndRewrite T g c = some (.success, g2)) :
    g2.WF ∧ g2.Closed ∧ g.nextId ≤ g2.nextId := by
  obtain ⟨hconv, hlab, H, W, D, S, rfl⟩ := split_success_inv hfire
  have hcid := hg.1 c hmem
  have hwf := rewrite_wf T hg c H W D S
  have hnext := rewrite_nextId T g c H W D S hg.1
  refine ⟨hwf, ?_, by omega⟩
  intro o2 ho2 v2 hv2
  rw [hnext]
  rcases split_step_sources T c H W D S hg hcl hmem o2 ho2 v2 hv2 with ⟨h1, -, -⟩ | ⟨q, hq, rfl⟩
  · omega
  · have := hwf.1 _ (mem_rewrite_of_created T g c H W D S hg.1 hcid hq)
    rw [hnext] at this
    exact this

/-- The graph `OpSplitPattern` leaves is typed when the graph it is applied to
is. -/
theorem split_step_typed {T : Int} {g g2 : Graph} {c : Operation} (hg : g.WF)
    (hcl : g.Closed) (hty : g.Typed) (hmem : c ∈ g.ops)
    (hfire : OpSplitPattern.matchAndRewrite T g c = some (.success, g2)) : g2.Typed := by
  obtain ⟨hconv, hlab, H, W, D, S, rfl⟩ := split_success_inv hfire
  have hcid := hg.1 c hmem
  have hwf := rewrite_wf T hg c H W D S
  intro o2 ho2 v2 hv2 p2 hp2 hid
  rcases split_step_sources T c H W D S hg hcl hmem o2 ho2 v2 hv2 with
    ⟨h1, h2, o, ho, hv⟩ | ⟨q, hq, rfl⟩
  · obtain ⟨p, hp, rfl⟩ := (mem_rewrite_iff T g c H W D S hg.1 hcid p2).1 hp2
    rcases hp with ⟨hp, -⟩ | hp
    · exact hty o ho v2 hv p hp hid
    · have := splitCreatedOps_fresh T g c H W D S p hp
      have h4 : p.result.id = v2.id := hid
      omega
  · have hq2 := mem_rewrite_of_created T g c H W D S hg.1 hcid hq
    have := Graph.eq_of_id hwf hp2 hq2 hid
    rw [this]
    rfl

/-! ## C13: the fixed-point loops terminate -/

theorem applySplits_cons {T : Int} {g g1 : Graph} {op : Operation} {rest : List Operation}
    (h : applySplits T g (op :: rest) = some g1) :
    ∃ g2, op ∈ g.ops ∧ OpSplitPattern.matchAndRewrite T g op = some (.success, g2) ∧
      applySplits T g2 rest = some g1 := by
  rw [applySplits] at h
  split_ifs at h with hmem
  split at h
  · rename_i g2 heq
    exact ⟨g2, hmem, heq, h⟩
  · cases h

theorem applyRaises_cons {g g1 : Graph} {op : Operation} {rest : List Operation}
    (h : applyRaises g (op :: rest) = some g1) :
    ∃ g2, op ∈ g.ops ∧ RaiseStridedSlicePattern.matchAndRewrite g op = some (.success, g2) ∧
      applyRaises g2 rest = some g1 := by
  rw [applyRaises] at h
  split_ifs at h with hmem
  split at h
  · rename_i g2 heq
    exact ⟨g2, hmem, heq, h⟩
  · cases h

theorem applySplits_candidates (T : Int) (l : List Operation) :
    ∀ g g1 : Graph, g.WF → g.Closed → g.Typed → applySplits T g l = some g1 →
      splitCandidates T g1 + l.length = splitCandidates T g := by
  induction l with
  | nil =>
    intro g g1 _ _ _ h
    rw [applySplits] at h
    cases h
    rfl
  | cons op rest ih =>
    intro g g1 hg hcl hty h
    obtain ⟨g2, hmem, hfire, hrest⟩ := applySplits_cons h
    obtain ⟨hg2, hcl2, -⟩ := split_step_closed hg hcl hmem hfire
    have hty2 := split_step_typed hg hcl hty hmem hfire
    have h1 := ih g2 g1 hg2 hcl2 hty2 hrest
    have h2 := split_step_candidates hg hty hmem hfire
    rw [List.length_cons]
    omega

theorem raise_step_wf {g g2 : Graph} {s : Operation} (hg : g.WF)
    (hfire : RaiseStridedSlicePattern.matchAndRewrite g s = some (.success, g2)) : g2.WF := by
  obtain ⟨m1, m2, m3, m4, m5, x, conv, p, sh, sw, convInput, st, endIndex, fW, inN, inH,
    inD, w, oN, oH, oD, -, -, -, -, -, -, -, -, -, -, -, -, -, -, -, rfl⟩ :=
    raise_success_inv hfire
  exact raise_rewrite_wf hg _ _ _ _ _ _ _ _ _ _ _ _ _ _ _ _ _ _ _

theorem applyRaises_candidates (l : List Operation) :
    ∀ g g1 : Graph, g.WF → applyRaises g l = some g1 →
      hoistCandidates g1 + l.length = hoistCandidates g := by
  induction l with
  | nil =>
    intro g g1 _ h
    rw [applyRaises] at h
    cases h
    rfl
  | cons op rest ih =>
    intro g g1 hg h
    obtain ⟨g2, hmem, hfire, hrest⟩ := applyRaises_cons h
    have h1 := ih g2 g1 (raise_step_wf hg hfire) hrest
    have h2 := raise_step_candidates hg hmem hfire
    rw [List.length_cons]
    omega

/-- C13: in a run of the driver, a sequence of successful applications of one
pattern to operations of the graph, every application of `OpSplitPattern` lowers
by one the number of operations that satisfy its guards, and every application
of `RaiseStridedSlicePattern` lowers by one the number of strided slices that
bear the split label and not the raised label; so a run of the first from a
well-formed graph `g` has at most `splitCandidates g` applications and a run of
the second from `h` at most `hoistCandidates h`. -/
theorem rewrites_decrease_candidates (T : Int) (g g1 : Graph) (ls : List Operation)
    (h h1 : Graph) (lh : List Operation)
    (hg : g.WF) (hcl : g.Closed) (hty : g.Typed) (hrun : applySplits T g ls = some g1)
    (hh : h.WF) (hrun2 : applyRaises h lh = some h1) :
    splitCandidates T g1 + ls.length = splitCandidates T g ∧
    ls.length ≤ splitCandidates T g ∧
    hoistCandidates h1 + lh.length = hoistCandidates h ∧
    lh.length ≤ hoistCandidates h := by
  have e1 := applySplits_candidates T ls g g1 hg hcl hty hrun
  have e2 := applyRaises_candidates lh h h1 hh hrun2
  omega

theorem rewrites_decrease_candidates_witness :
    exampleGraph2.WF ∧ exampleGraph2.Closed ∧ exampleGraph2.Typed ∧
    applySplits splitTensorSize exampleGraph2 [exampleConv2] = some exampleSplitGraph2 ∧
    exampleSplitGraph2.WF ∧
    applyRaises exampleSplitGraph2 exampleSlices2 = some exampleRaisedGraph2 ∧
    splitCandidates splitTensorSize exampleSplitGraph2 + [exampleConv2].length =
      splitCandidates splitTensorSize exampleGraph2 ∧
    [exampleConv2].length ≤ splitCandidates splitTensorSize exampleGraph2 ∧
    hoistCandidates exampleRaisedGraph2 + exampleSlices2.length =
      hoistCandidates exampleSplitGraph2 ∧
    exampleSlices2.length ≤ hoistCandidates exampleSplitGraph2 :=
  ⟨by decide, by decide, by decide, by decide, by decide, by decide,
    rewrites_decrease_candidates splitTensorSize exampleGraph2 exampleSplitGraph2 [exampleConv2]
      exampleSplitGraph2 exampleRaisedGraph2 exampleSlices2 (by decide) (by decide) (by decide)
      (by decide) (by decide) (by decide)⟩

/-! ## Invariants of the pass -/

theorem splitCreatedOps_conv_operands (T : Int) (g : Graph) (c : Operation) (H W D S : Int) :
    ∀ o ∈ splitCreatedOps T g c H W D S, o.isConv2D = true → o.operands = c.operands := by
  intro o ho hconv
  simp only [splitCreatedOps, List.mem_append, List.mem_cons, List.mem_singleton,
    List.mem_flatMap, List.mem_range, sliceOpsAt, beginOpAt, endOpAt, sliceOpAt,
    List.not_mem_nil, or_false] at ho
  rcases ho with ((ho | ho) | ⟨i, -, ho | ho | ho⟩) | ho
  · subst ho; exact (splitConvReplacement_facts g c).2.1
  all_goals (subst ho; simp [Operation.isConv2D] at hconv)

theorem splitCreatedOps_slice_input (T : Int) (g : Graph) (c : Operation) (H W D S : Int)
    (hc : c.isConv2D = true) :
    ∀ s ∈ splitCreatedOps T g c H W D S, s.isStridedSlice = true →
      ∀ x, s.operands[0]? = some x → x.id = g.nextId := by
  intro o ho hsl x hx
  simp only [splitCreatedOps, List.mem_append, List.mem_cons, List.mem_singleton,
    List.mem_flatMap, List.mem_range, sliceOpsAt, beginOpAt, endOpAt, sliceOpAt,
    List.not_mem_nil, or_false] at ho
  rcases ho with ((ho | ho) | ⟨i, -, ho | ho | ho⟩) | ho
  · subst ho
    have hk := (splitConvReplacement_facts g c).1
    unfold Operation.isConv2D at hc
    unfold Operation.isStridedSlice at hsl
    rw [hk] at hsl
    split at hc <;> simp_all
  · subst ho; simp [Operation.isStridedSlice] at hsl
  · subst ho; simp [Operation.isStridedSlice] at hsl
  · subst ho; simp [Operation.isStridedSlice] at hsl
  · subst ho
    simp only [List.getElem?_cons_zero, Option.some.injEq, Graph.clone] at hx
    subst hx
    rfl
  · subst ho; simp [Operation.isStridedSlice] at hsl

theorem not_conv_of_slice {o : Operation} (h : o.isStridedSlice = true) :
    o.isConv2D = false := by
  unfold Operation.isStridedSlice at h
  unfold Operation.isConv2D
  split at h
  · rename_i heq
    rw [heq]
  · cases h

/-- The two label invariants survive an application of `OpSplitPattern`. -/
theorem split_step_labels {T : Int} {g g2 : Graph} {c : Operation} (hg : g.WF)
    (hcl : g.Closed) (h1 : g.SliceInputsLabelled) (h2 : g.SlicesFeedNoConv) (hmem : c ∈ g.ops)
    (hfire : OpSplitPattern.matchAndRewrite T g c = some (.success, g2)) :
    g2.SliceInputsLabelled ∧ g2.SlicesFeedNoConv := by
  obtain ⟨hconv, hlab, H, W, D, S, rfl⟩ := split_success_inv hfire
  have hcid := hg.1 c hmem
  have hwf := rewrite_wf T hg c H W D S
  have hK : (⟨.concatenation 2 "NONE",
      (List.range (splitCount S T)).map
        (sliceValueAt c.result H D (sliceWidthOf W (numSplitsOf S T))
          (sliceWidthRemainderOf W (numSplitsOf S T)) (g.nextId + 2)),
      ⟨g.nextId + 2 + 3 * splitCount S T, c.result.type⟩, []⟩ : Operation) ∈
      splitCreatedOps T g c H W D S := by
    simp [splitCreatedOps]
  constructor
  · intro s2 hs2 hsl hsa x2 hx2 p2 hp2 hid hpc
    obtain ⟨s1, hs1, rfl⟩ := (mem_rewrite_iff T g c H W D S hg.1 hcid s2).1 hs2
    obtain ⟨p1, hp1, rfl⟩ := (mem_rewrite_iff T g c H W D S hg.1 hcid p2).1 hp2
    rcases hp1 with ⟨hp1, -⟩ | hp1
    · have hpid := hg.1 p1 hp1
      simp only [Operation.replaceUsesOfWith, List.getElem?_map, Option.map_eq_some'] at hx2
      obtain ⟨x, hx, rfl⟩ := hx2
      have hid2 : p1.result.id = (if x.id = c.result.id then
          (⟨g.nextId + 2 + 3 * splitCount S T, c.result.type⟩ : Value) else x).id := hid
      split_ifs at hid2 with hxc
      · simp only at hid2; omega
      · rcases hs1 with ⟨hs1, -⟩ | hs1
        · exact h1 s1 hs1 hsl hsa x hx p1 hp1 hid2 hpc
        · have := splitCreatedOps_slice_input T g c H W D S hconv s1 hs1 hsl x hx
          omega
    · exact splitCreatedOps_conv_labelled T g c H W D S p1 hp1 hpc
  · intro o2 ho2 hoc v2 hv2 s2 hs2 hsl hsa
    obtain ⟨o1, ho1, rfl⟩ := (mem_rewrite_iff T g c H W D S hg.1 hcid o2).1 ho2
    obtain ⟨s1, hs1, rfl⟩ := (mem_rewrite_iff T g c H W D S hg.1 hcid s2).1 hs2
    have hv : ∃ o ∈ g.ops, o.isConv2D = true ∧
        v2 ∈ (o.replaceUsesOfWith c.result.id
          ⟨g.nextId + 2 + 3 * splitCount S T, c.result.type⟩).operands := by
      rcases ho1 with ⟨ho1, -⟩ | ho1
      · exact ⟨o1, ho1, hoc, hv2⟩
      · refine ⟨c, hmem, hconv, ?_⟩
        have := splitCreatedOps_conv_operands T g c H W D S o1 ho1 hoc
        simp only [Operation.replaceUsesOfWith] at hv2 ⊢
        rw [← this]
        exact hv2
    obtain ⟨o, ho, hoc2, hv3⟩ := hv
    show v2.id ≠ s1.result.id
    rcases mem_replaceUsesOfWith hv3 with ⟨rfl, -⟩ | ⟨hv, hne⟩
    · rcases hs1 with ⟨hs1, -⟩ | hs1
      · have := hg.1 s1 hs1
        simp only; omega
      · intro heq
        have e := Graph.eq_of_id hwf (mem_rewrite_of_created T g c H W D S hg.1 hcid hs1)
          (mem_rewrite_of_created T g c H W D S hg.1 hcid hK) heq.symm
        have e2 := congrArg Operation.isStridedSlice e
        have e3 : s1.isStridedSlice = true := hsl
        simp only [Operation.replaceUsesOfWith, Operation.isStridedSlice] at e2 e3
        rw [e3] at e2
        cases e2
    · rcases hs1 with ⟨hs1, -⟩ | hs1
      · exact h2 o ho hoc2 v2 hv s1 hs1 hsl hsa
      · have := splitCreatedOps_fresh T g c H W D S s1 hs1
        have := hcl o ho v2 hv
        omega

/-- What `RaiseStridedSlicePattern` creates: two constants, a strided slice
without the split label, and a copy of the convolution that keeps its labels
and operands but for the first, the result of the new slice. -/
theorem raise_created_facts (G : Graph) (conv : Operation) (convInput st : Value)
    (m1 m2 m3 m4 m5 : Int) (endIndex sw fW inN inH inD w oN oH oD : Int)
    (hconv : conv.isConv2D = true) :
    ∀ o ∈ [raisedEndOp G endIndex sw fW inH inD, raisedBeginOp G endIndex w sw fW,
        raisedSliceOp G (.stridedSlice m1 m2 m3 m4 m5) convInput st w sw fW inN inH inD,
        raisedConvOp G conv convInput w sw fW inN inH inD oN oH oD],
      G.nextId ≤ o.result.id ∧ o.result.id < G.nextId + 4 ∧
      (o.isStridedSlice = true → o.hasAttr opSplitLabel = false) ∧
      (o.isConv2D = true → o.attrs = conv.attrs ∧ ∀ v ∈ o.operands,
        v ∈ conv.operands ∨ v.id = G.nextId + 2) ∧
      (∀ v ∈ o.operands, v ∈ conv.operands ∨ v = convInput ∨ v = st ∨
        (G.nextId ≤ v.id ∧ v.id < G.nextId + 3)) := by
  intro o ho
  simp only [List.mem_cons, List.mem_singleton, List.not_mem_nil, or_false] at ho
  have hset : ∀ v ∈ (raisedConvOp G conv convInput w sw fW inN inH inD oN oH oD).operands,
      v ∈ conv.operands ∨ v.id = G.nextId + 2 := by
    intro v hv
    rcases List.mem_or_eq_of_mem_set hv with h | h
    · exact Or.inl h
    · exact Or.inr (by rw [h])
  rcases ho with rfl | rfl | rfl | rfl
  · refine ⟨by simp [raisedEndOp], by simp [raisedEndOp], ?_, ?_, ?_⟩
    · intro h; simp [raisedEndOp, Operation.isStridedSlice] at h
    · intro h; simp [raisedEndOp, Operation.isConv2D] at h
    · intro v hv; simp [raisedEndOp] at hv
  · refine ⟨by simp [raisedBeginOp], by simp [raisedBeginOp], ?_, ?_, ?_⟩
    · intro h; simp [raisedBeginOp, Operation.isStridedSlice] at h
    · intro h; simp [raisedBeginOp, Operation.isConv2D] at h
    · intro v hv; simp [raisedBeginOp] at hv
  · refine ⟨by simp [raisedSliceOp], by simp [raisedSliceOp], ?_, ?_, ?_⟩
    · intro _
      show ([raisedStridedSliceLabel] : List String).contains opSplitLabel = false
      decide
    · intro h; simp [raisedSliceOp, Operation.isConv2D] at h
    · intro v hv
      simp only [raisedSliceOp, List.mem_cons, List.mem_singleton, List.not_mem_nil,
        or_false] at hv
      rcases hv with rfl | rfl | rfl | rfl
      · exact Or.inr (Or.inl rfl)
      · exact Or.inr (Or.inr (Or.inr ⟨by simp, by simp⟩))
      · exact Or.inr (Or.inr (Or.inr ⟨by simp, by simp⟩))
      · exact Or.inr (Or.inr (Or.inl rfl))
  · refine ⟨by simp [raisedConvOp], by simp [raisedConvOp], ?_, ?_, ?_⟩
    · intro h
      have h2 : conv.isStridedSlice = true := h
      rw [not_conv_of_slice h2] at hconv
      cases hconv
    · intro _
      exact ⟨rfl, hset⟩
    · intro v hv
      rcases hset v hv with h | h
      · exact Or.inl h
      · exact Or.inr (Or.inr (Or.inr ⟨by omega, by omega⟩))

/-- Membership in the graph `RaiseStridedSlicePattern` leaves. -/
theorem mem_raise_iff (G : Graph) (hG : ∀ o ∈ G.ops, o.result.id < G.nextId)
    (s conv : Operation) (convInput st : Value) (m1 m2 m3 m4 m5 : Int)
    (endIndex sw fW inN inH inD w oN oH oD : Int) (hs : s.result.id < G.nextId)
    (o2 : Operation) :
    o2 ∈ (RaiseStridedSlicePattern.rewrite G s conv convInput st m1 m2 m3 m4 m5 endIndex sw fW
        inN inH inD w oN oH oD).ops ↔
      ∃ o, ((o ∈ G.ops ∧ o.result.id ≠ s.result.id) ∨
          o ∈ [raisedEndOp G endIndex sw fW inH inD, raisedBeginOp G endIndex w sw fW,
            raisedSliceOp G (.stridedSlice m1 m2 m3 m4 m5) convInput st w sw fW inN inH inD,
            raisedConvOp G conv convInput w sw fW inN inH inD oN oH oD]) ∧
        o2 = o.replaceUsesOfWith s.result.id
          ⟨G.nextId + 3, ⟨[oN, oH, w, oD], conv.result.type.elementType⟩⟩ := by
  rw [raise_step_ops G hG s conv convInput st m1 m2 m3 m4 m5 endIndex sw fW inN inH inD w oN oH
    oD hs]
  simp only [List.mem_append, List.mem_map, List.mem_filter, bne_iff_ne, ne_eq]
  constructor
  · rintro (⟨o, ho, rfl⟩ | ⟨o, ho, rfl⟩)
    · exact ⟨o, Or.inl ho, rfl⟩
    · exact ⟨o, Or.inr ho, rfl⟩
  · rintro ⟨o, ho | ho, rfl⟩
    · exact Or.inl ⟨o, ho, rfl⟩
    · exact Or.inr ⟨o, ho, rfl⟩

/-- What an application of `RaiseStridedSlicePattern` keeps: well-formedness,
closedness, the two label invariants, that `OpSplitPattern` matches nothing,
and that the operations created since `base` are labelled convolutions,
unlabelled slices or neither. -/
theorem raise_step_invariants {T : Int} {g g2 : Graph} {s : Operation} (base : Nat)
    (hg : g.WF) (hcl : g.Closed) (h1 : g.SliceInputsLabelled) (h2 : g.SlicesFeedNoConv)
    (hS : ∀ o ∈ g.ops, OpSplitPattern.fires T g o = false)
    (hB : ∀ o ∈ g.ops, base ≤ o.result.id →
      (o.isConv2D = true → o.hasAttr opSplitLabel = true) ∧
      (o.isStridedSlice = true → o.hasAttr opSplitLabel = false))
    (hmem : s ∈ g.ops)
    (hfire : RaiseStridedSlicePattern.matchAndRewrite g s = some (.success, g2)) :
    g2.WF ∧ g2.Closed ∧ g2.SliceInputsLabelled ∧ g2.SlicesFeedNoConv ∧
    (∀ o ∈ g2.ops, OpSplitPattern.fires T g2 o = false) ∧
    (∀ o ∈ g2.ops, base ≤ o.result.id →
      (o.isConv2D = true → o.hasAttr opSplitLabel = true) ∧
      (o.isStridedSlice = true → o.hasAttr opSplitLabel = false)) := by
  have hwf := raise_step_wf hg hfire
  obtain ⟨m1, m2, m3, m4, m5, x, conv, p, sh, sw, convInput, st, endIndex, fW, inN, inH,
    inD, w, oN, oH, oD, hk, hl1, hl2, e1, e2, hck, e3, e12, e11, e8, e9, e10, e13, e14,
    e15, rfl⟩ := raise_success_inv hfire
  have hsid := hg.1 s hmem
  have hssl : s.isStridedSlice = true := by simp [Operation.isStridedSlice, hk]
  obtain ⟨hcmem, hcid⟩ := Graph.mem_of_getDefiningOp e2
  have hcc : conv.isConv2D = true := by simp [Operation.isConv2D, hck]
  have hclab : conv.hasAttr opSplitLabel = true := h1 s hmem hssl hl1 x e1 conv hcmem hcid hcc
  have hnew := raise_created_facts g conv convInput st m1 m2 m3 m4 m5 endIndex sw fW inN inH
    inD w oN oH oD hcc
  have hmemiff := mem_raise_iff g hg.1 s conv convInput st m1 m2 m3 m4 m5 endIndex sw fW inN
    inH inD w oN oH oD hsid
  have hnext := raise_rewrite_nextId g hg.1 s conv convInput st m1 m2 m3 m4 m5 endIndex sw fW
    inN inH inD w oN oH oD
  have hci : convInput ∈ conv.operands := List.getElem?_mem e3
  have hsti : st ∈ s.operands := List.getElem?_mem e12
  -- the labelled slices of the new graph are old ones
  have hslice : ∀ s2 ∈ (RaiseStridedSlicePattern.rewrite g s conv convInput st m1 m2 m3 m4 m5
      endIndex sw fW inN inH inD w oN oH oD).ops, s2.isStridedSlice = true →
      s2.hasAttr opSplitLabel = true → ∃ s1 ∈ g.ops, s1.isStridedSlice = true ∧
        s1.hasAttr opSplitLabel = true ∧ s2 = s1.replaceUsesOfWith s.result.id
          ⟨g.nextId + 3, ⟨[oN, oH, w, oD], conv.result.type.elementType⟩⟩ := by
    intro s2 hs2 hsl hsa
    obtain ⟨s1, hs1, rfl⟩ := (hmemiff s2).1 hs2
    rcases hs1 with ⟨hs1, -⟩ | hs1
    · exact ⟨s1, hs1, hsl, hsa, rfl⟩
    · have := (hnew s1 hs1).2.2.1 hsl
      have hsa2 : s1.hasAttr opSplitLabel = true := hsa
      rw [this] at hsa2
      cases hsa2
  -- the convolutions of the new graph read what old convolutions read, or the new slice
  have hconvs : ∀ o2 ∈ (RaiseStridedSlicePattern.rewrite g s conv convInput st m1 m2 m3 m4 m5
      endIndex sw fW inN inH inD w oN oH oD).ops, o2.isConv2D = true →
      ∀ v2 ∈ o2.operands, (∃ o ∈ g.ops, o.isConv2D = true ∧ v2 ∈ o.operands) ∨
        v2.id = g.nextId + 2 := by
    intro o2 ho2 hoc v2 hv2
    obtain ⟨o1, ho1, rfl⟩ := (hmemiff o2).1 ho2
    have hsrc : (∃ o ∈ g.ops, o.isConv2D = true ∧
        v2 ∈ (o.replaceUsesOfWith s.result.id
          ⟨g.nextId + 3, ⟨[oN, oH, w, oD], conv.result.type.elementType⟩⟩).operands) ∨
        v2.id = g.nextId + 2 := by
      rcases ho1 with ⟨ho1, -⟩ | ho1
      · exact Or.inl ⟨o1, ho1, hoc, hv2⟩
      · obtain ⟨-, hops⟩ := (hnew o1 ho1).2.2.2.1 hoc
        simp only [Operation.replaceUsesOfWith, List.mem_map] at hv2
        obtain ⟨v, hv, rfl⟩ := hv2
        rcases hops v hv with h | h
        · have hne := h2 conv hcmem hcc v h s hmem hssl hl1
          rw [if_neg hne]
          left
          refine ⟨conv, hcmem, hcc, ?_⟩
          simp only [Operation.replaceUsesOfWith, List.mem_map]
          exact ⟨v, h, by rw [if_neg hne]⟩
        · have hne : ¬ v.id = s.result.id := by omega
          rw [if_neg hne]
          exact Or.inr h
    rcases hsrc with ⟨o, ho, hoc2, hv3⟩ | h
    · left
      rcases mem_replaceUsesOfWith hv3 with ⟨-, v, hv, hid⟩ | ⟨hv, -⟩
      · exact absurd hid (h2 o ho hoc2 v hv s hmem hssl hl1)
      · exact ⟨o, ho, hoc2, hv⟩
    · exact Or.inr h
  refine ⟨hwf, ?_, ?_, ?_, ?_, ?_⟩
  · -- closed
    intro o2 ho2 v2 hv2
    rw [hnext]
    obtain ⟨o1, ho1, rfl⟩ := (hmemiff o2).1 ho2
    rcases mem_replaceUsesOfWith hv2 with ⟨rfl, -⟩ | ⟨hv, -⟩
    · simp
    · rcases ho1 with ⟨ho1, -⟩ | ho1
      · have := hcl o1 ho1 v2 hv; omega
      · rcases (hnew o1 ho1).2.2.2.2 v2 hv with h | rfl | rfl | h
        · have := hcl conv hcmem v2 h; omega
        · have := hcl conv hcmem _ hci; omega
        · have := hcl s hmem _ hsti; omega
        · omega
  · -- the inputs of labelled slices
    intro s2 hs2 hsl hsa x2 hx2 p2 hp2 hid hpc
    obtain ⟨s1, hs1, hsl1, hsa1, rfl⟩ := hslice s2 hs2 hsl hsa
    obtain ⟨p1, hp1, rfl⟩ := (hmemiff p2).1 hp2
    rcases hp1 with ⟨hp1, -⟩ | hp1
    · have hpid := hg.1 p1 hp1
      simp only [Operation.replaceUsesOfWith, List.getElem?_map, Option.map_eq_some'] at hx2
      obtain ⟨x1, hx1, rfl⟩ := hx2
      have hid2 : p1.result.id = (if x1.id = s.result.id then
          (⟨g.nextId + 3, ⟨[oN, oH, w, oD], conv.result.type.elementType⟩⟩ : Value)
          else x1).id := hid
      split_ifs at hid2 with hxc
      · simp only at hid2; omega
      · exact h1 s1 hs1 hsl1 hsa1 x1 hx1 p1 hp1 hid2 hpc
    · obtain ⟨ha, -⟩ := (hnew p1 hp1).2.2.2.1 hpc
      show (p1.attrs).contains opSplitLabel = true
      rw [ha]
      exact hclab
  · -- no convolution reads a labelled slice
    intro o2 ho2 hoc v2 hv2 s2 hs2 hsl hsa
    obtain ⟨s1, hs1, hsl1, hsa1, rfl⟩ := hslice s2 hs2 hsl hsa
    show v2.id ≠ s1.result.id
    rcases hconvs o2 ho2 hoc v2 hv2 with ⟨o, ho, hoc2, hv⟩ | h
    · exact h2 o ho hoc2 v2 hv s1 hs1 hsl1 hsa1
    · have := hg.1 s1 hs1
      omega
  · -- the split pattern still matches nothing
    intro o2 ho2
    by_contra hf
    rw [Bool.not_eq_false] at hf
    obtain ⟨hoc, hol⟩ := fires_isConv hf
    obtain ⟨o1, ho1, rfl⟩ := (hmemiff o2).1 ho2
    rcases ho1 with ⟨ho1, -⟩ | ho1
    · have := fires_replaceUsesOfWith T g (RaiseStridedSlicePattern.rewrite g s conv convInput
        st m1 m2 m3 m4 m5 endIndex sw fW inN inH inD w oN oH oD) o1 s.result.id
        ⟨g.nextId + 3, ⟨[oN, oH, w, oD], conv.result.type.elementType⟩⟩
        (fun v hv hid => absurd hid (h2 o1 ho1 hoc v hv s hmem hssl hl1))
      rw [this, hS o1 ho1] at hf
      cases hf
    · obtain ⟨ha, -⟩ := (hnew o1 ho1).2.2.2.1 hoc
      have hol2 : (o1.attrs).contains opSplitLabel = false := hol
      rw [ha] at hol2
      have : conv.attrs.contains opSplitLabel = true := hclab
      rw [this] at hol2
      cases hol2
  · -- the operations created since `base`
    intro o2 ho2 hb
    obtain ⟨o1, ho1, rfl⟩ := (hmemiff o2).1 ho2
    rcases ho1 with ⟨ho1, -⟩ | ho1
    · exact hB o1 ho1 hb
    · refine ⟨fun hoc => ?_, fun hsl => (hnew o1 ho1).2.2.1 hsl⟩
      obtain ⟨ha, -⟩ := (hnew o1 ho1).2.2.2.1 hoc
      show (o1.attrs).contains opSplitLabel = true
      rw [ha]
      exact hclab

/-! ## C12: the pass is idempotent -/

theorem applySplits_invariants (T : Int) (l : List Operation) :
    ∀ g g1 : Graph, g.WF → g.Closed → g.SliceInputsLabelled → g.SlicesFeedNoConv →
      applySplits T g l = some g1 →
      g1.WF ∧ g1.Closed ∧ g1.SliceInputsLabelled ∧ g1.SlicesFeedNoConv := by
  induction l with
  | nil =>
    intro g g1 hg hcl h1 h2 h
    rw [applySplits] at h
    cases h
    exact ⟨hg, hcl, h1, h2⟩
  | cons op rest ih =>
    intro g g1 hg hcl h1 h2 h
    obtain ⟨g2, hmem, hfire, hrest⟩ := applySplits_cons h
    obtain ⟨hg2, hcl2, -⟩ := split_step_closed hg hcl hmem hfire
    obtain ⟨h12, h22⟩ := split_step_labels hg hcl h1 h2 hmem hfire
    exact ih g2 g1 hg2 hcl2 h12 h22 hrest

theorem applyRaises_invariants (T : Int) (base : Nat) (l : List Operation) :
    ∀ g g1 : Graph, g.WF → g.Closed → g.SliceInputsLabelled → g.SlicesFeedNoConv →
      (∀ o ∈ g.ops, OpSplitPattern.fires T g o = false) →
      (∀ o ∈ g.ops, base ≤ o.result.id →
        (o.isConv2D = true → o.hasAttr opSplitLabel = true) ∧
        (o.isStridedSlice = true → o.hasAttr opSplitLabel = false)) →
      applyRaises g l = some g1 →
      (∀ o ∈ g1.ops, OpSplitPattern.fires T g1 o = false) ∧
      (∀ o ∈ g1.ops, base ≤ o.result.id →
        (o.isConv2D = true → o.hasAttr opSplitLabel = true) ∧
        (o.isStridedSlice = true → o.hasAttr opSplitLabel = false)) := by
  induction l with
  | nil =>
    intro g g1 _ _ _ _ hS hB h
    rw [applyRaises] at h
    cases h
    exact ⟨hS, hB⟩
  | cons op rest ih =>
    intro g g1 hg hcl h1 h2 hS hB h
    obtain ⟨g2, hmem, hfire, hrest⟩ := applyRaises_cons h
    obtain ⟨a1, a2, a3, a4, a5, a6⟩ := raise_step_invariants base hg hcl h1 h2 hS hB hmem hfire
    exact ih g2 g1 a1 a2 a3 a4 a5 a6 hrest

/-- On an operation that is not an unlabelled convolution `OpSplitPattern`
declines. -/
theorem split_declines_labelled (T : Int) (g : Graph) (o : Operation)
    (h : o.isConv2D = true → o.hasAttr opSplitLabel = true) :
    OpSplitPattern.matchAndRewrite T g o = some (.failure, g) := by
  unfold OpSplitPattern.matchAndRewrite
  split
  · rename_i padding sh sw hk
    rw [h (by simp [Operation.isConv2D, hk])]
    rfl
  · rfl

/-- On an operation that is not a strided slice with the split label
`RaiseStridedSlicePattern` declines. -/
theorem raise_declines_unlabelled (g : Graph) (o : Operation)
    (h : o.isStridedSlice = true → o.hasAttr opSplitLabel = false) :
    RaiseStridedSlicePattern.matchAndRewrite g o = some (.failure, g) := by
  unfold RaiseStridedSlicePattern.matchAndRewrite
  split
  · rename_i m1 m2 m3 m4 m5 hk
    rw [h (by simp [Operation.isStridedSlice, hk])]
    rfl
  · rfl

theorem failure_graph_eq {r : LogicalResult} {g g3 : Graph}
    (h : some (LogicalResult.failure, g) = some (r, g3)) : g3 = g := by
  simp only [Option.some.injEq, Prod.mk.injEq] at h
  exact h.2.symm

/-- When `OpSplitPattern` returns without a match it returns the graph it was
given. -/
theorem split_result_of_not_fires {T : Int} {g g3 : Graph} {o : Operation} {r : LogicalResult}
    (hf : OpSplitPattern.fires T g o = false)
    (h : OpSplitPattern.matchAndRewrite T g o = some (r, g3)) : r = .failure ∧ g3 = g := by
  cases r with
  | success =>
    rw [fires_of_success h] at hf
    cases hf
  | failure =>
    refine ⟨rfl, ?_⟩
    unfold OpSplitPattern.matchAndRewrite at h
    split at h
    · rename_i padding sh sw hk
      by_cases hl : o.hasAttr opSplitLabel = true
      · rw [if_pos hl] at h; exact failure_graph_eq h
      rw [if_neg hl] at h
      by_cases h2 : (padding != "VALID") = true
      · rw [if_pos h2] at h; exact failure_graph_eq h
      rw [if_neg h2] at h
      obtain ⟨filter, -, h⟩ := Option.bind_eq_some.1 h
      obtain ⟨fH, -, h⟩ := Option.bind_eq_some.1 h
      obtain ⟨fW, -, h⟩ := Option.bind_eq_some.1 h
      by_cases h3 : (fH != fW) = true
      · rw [if_pos h3] at h; exact failure_graph_eq h
      rw [if_neg h3] at h
      obtain ⟨input, -, h⟩ := Option.bind_eq_some.1 h
      by_cases h4 : (!input.type.elementType.isQI8) = true
      · rw [if_pos h4] at h; exact failure_graph_eq h
      rw [if_neg h4] at h
      by_cases h5 : (!o.result.type.elementType.isQI8) = true
      · rw [if_pos h5] at h; exact failure_graph_eq h
      rw [if_neg h5] at h
      obtain ⟨H, -, h⟩ := Option.bind_eq_some.1 h
      obtain ⟨W, -, h⟩ := Option.bind_eq_some.1 h
      obtain ⟨D, -, h⟩ := Option.bind_eq_some.1 h
      by_cases h6 : outputSizeOf (toInt32 H) (toInt32 W) (toInt32 D) < toInt32 (2 * T)
      · rw [if_pos h6] at h; exact failure_graph_eq h
      rw [if_neg h6] at h
      simp at h
    · exact failure_graph_eq h

theorem raise_fires_of_success {g g2 : Graph} {s : Operation}
    (h : RaiseStridedSlicePattern.matchAndRewrite g s = some (.success, g2)) :
    RaiseStridedSlicePattern.fires g s = true := by
  unfold RaiseStridedSlicePattern.fires
  rw [h]

/-- When `RaiseStridedSlicePattern` returns without a match it returns the
graph it was given. -/
theorem raise_result_of_not_fires {g g3 : Graph} {o : Operation} {r : LogicalResult}
    (hf : RaiseStridedSlicePattern.fires g o = false)
    (h : RaiseStridedSlicePattern.matchAndRewrite g o = some (r, g3)) :
    r = .failure ∧ g3 = g := by
  cases r with
  | success =>
    rw [raise_fires_of_success h] at hf
    cases hf
  | failure =>
    refine ⟨rfl, ?_⟩
    unfold RaiseStridedSlicePattern.matchAndRewrite at h
    split at h
    · rename_i m1 m2 m3 m4 m5 hk
      by_cases hl : (!o.hasAttr opSplitLabel) = true
      · rw [if_pos hl] at h; exact failure_graph_eq h
      rw [if_neg hl] at h
      by_cases hl2 : o.hasAttr raisedStridedSliceLabel = true
      · rw [if_pos hl2] at h; exact failure_graph_eq h
      rw [if_neg hl2] at h
      obtain ⟨x, -, h⟩ := Option.bind_eq_some.1 h
      obtain ⟨conv, -, h⟩ := Option.bind_eq_some.1 h
      split at h
      · obtain ⟨convInput, -, h⟩ := Option.bind_eq_some.1 h
        obtain ⟨filter, -, h⟩ := Option.bind_eq_some.1 h
        obtain ⟨fW, -, h⟩ := Option.bind_eq_some.1 h
        obtain ⟨sliceEnd, -, h⟩ := Option.bind_eq_some.1 h
        split at h
        · exact failure_graph_eq h
        · obtain ⟨endIndex, -, h⟩ := Option.bind_eq_some.1 h
          obtain ⟨inH, -, h⟩ := Option.bind_eq_some.1 h
          obtain ⟨inD, -, h⟩ := Option.bind_eq_some.1 h
          obtain ⟨w, -, h⟩ := Option.bind_eq_some.1 h
          obtain ⟨inN, -, h⟩ := Option.bind_eq_some.1 h
          obtain ⟨st, -, h⟩ := Option.bind_eq_some.1 h
          obtain ⟨oN, -, h⟩ := Option.bind_eq_some.1 h
          obtain ⟨oH, -, h⟩ := Option.bind_eq_some.1 h
          obtain ⟨oD, -, h⟩ := Option.bind_eq_some.1 h
          simp at h
      · cases h
    · exact failure_graph_eq h

/-- C12: from a well-formed graph in which no operation bears the split label,
let the driver run `OpSplitPattern` until it matches no operation and then
`RaiseStridedSlicePattern` until it matches no operation. In the graph this
leaves neither pattern matches an operation; on the operations created while
the second pattern ran (the copies of convolutions and the strided slices among
them) both patterns decline; and whenever either pattern returns, on any
operation, it returns no match and the graph unchanged. -/
theorem pass_idempotent (T : Int) (g0 g1 g2 : Graph) (ls lh : List Operation)
    (hg : g0.WF) (hcl : g0.Closed) (hlab : ∀ o ∈ g0.ops, o.hasAttr opSplitLabel = false)
    (hsplit : applySplits T g0 ls = some g1)
    (hsfix : ∀ o ∈ g1.ops, OpSplitPattern.fires T g1 o = false)
    (hraise : applyRaises g1 lh = some g2)
    (hrfix : ∀ o ∈ g2.ops, RaiseStridedSlicePattern.fires g2 o = false) :
    (∀ o ∈ g2.ops, OpSplitPattern.fires T g2 o = false ∧
      RaiseStridedSlicePattern.fires g2 o = false) ∧
    (∀ o ∈ g2.ops, g1.nextId ≤ o.result.id →
      OpSplitPattern.matchAndRewrite T g2 o = some (.failure, g2) ∧
      RaiseStridedSlicePattern.matchAndRewrite g2 o = some (.failure, g2)) ∧
    (∀ o ∈ g2.ops, ∀ r g3,
      OpSplitPattern.matchAndRewrite T g2 o = some (r, g3) ∨
        RaiseStridedSlicePattern.matchAndRewrite g2 o = some (r, g3) →
      r = .failure ∧ g3 = g2) := by
  have h1 : g0.SliceInputsLabelled := by
    intro s hs _ hsa
    rw [hlab s hs] at hsa
    cases hsa
  have h2 : g0.SlicesFeedNoConv := by
    intro o _ _ v _ s hs _ hsa
    rw [hlab s hs] at hsa
    cases hsa
  obtain ⟨a1, a2, a3, a4⟩ := applySplits_invariants T ls g0 g1 hg hcl h1 h2 hsplit
  have hB : ∀ o ∈ g1.ops, g1.nextId ≤ o.result.id →
      (o.isConv2D = true → o.hasAttr opSplitLabel = true) ∧
      (o.isStridedSlice = true → o.hasAttr opSplitLabel = false) := by
    intro o ho hb
    have := a1.1 o ho
    omega
  obtain ⟨b1, b2⟩ := applyRaises_invariants T g1.nextId lh g1 g2 a1 a2 a3 a4 hsfix hB hraise
  refine ⟨fun o ho => ⟨b1 o ho, hrfix o ho⟩, ?_, ?_⟩
  · intro o ho hb
    obtain ⟨c1, c2⟩ := b2 o ho hb
    exact ⟨split_declines_labelled T g2 o c1, raise_declines_unlabelled g2 o c2⟩
  · intro o ho r g3 h
    rcases h with h | h
    · exact split_result_of_not_fires (b1 o ho) h
    · exact raise_result_of_not_fires (hrfix o ho) h

theorem pass_idempotent_witness :
    exampleGraph2.WF ∧ exampleGraph2.Closed ∧
    (∀ o ∈ exampleGraph2.ops, o.hasAttr opSplitLabel = false) ∧
    applySplits splitTensorSize exampleGraph2 [exampleConv2] = some exampleSplitGraph2 ∧
    (∀ o ∈ exampleSplitGraph2.ops,
      OpSplitPattern.fires splitTensorSize exampleSplitGraph2 o = false) ∧
    applyRaises exampleSplitGraph2 exampleSlices2 = some exampleRaisedGraph2 ∧
    (∀ o ∈ exampleRaisedGraph2.ops, RaiseStridedSlicePattern.fires exampleRaisedGraph2 o = false) ∧
    ((∀ o ∈ exampleRaisedGraph2.ops,
        OpSplitPattern.fires splitTensorSize exampleRaisedGraph2 o = false ∧
        RaiseStridedSlicePattern.fires exampleRaisedGraph2 o = false) ∧
      (∀ o ∈ exampleRaisedGraph2.ops, exampleSplitGraph2.nextId ≤ o.result.id →
        OpSplitPattern.matchAndRewrite splitTensorSize exampleRaisedGraph2 o =
          some (.failure, exampleRaisedGraph2) ∧
        RaiseStridedSlicePattern.matchAndRewrite exampleRaisedGraph2 o =
          some (.failure, exampleRaisedGraph2)) ∧
      (∀ o ∈ exampleRaisedGraph2.ops, ∀ r g3,
        OpSplitPattern.matchAndRewrite splitTensorSize exampleRaisedGraph2 o = some (r, g3) ∨
          RaiseStridedSlicePattern.matchAndRewrite exampleRaisedGraph2 o = some (r, g3) →
        r = .failure ∧ g3 = exampleRaisedGraph2)) :=
  ⟨by decide, by decide, by decide, by decide, by decide, by decide, by decide,
    pass_idempotent splitTensorSize exampleGraph2 exampleSplitGraph2 exampleRaisedGraph2
      [exampleConv2] exampleSlices2 (by decide) (by decide) (by decide) (by decide) (by decide)
      (by decide) (by decide)⟩

/-! ## The graph while the raise pattern runs -/

end OpSplit
